import Mathlib

/-!
# Verification of the `smithy` region-file engine and filesystem adapter

This file gives a shallow embedding, in Lean 4, of the core of the `smithy`
repository (`src/anvil.rs` and `src/smithy_fs.rs`), and settles the claims of
the specification against it.

Conventions of the embedding:
* Rust machine integers (`u8`, `u32`, `u64`, `usize`) are modelled as `Nat`;
  where the source truncates (an `as u8` / `as u32` cast) the model applies
  `% 2^w` explicitly.  Values read from byte buffers carry explicit `< 256`
  bounds where a theorem needs them.
* Byte buffers (`Vec<u8>`, `&[u8]`) are `List Nat`; bitmaps (`BitVec` of the
  `bitvec` crate) are `List Bool`.  Rust slice indexing that is in bounds in
  every reachable call is modelled with `List.getD _ _ 0` (the default is
  never used under the invariants proved below).
* Rust strings are `List Char`.  Where the source indexes by *bytes* the model
  tracks UTF-8 byte positions explicitly (`utf8Size`, `splitAtByte`), so that
  the byte-boundary panic of `str` slicing is representable.
* Fallible or panicking code returns `Option` / `Except Unit` (the `Except`
  error is a Rust panic).
-/

namespace Smithy

set_option maxRecDepth 40000

/-! ## Bit-level helpers

`read_big_endian` (src/anvil.rs:37) and the big-endian serialization in
`write_out` work through shifts and masks; the lemmas here convert those to
plain arithmetic. -/

/-- Model of `read_big_endian` (src/anvil.rs:37-43). -/
def readBE (raw : List Nat) (offset : Nat) : Nat :=
  ((raw.getD (0 + offset) 0) <<< 24)
    ||| ((raw.getD (1 + offset) 0) <<< 16)
    ||| ((raw.getD (2 + offset) 0) <<< 8)
    ||| (raw.getD (3 + offset) 0)

theorem testBit_false_of_lt {b : Nat} {k i : Nat} (hb : b < 2 ^ k) (hik : k ≤ i) :
    b.testBit i = false := by
  apply Nat.testBit_lt_two_pow
  exact lt_of_lt_of_le hb (Nat.pow_le_pow_right (by norm_num) hik)

theorem lor_eq_add (k : Nat) {a b : Nat} (ha : a % 2 ^ k = 0) (hb : b < 2 ^ k) :
    a ||| b = a + b := by
  apply Nat.eq_of_testBit_eq
  intro i
  rw [Nat.testBit_lor]
  rcases Nat.lt_or_ge i k with hik | hik
  · have ha' : a.testBit i = false := by
      have h := Nat.testBit_mod_two_pow a k i
      rw [ha] at h
      simpa [hik] using h.symm
    have hmod : (a + b) % 2 ^ k = b := by
      rw [Nat.add_mod, ha]
      simp [Nat.mod_eq_of_lt hb]
    have hb' : (a + b).testBit i = b.testBit i := by
      have h := Nat.testBit_mod_two_pow (a + b) k i
      rw [hmod] at h
      simp [hik] at h
      exact h.symm
    rw [ha', hb']
    simp
  · have hbf : b.testBit i = false := testBit_false_of_lt hb hik
    obtain ⟨m, hm⟩ := Nat.dvd_of_mod_eq_zero ha
    have hpos : 0 < 2 ^ k := Nat.pos_pow_of_pos k (by norm_num)
    have hdiv : (a + b) >>> k = a >>> k := by
      rw [Nat.shiftRight_eq_div_pow, Nat.shiftRight_eq_div_pow, hm,
        Nat.mul_comm (2 ^ k) m, Nat.add_comm (m * 2 ^ k) b,
        Nat.add_mul_div_right b m hpos, Nat.div_eq_of_lt hb,
        Nat.mul_div_cancel m hpos, Nat.zero_add]
    have hi : i = k + (i - k) := by omega
    have hab : (a + b).testBit i = a.testBit i := by
      rw [hi, ← Nat.testBit_shiftRight, ← Nat.testBit_shiftRight, hdiv]
    rw [hab, hbf]
    simp

theorem land_two_pow_sub_one (x m : Nat) : x &&& (2 ^ m - 1) = x % 2 ^ m := by
  apply Nat.eq_of_testBit_eq
  intro i
  rw [Nat.testBit_land, Nat.testBit_two_pow_sub_one, Nat.testBit_mod_two_pow,
    Bool.and_comm]

theorem land_255 (x : Nat) : x &&& 255 = x % 256 := land_two_pow_sub_one x 8

theorem land_mask24 (x : Nat) : x &&& 16777215 = x % 16777216 :=
  land_two_pow_sub_one x 24

/-- Recombination of four byte values, as done by `read_big_endian`. -/
theorem readBE_eq_of_bytes {b0 b1 b2 b3 : Nat}
    (h0 : b0 < 256) (h1 : b1 < 256) (h2 : b2 < 256) (h3 : b3 < 256) :
    (b0 <<< 24) ||| (b1 <<< 16) ||| (b2 <<< 8) ||| b3 =
      ((b0 * 256 + b1) * 256 + b2) * 256 + b3 := by
  have p24 : (2 : Nat) ^ 24 = 16777216 := by norm_num
  have p16 : (2 : Nat) ^ 16 = 65536 := by norm_num
  have p8 : (2 : Nat) ^ 8 = 256 := by norm_num
  have e1 : b0 <<< 24 ||| b1 <<< 16 = b0 * 16777216 + b1 * 65536 := by
    rw [Nat.shiftLeft_eq, Nat.shiftLeft_eq, p24, p16,
      lor_eq_add 24 (by rw [p24]; omega) (by rw [p24]; omega)]
  have e2 : b0 <<< 24 ||| b1 <<< 16 ||| b2 <<< 8 =
      b0 * 16777216 + b1 * 65536 + b2 * 256 := by
    rw [e1, Nat.shiftLeft_eq, p8,
      lor_eq_add 16 (by rw [p16]; omega) (by rw [p16]; omega)]
  rw [e2, lor_eq_add 8 (by rw [p8]; omega) (by rw [p8]; omega)]
  ring

theorem readBE_cons4 {b0 b1 b2 b3 : Nat} {rest : List Nat}
    (h0 : b0 < 256) (h1 : b1 < 256) (h2 : b2 < 256) (h3 : b3 < 256) :
    readBE (b0 :: b1 :: b2 :: b3 :: rest) 0 =
      ((b0 * 256 + b1) * 256 + b2) * 256 + b3 := by
  have e : readBE (b0 :: b1 :: b2 :: b3 :: rest) 0 =
      (b0 <<< 24) ||| (b1 <<< 16) ||| (b2 <<< 8) ||| b3 := rfl
  rw [e]
  exact readBE_eq_of_bytes h0 h1 h2 h3

/-! ## Compression selector codec (`CompressionType`, src/anvil.rs:453-536) -/

inductive CompressionType where
  | GZip
  | Zlib
  | None
  | LZ4
  | Zstd
  | Unknown (id : Nat)
deriving DecidableEq, Repr

/-- `CompressionType::decode` (src/anvil.rs:464-474). -/
def CompressionType.decode (id : Nat) : CompressionType :=
  match id with
  | 1 => .GZip
  | 2 => .Zlib
  | 3 => .None
  | 4 => .LZ4
  | 53 => .Zstd
  | id => .Unknown id

/-- `CompressionType::encode` (src/anvil.rs:476-486). -/
def CompressionType.encode : CompressionType → Nat
  | .GZip => 1
  | .Zlib => 2
  | .None => 3
  | .LZ4 => 4
  | .Zstd => 53
  | .Unknown id => id

/-- Decimal rendering of a `Nat`, as Rust's `{}` formatting of an integer.
The first argument is recursion fuel; `n` has at most `n + 1` digits, so the
fuel used by `natToChars` is never exhausted. -/
def natToCharsAux : Nat → Nat → List Char → List Char
  | 0, _, acc => acc
  | fuel + 1, n, acc =>
    let acc2 := Char.ofNat ('0'.toNat + n % 10) :: acc
    if n < 10 then acc2 else natToCharsAux fuel (n / 10) acc2

def natToChars (n : Nat) : List Char := natToCharsAux (n + 1) n []

/-- `CompressionType::make_selector_string` (src/anvil.rs:488-498).
The trailing `+ "\n"` of the source is included. -/
def CompressionType.make_selector_string : CompressionType → List Char
  | .GZip => "[gzip] zlib none lz4 zstd unknown(#)\n".toList
  | .Zlib => "gzip [zlib] none lz4 zstd unknown(#)\n".toList
  | .None => "gzip zlib [none] lz4 zstd unknown(#)\n".toList
  | .LZ4 => "gzip zlib none [lz4] zstd unknown(#)\n".toList
  | .Zstd => "gzip zlib none lz4 [zstd] unknown(#)\n".toList
  | .Unknown id => "gzip zlib none lz4 zstd [unknown(".toList ++ natToChars id ++ ")]\n".toList

/-- The Unicode `White_Space` set, i.e. Rust `char::is_whitespace`. -/
def isWhitespaceChar (c : Char) : Bool :=
  c.toNat ∈ [0x09, 0x0A, 0x0B, 0x0C, 0x0D, 0x20, 0x85, 0xA0, 0x1680,
    0x2000, 0x2001, 0x2002, 0x2003, 0x2004, 0x2005, 0x2006, 0x2007, 0x2008,
    0x2009, 0x200A, 0x2028, 0x2029, 0x202F, 0x205F, 0x3000]

/-- Rust `u8::to_ascii_lowercase`, per character. -/
def toAsciiLower (c : Char) : Char :=
  if 'A' ≤ c ∧ c ≤ 'Z' then Char.ofNat (c.toNat + 32) else c

/-- Rust `str::trim`. -/
def trimList (s : List Char) : List Char :=
  ((s.dropWhile isWhitespaceChar).reverse.dropWhile isWhitespaceChar).reverse

def isAsciiDigit (c : Char) : Bool := decide ('0' ≤ c ∧ c ≤ '9')

def digitVal (c : Char) : Nat := c.toNat - '0'.toNat

/-- Model of Rust `str::parse::<u8>`: an optional leading `+`, then one or
more ASCII digits, and the value must fit in `u8` (overflow is an error). -/
def parseU8 (s : List Char) : Option Nat :=
  let t := match s with
    | '+' :: rest => rest
    | _ => s
  if t = [] then none
  else if t.all isAsciiDigit then
    let v := t.foldl (fun acc c => acc * 10 + digitVal c) 0
    if v < 256 then some v else none
  else none

def startsWithL (s p : List Char) : Bool := s.take p.length == p

def endsWithL (s p : List Char) : Bool :=
  p.length ≤ s.length && s.drop (s.length - p.length) == p

/-- Index of the first occurrence of `c` (Rust `str::find(char)`; for the
ASCII needles used by the codec, byte index and char index coincide). -/
def findCharIdx (c : Char) : List Char → Option Nat
  | [] => none
  | d :: rest => if d = c then some 0 else (findCharIdx c rest).map (· + 1)

theorem findCharIdx_lt_length {c : Char} :
    ∀ {s : List Char} {i : Nat}, findCharIdx c s = some i → i < s.length := by
  intro s
  induction s with
  | nil => intro i h; simp [findCharIdx] at h
  | cons d rest ih =>
    intro i h
    by_cases hd : d = c
    · rw [findCharIdx, if_pos hd] at h
      have hz : i = 0 := by simpa using h.symm
      simp only [hz, List.length_cons]
      omega
    · rw [findCharIdx, if_neg hd] at h
      cases hj : findCharIdx c rest with
      | none => rw [hj] at h; exact Option.noConfusion h
      | some j =>
        rw [hj] at h
        have hjl := ih hj
        have hji : j + 1 = i := by
          have h2 : some (j + 1) = some i := h
          exact Option.some.inj h2
        simp only [List.length_cons]
        omega

theorem trimList_length_le (s : List Char) : (trimList s).length ≤ s.length := by
  unfold trimList
  calc ((s.dropWhile isWhitespaceChar).reverse.dropWhile isWhitespaceChar).reverse.length
      = ((s.dropWhile isWhitespaceChar).reverse.dropWhile isWhitespaceChar).length := by
        rw [List.length_reverse]
    _ ≤ (s.dropWhile isWhitespaceChar).reverse.length :=
        (List.dropWhile_sublist isWhitespaceChar).length_le
    _ = (s.dropWhile isWhitespaceChar).length := by rw [List.length_reverse]
    _ ≤ s.length := (List.dropWhile_sublist isWhitespaceChar).length_le

/-- The non-recursive `out` computation of `parse_selector_string`
(src/anvil.rs:504-519), applied to the already lower-cased and trimmed
input. -/
def selOut (sel : List Char) : Option CompressionType :=
  if sel = "gzip".toList then some .GZip
  else if sel = "zlib".toList then some .Zlib
  else if sel = "none".toList then some .None
  else if sel = "lz4".toList then some .LZ4
  else if sel = "zstd".toList then some .Zstd
  else
    let s :=
      if startsWithL sel "unknown(".toList && endsWithL sel ")".toList
      then (sel.drop 8).take (sel.length - 1 - 8)
      else sel
    (parseU8 s).map CompressionType.decode

/-- Body of `CompressionType::parse_selector_string` (src/anvil.rs:500-535).
The first argument is recursion fuel: the recursive call is on the substring
strictly between the first `[` and the following `]` of the trimmed input,
whose length is at most `selector.length - 2`, so starting the fuel at
`selector.length + 1` (see `parse_selector_string`) it is never exhausted;
`parseSelAux_fuel_irrel` makes that formal. -/
def parseSelAux : Nat → List Char → Option CompressionType
  | 0, _ => none
  | fuel + 1, selector =>
    match selOut (trimList (selector.map toAsciiLower)) with
    | some ct => some ct
    | none =>
      match findCharIdx '[' (trimList (selector.map toAsciiLower)) with
      | none => none
      | some i =>
        match findCharIdx ']' ((trimList (selector.map toAsciiLower)).drop (i + 1)) with
        | none => none
        | some len =>
          if 0 < len then
            parseSelAux fuel
              (((trimList (selector.map toAsciiLower)).drop (i + 1)).take len)
          else none

/-- `CompressionType::parse_selector_string` (src/anvil.rs:500-535). -/
def CompressionType.parse_selector_string (selector : List Char) :
    Option CompressionType :=
  parseSelAux (selector.length + 1) selector

/-- The fuel of `parseSelAux` is irrelevant as long as it majorizes the
length of the input, which justifies reading `parse_selector_string` as the
unbounded recursion of the source. -/
theorem parseSelAux_fuel_irrel :
    ∀ f1 : Nat, ∀ f2 : Nat, ∀ s : List Char, s.length < f1 → s.length < f2 →
      parseSelAux f1 s = parseSelAux f2 s := by
  intro f1
  induction f1 with
  | zero => intro f2 s h1 h2; omega
  | succ f ih =>
    intro f2 s h1 h2
    cases f2 with
    | zero => omega
    | succ g =>
      rw [parseSelAux, parseSelAux]
      cases hout : selOut (trimList (s.map toAsciiLower)) with
      | some ct => rfl
      | none =>
        cases hfb : findCharIdx '[' (trimList (s.map toAsciiLower)) with
        | none => rfl
        | some i =>
          cases hcb : findCharIdx ']' ((trimList (s.map toAsciiLower)).drop (i + 1)) with
          | none => simp only [hcb]
          | some len =>
            simp only [hcb]
            by_cases hlen : 0 < len
            · rw [if_pos hlen, if_pos hlen]
              have hsel : (trimList (s.map toAsciiLower)).length ≤ s.length := by
                have h := trimList_length_le (s.map toAsciiLower)
                simpa using h
              have hi : i < (trimList (s.map toAsciiLower)).length :=
                findCharIdx_lt_length hfb
              have hsub :
                  (((trimList (s.map toAsciiLower)).drop (i + 1)).take len).length
                    ≤ s.length - 1 := by
                rw [List.length_take, List.length_drop]
                omega
              exact ih g _ (by omega) (by omega)
            · rw [if_neg hlen, if_neg hlen]

/-! ### Claim C4: selector round trip -/

/-- Well-formedness of a `CompressionType` value: the payload of `Unknown`
is a `u8` in the source. -/
def CompressionType.wf : CompressionType → Prop
  | .Unknown id => id < 256
  | _ => True

instance (ct : CompressionType) : Decidable ct.wf :=
  match ct with
  | .GZip => isTrue trivial
  | .Zlib => isTrue trivial
  | .None => isTrue trivial
  | .LZ4 => isTrue trivial
  | .Zstd => isTrue trivial
  | .Unknown id => Nat.decLt id 256

/-- C4 counterexample: the claim demands `parse (make ct) = some ct` for
`Unknown(id)` with *any* u8 id, but for an id that collides with a named
codec the parser returns the named variant: `Unknown(2)` comes back as
`Zlib`, which is not equal to `Unknown 2`. -/
theorem C4_counterexample :
    CompressionType.parse_selector_string
        (CompressionType.make_selector_string (.Unknown 2)) ≠
      some (.Unknown 2) ∧
    CompressionType.parse_selector_string
        (CompressionType.make_selector_string (.Unknown 2)) = some .Zlib := by
  constructor
  · decide
  · decide

/-- C4 (amended): for every codec `ct` (with a u8 payload for `Unknown`),
`parse_selector_string (make_selector_string ct)` returns
`some (decode (encode ct))` — the codec with the same encoded id as `ct`.
This value is `ct` itself for the five named codecs and for `Unknown id`
whenever `id` is not one of the named ids `{1, 2, 3, 4, 53}` (second
conjunct); for `Unknown` of a named id the named variant is returned
instead. -/
theorem C4_selector_roundtrip :
    (∀ ct : CompressionType, ct.wf →
      CompressionType.parse_selector_string
          (CompressionType.make_selector_string ct) =
        some (CompressionType.decode ct.encode)) ∧
    (∀ id : Nat, id < 256 → id ∉ ([1, 2, 3, 4, 53] : List Nat) →
      CompressionType.decode id = .Unknown id) := by
  constructor
  · intro ct h
    cases ct with
    | GZip => decide
    | Zlib => decide
    | None => decide
    | LZ4 => decide
    | Zstd => decide
    | Unknown id =>
      have hf : ∀ i : Fin 256,
          CompressionType.parse_selector_string
              (CompressionType.make_selector_string (.Unknown i.val)) =
            some (CompressionType.decode i.val) := by decide
      exact hf ⟨id, h⟩
  · intro id h hmem
    have hf : ∀ i : Fin 256, i.val ∉ ([1, 2, 3, 4, 53] : List Nat) →
        CompressionType.decode i.val = .Unknown i.val := by decide
    exact hf ⟨id, h⟩ hmem

theorem C4_selector_roundtrip_witness :
    CompressionType.wf (.Unknown 255) ∧
    CompressionType.parse_selector_string
        (CompressionType.make_selector_string (.Unknown 255)) =
      some (CompressionType.decode (CompressionType.encode (.Unknown 255))) :=
  ⟨by decide, C4_selector_roundtrip.1 (.Unknown 255) (by decide)⟩

/-! ## Name and kind codec (src/smithy_fs.rs:37-154) -/

inductive FileKind where
  | Chunk
  | CompressionInfo
deriving DecidableEq, Repr

/-- `FileKind::make_fname` (src/smithy_fs.rs:127-134):
`format!("x{}z{}{}", x, z, ext)`. -/
def FileKind.make_fname (k : FileKind) (x z : Nat) : List Char :=
  'x' :: (natToChars x ++ 'z' :: (natToChars z ++
    (match k with
     | .Chunk => ".nbt".toList
     | .CompressionInfo => ".cmp".toList)))

/-- Byte count of the UTF-8 encoding of `c` (Rust `char::len_utf8`). -/
def utf8Size (c : Char) : Nat :=
  if c.toNat < 0x80 then 1
  else if c.toNat < 0x800 then 2
  else if c.toNat < 0x10000 then 3
  else 4

/-- Rust `str::len`: the length in bytes. -/
def byteLen (s : List Char) : Nat := (s.map utf8Size).sum

/-- Split a string at UTF-8 byte index `k`.  `Except.error ()` — a Rust
panic — when `k` does not fall on a character boundary, exactly as Rust
`str` slicing panics. -/
def splitAtByte : Nat → List Char → Except Unit (List Char × List Char)
  | 0, s => .ok ([], s)
  | _ + 1, [] => .error ()
  | k + 1, c :: rest =>
    if k + 1 < utf8Size c then .error ()
    else (splitAtByte (k + 1 - utf8Size c) rest).map (fun p => (c :: p.1, p.2))

/-- `FileKind::parse_extension` (src/smithy_fs.rs:136-146).  The source
slices the final four *bytes* of the name (`&fname[fname.len()-4..]`): when
that position is not a character boundary Rust panics, modelled by
`Except.error`. -/
def FileKind.parse_extension (fname : List Char) :
    Except Unit (Option (FileKind × List Char)) :=
  if byteLen fname < 4 then .ok none
  else
    match splitAtByte (byteLen fname - 4) fname with
    | .error _ => .error ()
    | .ok (pre, suf) =>
      if suf = ".nbt".toList then .ok (some (.Chunk, pre))
      else if suf = ".cmp".toList then .ok (some (.CompressionInfo, pre))
      else .ok none

/-- The state enum of the `FileKey::parse` state machine
(src/smithy_fs.rs:48-52).  The `u8` fields are modelled as `Nat`; the parser
accepts at most two digits per number so the values stay below 100 and the
`u8` arithmetic `x * 10 + d` never wraps. -/
inductive NameFSM where
  | Uninit
  | X (x : Nat) (n : Nat)
  | Z (x : Nat) (z : Nat) (n : Nat)
deriving DecidableEq, Repr

/-- Rust `char::to_digit(10)`. -/
def toDigit10 (c : Char) : Option Nat :=
  if '0' ≤ c ∧ c ≤ '9' then some (c.toNat - '0'.toNat) else none

/-- The `while let` loop of `FileKey::parse` (src/smithy_fs.rs:60-101).
`none` models the `return None` exits taken in state `Z`; `some st` is the
loop finishing — by exhausting the input or by `break`, which leaves the
state variable unchanged. -/
def runNameFSM : NameFSM → List Char → Option NameFSM
  | st, [] => some st
  | st, c :: rest =>
    match st with
    | .Uninit =>
      match c with
      | 'x' => runNameFSM (.X 0 2) rest
      | _ => some .Uninit
    | .X x n =>
      match toDigit10 c with
      | some d =>
        if n = 0 then some (.X x n)
        else if n < 2 ∧ x = 0 then some (.X x n)
        else runNameFSM (.X (x * 10 + d) (n - 1)) rest
      | none =>
        if c = 'z' then runNameFSM (.Z x 0 2) rest
        else some (.X x n)
    | .Z x z n =>
      if n = 0 then none
      else if n < 2 ∧ z = 0 then none
      else
        match toDigit10 c with
        | some d => runNameFSM (.Z x (z * 10 + d) (n - 1)) rest
        | none => none

structure FileKey where
  x : Nat
  z : Nat
  kind : FileKind
deriving DecidableEq, Repr

deriving instance DecidableEq for Except

/-- `FileKey::parse` (src/smithy_fs.rs:47-107).  `Except.error` is the
byte-boundary panic escaping from `FileKind::parse_extension`. -/
def FileKey.parse (name : List Char) : Except Unit (Option FileKey) :=
  match FileKind.parse_extension name with
  | .error _ => .error ()
  | .ok none => .ok none
  | .ok (some (kind, stem)) =>
    match runNameFSM .Uninit stem with
    | some (.Z x z n) =>
      if n < 2 ∧ x < 32 ∧ z < 32 then .ok (some ⟨x, z, kind⟩) else .ok none
    | _ => .ok none

/-! ### Claim C3: strict name grammar -/

/-- C3: the claim (and the spec's strict grammar) requires `"xz0.nbt"` to be
rejected — the x number must consume at least one digit.  The code accepts
it: the `X → Z` transition of the state machine never checks that a digit
was consumed for `x`, so `"xz0.nbt"` parses as chunk `(0, 0)` — an alias of
`"x0z0.nbt"`.  This theorem evaluates the parser at the failing input. -/
theorem C3_failing_input :
    FileKey.parse "xz0.nbt".toList = .ok (some ⟨0, 0, .Chunk⟩) ∧
    FileKey.parse "x0z0.nbt".toList = .ok (some ⟨0, 0, .Chunk⟩) := by
  constructor
  · decide
  · decide

/-! ### Claim C10: totality of the name parser -/

/-- C10: `FileKey::parse` is *not* total: `FileKind::parse_extension` slices
`&fname[fname.len()-4..]` by bytes, and for the 5-byte name `"énbt"` the
position 1 falls inside the two-byte encoding of `'é'`, so the slice
panics.  The claim that every UTF-8 name yields `Some`/`None` without
panicking is refuted at this input. -/
theorem C10_panic_input :
    FileKey.parse "énbt".toList = .error () ∧ byteLen "énbt".toList = 5 := by
  constructor
  · decide
  · decide

/-! ## Ino allocation (src/smithy_fs.rs:372-413) -/

/-- `fuser::FUSE_ROOT_ID`. -/
def FUSE_ROOT_ID : Nat := 1

structure InoSet where
  chunk_ino : Nat
  info_ino : Nat
deriving DecidableEq, Repr

/-- `InoSet::get` (src/smithy_fs.rs:378-383). -/
def InoSet.get (s : InoSet) (kind : FileKind) : Nat :=
  match kind with
  | .Chunk => s.chunk_ino
  | .CompressionInfo => s.info_ino

/-- `InoAlloc::new` (src/smithy_fs.rs:396-398): the counter starts at
`FUSE_ROOT_ID + 1`. -/
def InoAlloc.start : Nat := FUSE_ROOT_ID + 1

/-- `InoAlloc::allocate_inos` (src/smithy_fs.rs:400-412).  The counter is a
`u64`: `(self.0 + 1) & (!1)` clears the lowest bit — `!1 = 2^64 - 2` — and
the increments wrap modulo `2^64`. -/
def allocate_inos (c : Nat) : InoSet × Nat :=
  let n := ((c + 1) % 2 ^ 64) &&& (2 ^ 64 - 2)
  (⟨n, (n + 1) % 2 ^ 64⟩, (n + 2) % 2 ^ 64)

/-- Counter value after `k` calls on a fresh allocator. -/
def inoCounter : Nat → Nat
  | 0 => InoAlloc.start
  | k + 1 => (allocate_inos (inoCounter k)).2

/-- The `InoSet` returned by the `k`-th call (0-based) on a fresh
allocator. -/
def inoPair (k : Nat) : InoSet := (allocate_inos (inoCounter k)).1

theorem land_u64_even {n : Nat} (h : n < 2 ^ 64) :
    n &&& (2 ^ 64 - 2) = 2 * (n / 2) := by
  apply Nat.eq_of_testBit_eq
  intro i
  rw [Nat.testBit_land]
  cases i with
  | zero =>
    have hr : (2 * (n / 2)).testBit 0 = false := by
      simp [Nat.testBit_zero, Nat.mul_mod_right]
    have hm : (2 ^ 64 - 2 : Nat).testBit 0 = false := by decide
    rw [hr, hm, Bool.and_false]
  | succ j =>
    have hmask : (2 ^ 64 - 2 : Nat).testBit (j + 1) = decide (j < 63) := by
      have he : (2 ^ 64 - 2 : Nat) = 2 * (2 ^ 63 - 1) := by norm_num
      rw [he, Nat.testBit_succ, Nat.mul_div_cancel_left _ (by norm_num),
        Nat.testBit_two_pow_sub_one]
    have hr : (2 * (n / 2)).testBit (j + 1) = n.testBit (j + 1) := by
      rw [Nat.testBit_succ, Nat.mul_div_cancel_left _ (by norm_num),
        ← Nat.testBit_succ]
    rw [hmask, hr]
    rcases Nat.lt_or_ge j 63 with hj | hj
    · simp [hj]
    · have hn : n.testBit (j + 1) = false :=
        testBit_false_of_lt h (by omega)
      simp [hn]

theorem inoCounter_eq {k : Nat} (h : k < 2 ^ 62) : inoCounter k = 2 * k + 2 := by
  induction k with
  | zero => rfl
  | succ j ih =>
    have hj : j < 2 ^ 62 := by omega
    have hrec := ih hj
    have hlt : 2 * j + 3 < 2 ^ 64 := by
      have : 2 * j + 3 < 2 * 2 ^ 62 + 3 := by omega
      omega
    rw [inoCounter, hrec]
    show ((((2 * j + 2) + 1) % 2 ^ 64 &&& (2 ^ 64 - 2)) + 2) % 2 ^ 64 = 2 * (j + 1) + 2
    rw [Nat.mod_eq_of_lt hlt, land_u64_even hlt]
    have he : (2 * j + 3) / 2 = j + 1 := by omega
    rw [he, Nat.mod_eq_of_lt (by omega)]

theorem inoPair_eq {k : Nat} (h : k < 2 ^ 62) :
    inoPair k = ⟨2 * k + 2, 2 * k + 3⟩ := by
  have hc := inoCounter_eq h
  have hlt : 2 * k + 3 < 2 ^ 64 := by omega
  rw [inoPair, hc]
  show (⟨((2 * k + 2 + 1) % 2 ^ 64 &&& (2 ^ 64 - 2)),
    (((2 * k + 2 + 1) % 2 ^ 64 &&& (2 ^ 64 - 2)) + 1) % 2 ^ 64⟩ : InoSet) = _
  rw [Nat.mod_eq_of_lt hlt, land_u64_even hlt]
  have he : (2 * k + 3) / 2 = k + 1 := by omega
  rw [he, Nat.mod_eq_of_lt (by omega)]
  simp only [InoSet.mk.injEq]
  omega

/-! ### Claim C9: ino allocator -/

/-- C9 counterexample: the first call on a fresh allocator returns
`{chunk_ino = 2, info_ino = 3}`, and `2 < FUSE_ROOT_ID + 2 = 3`, refuting
the claimed lower bound `n ≥ FUSE_ROOT_ID + 2`. -/
theorem C9_counterexample :
    inoPair 0 = ⟨2, 3⟩ ∧ ¬ (FUSE_ROOT_ID + 2 ≤ (inoPair 0).chunk_ino) := by
  constructor
  · decide
  · decide

/-- C9 (amended): every call returns an aligned pair
`{chunk_ino = n, info_ino = n + 1}` with `n` even and `n ≥ FUSE_ROOT_ID + 1`
(the first pair is `(2, 3)`, so the bound `FUSE_ROOT_ID + 2` of the original
claim fails by one), and calls return strictly increasing, non-overlapping
pairs — no ino is assigned twice.  The `i < 2^62` bounds keep the `u64`
counter far from wrap-around; they are satisfied by every physically
realizable call sequence. -/
theorem C9_ino_pairs :
    ∀ i : Nat, ∀ j : Nat, i < 2 ^ 62 → j < 2 ^ 62 →
      (inoPair i).chunk_ino = 2 * i + 2 ∧
      (inoPair i).info_ino = (inoPair i).chunk_ino + 1 ∧
      (inoPair i).chunk_ino % 2 = 0 ∧
      FUSE_ROOT_ID + 1 ≤ (inoPair i).chunk_ino ∧
      (i < j → (inoPair i).info_ino < (inoPair j).chunk_ino) := by
  intro i j hi hj
  rw [inoPair_eq hi, inoPair_eq hj]
  refine ⟨rfl, rfl, ?_, ?_, ?_⟩
  · show (2 * i + 2) % 2 = 0
    omega
  · show FUSE_ROOT_ID + 1 ≤ 2 * i + 2
    have hr : FUSE_ROOT_ID = 1 := rfl
    omega
  · intro hij
    show 2 * i + 3 < 2 * j + 2
    omega

theorem C9_ino_pairs_witness :
    (0 : Nat) < 2 ^ 62 ∧ (1 : Nat) < 2 ^ 62 ∧
    (inoPair 0).chunk_ino = 2 ∧
    (inoPair 0).info_ino < (inoPair 1).chunk_ino :=
  ⟨by norm_num, by norm_num,
    (C9_ino_pairs 0 1 (by norm_num) (by norm_num)).1,
    (C9_ino_pairs 0 1 (by norm_num) (by norm_num)).2.2.2.2 (by norm_num)⟩

/-! ## List update helpers

`fillRange l a b v` models the Rust `slice[a..b].fill(v)` (clamped; the
source only ever fills in-bounds ranges, enforced by the invariants below);
`writeRange l pos vs` models `slice[pos..pos+vs.len()].copy_from_slice(vs)`.
Both preserve the length of `l`. -/

def fillRange {α : Type} : List α → Nat → Nat → α → List α
  | [], _, _, _ => []
  | x :: xs, a, b, v =>
    (if a = 0 ∧ 0 < b then v else x) :: fillRange xs (a - 1) (b - 1) v

def writeRange {α : Type} : List α → Nat → List α → List α
  | [], _, _ => []
  | x :: xs, 0, [] => x :: xs
  | _ :: xs, 0, v :: vs => v :: writeRange xs 0 vs
  | x :: xs, p + 1, vs => x :: writeRange xs p vs

theorem length_fillRange {α : Type} (l : List α) (a b : Nat) (v : α) :
    (fillRange l a b v).length = l.length := by
  induction l generalizing a b with
  | nil => rfl
  | cons x xs ih => simp [fillRange, ih]

theorem getD_fillRange {α : Type} (l : List α) (a b : Nat) (v : α) (i : Nat) (d : α) :
    (fillRange l a b v).getD i d =
      if a ≤ i ∧ i < b ∧ i < l.length then v else l.getD i d := by
  induction l generalizing a b i with
  | nil => simp [fillRange]
  | cons x xs ih =>
    cases i with
    | zero =>
      by_cases h : a = 0 ∧ 0 < b
      · rw [if_pos ⟨by omega, by omega, by simp⟩]
        simp only [fillRange, List.getD_cons_zero, if_pos h]
      · simp only [fillRange, List.getD_cons_zero, if_neg h]
        rw [if_neg]
        intro hc
        exact h ⟨by omega, by omega⟩
    | succ j =>
      simp only [fillRange, List.getD_cons_succ]
      rw [ih]
      by_cases h : a ≤ j + 1 ∧ j + 1 < b ∧ j + 1 < (x :: xs).length
      · rw [if_pos (by simp at h ⊢; omega), if_pos h]
      · rw [if_neg (by simp at h ⊢; omega), if_neg h]

theorem length_writeRange {α : Type} (l : List α) (p : Nat) (vs : List α) :
    (writeRange l p vs).length = l.length := by
  induction l generalizing p vs with
  | nil => rfl
  | cons x xs ih =>
    cases p with
    | zero =>
      cases vs with
      | nil => rfl
      | cons v vt => simp [writeRange, ih]
    | succ q => simp [writeRange, ih]

theorem getD_writeRange {α : Type} (l : List α) (p : Nat) (vs : List α) (i : Nat) (d : α) :
    (writeRange l p vs).getD i d =
      if p ≤ i ∧ i < p + vs.length ∧ i < l.length then vs.getD (i - p) d
      else l.getD i d := by
  induction l generalizing p vs i with
  | nil => simp [writeRange]
  | cons x xs ih =>
    cases p with
    | zero =>
      cases vs with
      | nil => simp [writeRange]
      | cons v vt =>
        cases i with
        | zero => simp [writeRange, List.getD]
        | succ j =>
          simp only [writeRange, List.getD_cons_succ]
          rw [ih]
          simp only [List.length_cons, Nat.zero_add, Nat.sub_zero,
            List.getD_cons_succ]
          by_cases h : j < vt.length ∧ j < xs.length
          · rw [if_pos ⟨Nat.zero_le _, h.1, h.2⟩,
              if_pos ⟨Nat.zero_le _, by omega, by omega⟩]
          · rw [if_neg (fun hc => h ⟨hc.2.1, hc.2.2⟩),
              if_neg (fun hc => h ⟨by omega, by omega⟩)]
    | succ q =>
      cases i with
      | zero =>
        simp only [writeRange, List.getD_cons_zero]
        rw [if_neg (by omega)]
      | succ j =>
        simp only [writeRange, List.getD_cons_succ]
        rw [ih]
        simp only [List.length_cons]
        by_cases h : q ≤ j ∧ j < q + vs.length ∧ j < xs.length
        · rw [if_pos h, if_pos (⟨by omega, by omega, by omega⟩ :
            q + 1 ≤ j + 1 ∧ j + 1 < q + 1 + vs.length ∧ j + 1 < xs.length + 1)]
          have he : j + 1 - (q + 1) = j - q := by omega
          rw [he]
        · rw [if_neg h, if_neg (fun hc => h ⟨by omega, by omega, by omega⟩)]

theorem getD_append {α : Type} {l1 l2 : List α} {i : Nat} {d : α} :
    (l1 ++ l2).getD i d =
      if i < l1.length then l1.getD i d else l2.getD (i - l1.length) d := by
  rw [List.getD_eq_getElem?_getD, List.getElem?_append]
  split
  · rw [List.getD_eq_getElem?_getD]
  · rw [List.getD_eq_getElem?_getD]

theorem getD_replicate {α : Type} {n : Nat} {a : α} {i : Nat} {d : α} :
    (List.replicate n a).getD i d = if i < n then a else d := by
  rw [List.getD_eq_getElem?_getD, List.getElem?_replicate]
  split <;> rfl

theorem getD_take {α : Type} {l : List α} {n i : Nat} {d : α} :
    (l.take n).getD i d = if i < n then l.getD i d else d := by
  rw [List.getD_eq_getElem?_getD, List.getElem?_take]
  split
  · rw [List.getD_eq_getElem?_getD]
  · rfl

theorem getD_drop {α : Type} {l : List α} {n i : Nat} {d : α} :
    (l.drop n).getD i d = l.getD (n + i) d := by
  rw [List.getD_eq_getElem?_getD, List.getElem?_drop,
    List.getD_eq_getElem?_getD]

theorem getD_set {α : Type} {l : List α} {i j : Nat} {a : α} {d : α} :
    (l.set i a).getD j d =
      if i = j ∧ i < l.length then a else l.getD j d := by
  rw [List.getD_eq_getElem?_getD, List.getElem?_set]
  by_cases hij : i = j
  · subst hij
    by_cases hl : i < l.length
    · rw [if_pos rfl, if_pos hl, if_pos ⟨rfl, hl⟩]
      rfl
    · rw [if_pos rfl, if_neg hl, if_neg (by omega)]
      rw [List.getD_eq_getElem?_getD, List.getElem?_eq_none (by omega)]
  · rw [if_neg hij, if_neg (by omega), List.getD_eq_getElem?_getD]

theorem getD_map_range {α : Type} {f : Nat → α} {n i : Nat} {d : α} :
    ((List.range n).map f).getD i d = if i < n then f i else d := by
  rw [List.getD_eq_getElem?_getD, List.getElem?_map]
  by_cases h : i < n
  · rw [List.getElem?_range h, if_pos h]
    rfl
  · rw [if_neg h, List.getElem?_eq_none (by simpa using h)]
    rfl

theorem length_flatten_map4 {β : Type} (f : β → List Nat)
    (hf : ∀ b, (f b).length = 4) (l : List β) :
    ((l.map f).flatten).length = 4 * l.length := by
  induction l with
  | nil => rfl
  | cons x xs ih =>
    simp only [List.map_cons, List.flatten_cons, List.length_append, ih, hf,
      List.length_cons]
    ring

theorem getD_flatten_map4 {β : Type} (f : β → List Nat)
    (hf : ∀ b, (f b).length = 4) (l : List β) (b0 : β) :
    ∀ i j d, i < l.length → j < 4 →
      ((l.map f).flatten).getD (4 * i + j) d = (f (l.getD i b0)).getD j d := by
  induction l with
  | nil => intro i j d hi hj; simp at hi
  | cons x xs ih =>
    intro i j d hi hj
    cases i with
    | zero =>
      simp only [List.map_cons, List.flatten_cons]
      rw [getD_append, if_pos (by rw [hf]; omega)]
      have h0 : 4 * 0 + j = j := by omega
      rw [h0]
      rfl
    | succ i2 =>
      simp only [List.map_cons, List.flatten_cons]
      rw [getD_append, if_neg (by rw [hf]; omega), hf]
      have harith : 4 * (i2 + 1) + j - 4 = 4 * i2 + j := by omega
      rw [harith]
      have hi2 : i2 < xs.length := by simpa using hi
      exact ih i2 j d hi2 hj

/-! ## Region engine (src/anvil.rs) -/

def SECTOR_LEN : Nat := 0x1000

def HEADER_SECTORS : Nat := 2

def HEADER_LEN : Nat := HEADER_SECTORS * SECTOR_LEN

def MAX_CHUNK_LEN : Nat := SECTOR_LEN * 254

def MAX_SECTORS : Nat := 2 ^ 24 - 1 - HEADER_SECTORS

/-- Rust `usize::div_ceil` (for a positive divisor). -/
def divCeil (n m : Nat) : Nat := (n + m - 1) / m

/-- `coords_to_idx` (src/anvil.rs:27-29). -/
def coords_to_idx (x z : Nat) : Nat := (x &&& 31) ||| ((z &&& 31) <<< 5)

/-- `idx_to_coords` (src/anvil.rs:32-34). -/
def idx_to_coords (idx : Nat) : Nat × Nat := (idx &&& 31, (idx >>> 5) &&& 31)

structure ChunkAddress where
  offset : Nat
  len : Nat
deriving DecidableEq, Repr

structure ChunkHeader where
  address : Option ChunkAddress
  mtime : Nat
deriving DecidableEq, Repr

/-- `ChunkHeader::new` (src/anvil.rs:426-434). -/
def ChunkHeader.new (offset len mtime sector_count : Nat) : ChunkHeader :=
  { address :=
      if 2 ≤ offset ∧ 0 < len ∧ offset + len - 2 ≤ sector_count
      then some ⟨offset, len⟩ else none,
    mtime := mtime }

/-- `ChunkHeader::valid` (src/anvil.rs:437-439). -/
def ChunkHeader.valid (h : ChunkHeader) : Bool := h.address.isSome

/-- `ChunkHeader::set_mtime` (src/anvil.rs:445-450): the `as u32` cast of
the epoch seconds truncates modulo `2^32`. -/
def ChunkHeader.set_mtime (h : ChunkHeader) (now : Nat) : ChunkHeader :=
  { h with mtime := now % 2 ^ 32 }

structure ChunkInternalMeta where
  length : Nat
  compression_type : CompressionType
deriving DecidableEq, Repr

/-- `ChunkInternalMeta::LEN` (src/anvil.rs:391). -/
def ChunkInternalMeta.LEN : Nat := 5

/-- `ChunkInternalMeta::read` (src/anvil.rs:393-398). -/
def ChunkInternalMeta.read (raw : List Nat) : ChunkInternalMeta :=
  { length := readBE raw 0,
    compression_type := CompressionType.decode (raw.getD 4 0) }

/-- The five bytes written by `ChunkInternalMeta::write` (src/anvil.rs:
400-406): big-endian `length`, then the codec byte.  (The source writes
them into `raw[0..5]`; `write_chunk` below composes this with
`writeRange`.) -/
def ChunkInternalMeta.writeBytes (m : ChunkInternalMeta) : List Nat :=
  [(m.length >>> 24) &&& 0xff, (m.length >>> 16) &&& 0xff,
   (m.length >>> 8) &&& 0xff, (m.length >>> 0) &&& 0xff,
   m.compression_type.encode]

structure RegionFile where
  headers : List ChunkHeader
  chunk_data : List Nat
  occupied_sectors : List Bool
  dirty_sectors : List Bool
deriving DecidableEq, Repr

/-- The payload `Chunk` view (src/anvil.rs:538-546); `mtime` in epoch
seconds, `data` an owned copy of the borrowed slice. -/
structure Chunk where
  x : Nat
  z : Nat
  mtime : Nat
  compression_type : CompressionType
  data : List Nat
deriving DecidableEq, Repr

/-- `BitSlice::first_zero`: index of the first `false` bit. -/
def firstZero : List Bool → Option Nat
  | [] => none
  | b :: rest => if b then (firstZero rest).map (· + 1) else some 0

/-- `BitSlice::first_one`: index of the first `true` bit. -/
def firstOne : List Bool → Option Nat
  | [] => none
  | b :: rest => if b then some 0 else (firstOne rest).map (· + 1)

/-- The `loop` of `RegionFile::allocate_run` (src/anvil.rs:197-243),
returning the allocation result together with the updated
`occupied_sectors`.  The first argument is fuel: each iteration strictly
increases `start`, which stays at most the bitmap length, so the
`occ.length + 1` given by `allocate_run` always suffices
(`allocLoop_fuel_irrel` below makes that formal). -/
def allocLoop : Nat → List Bool → Nat → Nat → Option ChunkAddress × List Bool
  | 0, occ, _, _ => (none, occ)
  | fuel + 1, occ, len, start =>
    match firstZero (occ.drop start) with
    | some zero_offset =>
      match firstOne ((occ.drop (start + zero_offset)).take
          (min (start + zero_offset + len) occ.length - (start + zero_offset))) with
      | some one_offset => allocLoop fuel occ len (start + zero_offset + one_offset)
      | none =>
        if MAX_SECTORS ≤ start + zero_offset + len then (none, occ)
        else if occ.length < start + zero_offset + len then
          (some ⟨start + zero_offset + HEADER_SECTORS, len⟩,
            fillRange occ (start + zero_offset) occ.length true ++
              List.replicate (start + zero_offset + len - occ.length) true)
        else
          (some ⟨start + zero_offset + HEADER_SECTORS, len⟩,
            fillRange occ (start + zero_offset) (start + zero_offset + len) true)
    | none =>
      if MAX_SECTORS ≤ occ.length + len then (none, occ)
      else
        (some ⟨occ.length + HEADER_SECTORS, len⟩,
          occ ++ List.replicate len true)

/-- `RegionFile::allocate_run` (src/anvil.rs:197-243), acting on the
`occupied_sectors` bitmap. -/
def allocate_run (occ : List Bool) (len : Nat) : Option ChunkAddress × List Bool :=
  allocLoop (occ.length + 1) occ len 0

/-- `RegionFile::free_chunk` (src/anvil.rs:181-195).  `address.take()`
clears the address; the freed bit range is clamped to the bitmap length. -/
def RegionFile.free_chunk (r : RegionFile) (chunk_x chunk_z : Nat) : RegionFile :=
  let idx := coords_to_idx chunk_x chunk_z
  let header := r.headers.getD idx ⟨none, 0⟩
  match header.address with
  | some addr =>
    let s := addr.offset - HEADER_SECTORS
    let e := min ((addr.offset + addr.len) - HEADER_SECTORS)
      r.occupied_sectors.length
    { r with
      headers := r.headers.set idx { header with address := none },
      occupied_sectors :=
        if s < e then fillRange r.occupied_sectors s e false
        else r.occupied_sectors }
  | none =>
    { r with headers := r.headers.set idx { header with address := none } }

/-- `RegionFile::delete_chunk` (src/anvil.rs:174-179); `now` is the ambient
`SystemTime::now()` in epoch seconds. -/
def RegionFile.delete_chunk (r : RegionFile) (chunk_x chunk_z : Nat) (now : Nat) :
    RegionFile :=
  let idx := coords_to_idx chunk_x chunk_z
  let header := r.headers.getD idx ⟨none, 0⟩
  let r2 := { r with headers := r.headers.set idx (header.set_mtime now) }
  r2.free_chunk chunk_x chunk_z

/-- `RegionFile::lookup_chunk` (src/anvil.rs:149-172). -/
def RegionFile.lookup_chunk (r : RegionFile) (chunk_x chunk_z : Nat) :
    Option Chunk :=
  let header := r.headers.getD (coords_to_idx chunk_x chunk_z) ⟨none, 0⟩
  match header.address with
  | none => none
  | some addr =>
    let start := (addr.offset - HEADER_SECTORS) * SECTOR_LEN
    let len := addr.len * SECTOR_LEN
    let cd := (r.chunk_data.drop start).take len
    let meta := ChunkInternalMeta.read cd
    some { x := chunk_x &&& 31, z := chunk_z &&& 31, mtime := header.mtime,
           compression_type := meta.compression_type,
           data := (cd.drop 5).take (meta.length - 1) }

/-- `RegionFile::write_chunk` (src/anvil.rs:245-304); `mtime` is the
caller-supplied `SystemTime` in epoch seconds. -/
def RegionFile.write_chunk (r : RegionFile) (chunk_x chunk_z : Nat)
    (data : List Nat) (compression_type : CompressionType) (mtime : Nat) :
    RegionFile :=
  let rf := r.free_chunk chunk_x chunk_z
  if MAX_CHUNK_LEN ≤ data.length then rf
  else
    let container_len := data.length + ChunkInternalMeta.LEN
    match allocate_run rf.occupied_sectors (divCeil container_len SECTOR_LEN) with
    | (none, occ2) => { rf with occupied_sectors := occ2 }
    | (some addr, occ2) =>
      let start := (addr.offset - HEADER_SECTORS) * SECTOR_LEN
      let eb := start + addr.len * SECTOR_LEN
      let cd1 :=
        if rf.chunk_data.length < eb
        then rf.chunk_data ++ List.replicate (eb - rf.chunk_data.length) 0
        else rf.chunk_data
      let container_end := start + container_len
      let cd2 := if container_end < eb then fillRange cd1 container_end eb 0 else cd1
      let meta : ChunkInternalMeta := ⟨data.length + 1, compression_type⟩
      let cd3 := writeRange cd2 start meta.writeBytes
      let cd4 := writeRange cd3 (start + ChunkInternalMeta.LEN) data
      let ds := addr.offset - HEADER_SECTORS
      let de := ds + addr.len
      let ds1 :=
        if rf.dirty_sectors.length < de
        then fillRange rf.dirty_sectors ds rf.dirty_sectors.length true ++
          List.replicate (de - rf.dirty_sectors.length) true
        else fillRange rf.dirty_sectors ds de true
      let idx := coords_to_idx chunk_x chunk_z
      let header := rf.headers.getD idx ⟨none, 0⟩
      { headers := rf.headers.set idx
          { (header.set_mtime mtime) with address := some addr },
        chunk_data := cd4,
        occupied_sectors := occ2,
        dirty_sectors := ds1 }

/-- One slot of `RegionFile::new` (src/anvil.rs:76-125): the provisional
header from the location and timestamp tables, refined by the internal
metadata checks.  The panic on an externally-stored chunk is modelled by
`parseSlotPanics`. -/
def parseSlot (header_data chunk_data : List Nat) (sector_count idx : Nat) :
    ChunkHeader :=
  let base := 4 * idx
  let pos_info := readBE header_data base
  let offset := (pos_info >>> 8) &&& 0xffffff
  let len := pos_info &&& 0xff
  let mtime := readBE header_data (base + 0x1000)
  let header := ChunkHeader.new offset len mtime sector_count
  match header.address with
  | none => header
  | some addr =>
    let byte_offset := (addr.offset - 2) * SECTOR_LEN
    let byte_len := addr.len * SECTOR_LEN
    let chunk_specific := (chunk_data.drop byte_offset).take byte_len
    let meta := ChunkInternalMeta.read chunk_specific
    if meta.length ≤ 1 ∨ chunk_specific.length < meta.length + 4
    then { header with address := none }
    else header

/-- Whether parsing slot `idx` hits the `panic!` for externally-stored
chunks (src/anvil.rs:100-106): a valid provisional header whose codec byte
decodes to `Unknown(id)` with `id ≥ 128`. -/
def parseSlotPanics (header_data chunk_data : List Nat) (sector_count idx : Nat) :
    Bool :=
  let base := 4 * idx
  let pos_info := readBE header_data base
  let offset := (pos_info >>> 8) &&& 0xffffff
  let len := pos_info &&& 0xff
  let header := ChunkHeader.new offset len 0 sector_count
  match header.address with
  | none => false
  | some addr =>
    let byte_offset := (addr.offset - 2) * SECTOR_LEN
    let byte_len := addr.len * SECTOR_LEN
    let chunk_specific := (chunk_data.drop byte_offset).take byte_len
    match CompressionType.decode (chunk_specific.getD 4 0) with
    | .Unknown id => 128 ≤ id
    | _ => false

/-- The first `HEADER_LEN` bytes of the file, the `header_data` of
`RegionFile::new` (src/anvil.rs:60-70). -/
def regionHeaderData (data : List Nat) : List Nat := data.take HEADER_LEN

/-- The payload bytes of `RegionFile::new`, padded with zeros to a whole
number of sectors by `chunk_data.resize` (src/anvil.rs:67). -/
def regionChunkData (data : List Nat) : List Nat :=
  (data.drop HEADER_LEN) ++
    List.replicate
      (divCeil (data.drop HEADER_LEN).length SECTOR_LEN * SECTOR_LEN -
        (data.drop HEADER_LEN).length) 0

/-- The `sector_count` of `RegionFile::new` (src/anvil.rs:64). -/
def regionSectorCount (data : List Nat) : Nat :=
  divCeil (data.drop HEADER_LEN).length SECTOR_LEN

/-- The per-slot occupied-bit marking of `RegionFile::new`
(src/anvil.rs:121-123): a valid header fills its run with `true`. -/
def markRun (occ : List Bool) (h : ChunkHeader) : List Bool :=
  match h.address with
  | some addr => fillRange occ (addr.offset - HEADER_SECTORS)
      (addr.offset + addr.len - HEADER_SECTORS) true
  | none => occ

/-- The 1024 headers parsed by `RegionFile::new`, in slot-index order. -/
def regionHeaders (data : List Nat) : List ChunkHeader :=
  (List.range (32 * 32)).map
    (parseSlot (regionHeaderData data) (regionChunkData data)
      (regionSectorCount data))

/-- `RegionFile::new` (src/anvil.rs:59-135).  `data.split_off(HEADER_LEN)`
panics in Rust when `data.length < HEADER_LEN`, so theorems about `new`
carry that bound.  The headers and the occupied bitmap are built slot by
slot in index order, exactly as the source's single loop over
`0..(32*32)`; the panic on externally-stored chunks is tracked separately
by `RegionFile.parse_panics`. -/
def RegionFile.new (data : List Nat) : RegionFile :=
  { headers := regionHeaders data,
    chunk_data := regionChunkData data,
    occupied_sectors := (regionHeaders data).foldl markRun
      (List.replicate (regionSectorCount data) false),
    dirty_sectors := List.replicate (regionSectorCount data) false }

/-- Whether `RegionFile::new data` panics on an externally-stored chunk. -/
def RegionFile.parse_panics (data : List Nat) : Bool :=
  (List.range (32 * 32)).any
    (parseSlotPanics (regionHeaderData data) (regionChunkData data)
      (regionSectorCount data))

/-- The entry written to the location table by `write_out`
(src/anvil.rs:320-336): 24-bit big-endian offset then the `len as u8`
cast. -/
def locEntry (h : ChunkHeader) : List Nat :=
  let p := match h.address with
    | some addr => (addr.offset, addr.len)
    | none => ((0 : Nat), (0 : Nat))
  [(p.1 >>> 16) &&& 0xff, (p.1 >>> 8) &&& 0xff, (p.1 >>> 0) &&& 0xff,
    p.2 % 256]

/-- The entry written to the timestamp table by `write_out`
(src/anvil.rs:339-351): big-endian `mtime`. -/
def timeEntry (h : ChunkHeader) : List Nat :=
  [(h.mtime >>> 24) &&& 0xff, (h.mtime >>> 16) &&& 0xff,
   (h.mtime >>> 8) &&& 0xff, (h.mtime >>> 0) &&& 0xff]

/-- One step of the `sector_count` fold of `write_out` (src/anvil.rs:
308-313). -/
def mscStep (m : Nat) (h : ChunkHeader) : Nat :=
  match h.address with
  | some a => max m (a.offset + a.len - HEADER_SECTORS)
  | none => m

/-- The `sector_count` computed by `write_out` (src/anvil.rs:308-313):
the maximal `offset + len - HEADER_SECTORS` over valid headers, 0 when
none. -/
def RegionFile.max_sector_count (r : RegionFile) : Nat :=
  r.headers.foldl mscStep 0

/-- The byte content of the file after `RegionFile::write_out` with
`full_write = true` (src/anvil.rs:306-380): `set_len` fixes the file at
`HEADER_LEN + sector_count * SECTOR_LEN` bytes, the two header tables are
written at offset 0, and every sector index below `sector_count` is
written from `chunk_data`, so the content is fully determined.  The
`Seek`/`flush`/`sync_all` plumbing and the clearing of `dirty_sectors`
do not affect the bytes and are elided. -/
def RegionFile.write_out_bytes (r : RegionFile) : List Nat :=
  (r.headers.map locEntry).flatten ++ (r.headers.map timeEntry).flatten ++
    r.chunk_data.take (r.max_sector_count * SECTOR_LEN)

/-- A sequence of mutating region operations (the claims quantify over
these); `delete`'s `now` is the ambient clock at the call. -/
inductive RegionOp where
  | write (x z : Nat) (data : List Nat) (ct : CompressionType) (mtime : Nat)
  | delete (x z : Nat) (now : Nat)

def applyRegionOp (r : RegionFile) : RegionOp → RegionFile
  | .write x z data ct mtime => r.write_chunk x z data ct mtime
  | .delete x z now => r.delete_chunk x z now

def applyRegionOps (r : RegionFile) (ops : List RegionOp) : RegionFile :=
  ops.foldl applyRegionOp r

/-! ## First-fit allocation: specification and correctness (claim C6) -/

theorem getD_eq_of_length_le {α : Type} {l : List α} {i : Nat} {d : α}
    (h : l.length ≤ i) : l.getD i d = d := by
  rw [List.getD_eq_getElem?_getD, List.getElem?_eq_none h]
  rfl

theorem firstZero_none {l : List Bool} (h : firstZero l = none) :
    ∀ i, i < l.length → l.getD i false = true := by
  induction l with
  | nil => intro i hi; simp at hi
  | cons b rest ih =>
    intro i hi
    by_cases hb : b
    · rw [firstZero, if_pos hb] at h
      cases hfr : firstZero rest with
      | none =>
        cases i with
        | zero => simpa using hb
        | succ j =>
          rw [List.getD_cons_succ]
          exact ih hfr j (by simpa using hi)
      | some k => rw [hfr] at h; exact Option.noConfusion h
    · rw [firstZero, if_neg hb] at h
      exact Option.noConfusion h

theorem firstZero_some {l : List Bool} {k : Nat} (h : firstZero l = some k) :
    k < l.length ∧ l.getD k false = false ∧
      ∀ j, j < k → l.getD j false = true := by
  induction l generalizing k with
  | nil => simp [firstZero] at h
  | cons b rest ih =>
    by_cases hb : b
    · rw [firstZero, if_pos hb] at h
      cases hfr : firstZero rest with
      | none => rw [hfr] at h; exact Option.noConfusion h
      | some k2 =>
        rw [hfr] at h
        have hk : k2 + 1 = k := by
          have h2 : some (k2 + 1) = some k := h
          exact Option.some.inj h2
        obtain ⟨ha, hbv, hc⟩ := ih hfr
        subst hk
        refine ⟨by simpa using ha, by simpa using hbv, ?_⟩
        intro j hj
        cases j with
        | zero => simpa using hb
        | succ j2 =>
          rw [List.getD_cons_succ]
          exact hc j2 (by omega)
    · rw [firstZero, if_neg hb] at h
      have hk : 0 = k := by
        have h2 : some 0 = some k := h
        exact Option.some.inj h2
      subst hk
      refine ⟨by simp, by simpa using hb, ?_⟩
      intro j hj
      omega


theorem firstOne_none {l : List Bool} (h : firstOne l = none) :
    ∀ i, i < l.length → l.getD i false = false := by
  induction l with
  | nil => intro i hi; simp at hi
  | cons b rest ih =>
    intro i hi
    by_cases hb : b
    · rw [firstOne, if_pos hb] at h
      exact Option.noConfusion h
    · rw [firstOne, if_neg hb] at h
      cases hfr : firstOne rest with
      | none =>
        cases i with
        | zero => simpa using hb
        | succ j =>
          rw [List.getD_cons_succ]
          exact ih hfr j (by simpa using hi)
      | some k => rw [hfr] at h; exact Option.noConfusion h

theorem firstOne_some {l : List Bool} {k : Nat} (h : firstOne l = some k) :
    k < l.length ∧ l.getD k false = true ∧
      ∀ j, j < k → l.getD j false = false := by
  induction l generalizing k with
  | nil => simp [firstOne] at h
  | cons b rest ih =>
    by_cases hb : b
    · rw [firstOne, if_pos hb] at h
      have hk : 0 = k := by
        have h2 : some 0 = some k := h
        exact Option.some.inj h2
      subst hk
      refine ⟨by simp, by simpa using hb, ?_⟩
      intro j hj
      omega
    · rw [firstOne, if_neg hb] at h
      cases hfr : firstOne rest with
      | none => rw [hfr] at h; exact Option.noConfusion h
      | some k2 =>
        rw [hfr] at h
        have hk : k2 + 1 = k := by
          have h2 : some (k2 + 1) = some k := h
          exact Option.some.inj h2
        obtain ⟨ha, hbv, hc⟩ := ih hfr
        subst hk
        refine ⟨by simpa using ha, by simpa using hbv, ?_⟩
        intro j hj
        cases j with
        | zero => simpa using hb
        | succ j2 =>
          rw [List.getD_cons_succ]
          exact hc j2 (by omega)

/-- A run of `n` sectors starting at `s` is free: no bit of the bitmap in
`[s, s + n)` is set (bits past the end of the bitmap count as free, as the
allocator may grow the bitmap). -/
def runFree (occ : List Bool) (s n : Nat) : Prop :=
  ∀ j, j < n → occ.getD (s + j) false = false

instance (occ : List Bool) (s n : Nat) : Decidable (runFree occ s n) :=
  inferInstanceAs (Decidable (∀ j, j < n → occ.getD (s + j) false = false))

theorem runFree_length (occ : List Bool) (n : Nat) : runFree occ occ.length n := by
  intro j hj
  exact getD_eq_of_length_le (by omega)

/-- The first-fit start index: the least `s` whose `n`-sector run is free. -/
def firstFit (occ : List Bool) (n : Nat) : Nat :=
  Nat.find (⟨occ.length, runFree_length occ n⟩ : ∃ s, runFree occ s n)

theorem firstFit_free (occ : List Bool) (n : Nat) : runFree occ (firstFit occ n) n := by
  unfold firstFit
  exact Nat.find_spec (⟨occ.length, runFree_length occ n⟩ : ∃ s, runFree occ s n)

theorem firstFit_min (occ : List Bool) (n : Nat) :
    ∀ s, s < firstFit occ n → ¬ runFree occ s n := by
  unfold firstFit
  intro s h
  exact Nat.find_min (⟨occ.length, runFree_length occ n⟩ : ∃ s, runFree occ s n) h

theorem firstFit_le_length (occ : List Bool) (n : Nat) :
    firstFit occ n ≤ occ.length := by
  unfold firstFit
  exact Nat.find_le (runFree_length occ n)

theorem firstFit_eq {occ : List Bool} {n s : Nat} (hfree : runFree occ s n)
    (hmin : ∀ s2, s2 < s → ¬ runFree occ s2 n) : firstFit occ n = s := by
  rw [firstFit, Nat.find_eq_iff]
  exact ⟨hfree, hmin⟩

/-- Correctness of the allocation loop, by induction on the fuel.  Under the
invariant that every start below `start` has already been ruled out, the
loop finds exactly the first-fit start: it returns `none` precisely when
`firstFit + len` reaches `MAX_SECTORS`, and otherwise allocates the run
`[firstFit, firstFit + len)`, growing the bitmap when the run extends past
its end. -/
theorem allocLoop_go (len : Nat) (hlen : 1 ≤ len) (occ : List Bool) :
    ∀ fuel start,
      occ.length + 1 ≤ fuel + start →
      (∀ s2, s2 < start → ¬ runFree occ s2 len) →
      (if MAX_SECTORS ≤ firstFit occ len + len
       then allocLoop fuel occ len start = (none, occ)
       else ∃ occ2,
         allocLoop fuel occ len start =
           (some ⟨firstFit occ len + HEADER_SECTORS, len⟩, occ2) ∧
         occ2.length = max occ.length (firstFit occ len + len) ∧
         ∀ i, occ2.getD i false =
           if firstFit occ len ≤ i ∧ i < firstFit occ len + len then true
           else occ.getD i false) := by
  intro fuel
  induction fuel with
  | zero =>
    intro start hfuel hinv
    exfalso
    exact hinv occ.length (by omega) (runFree_length occ len)
  | succ f ih =>
    intro start hfuel hinv
    rw [allocLoop]
    cases hz : firstZero (occ.drop start) with
    | none =>
      simp only []
      have hall := firstZero_none hz
      have hstart_le : start ≤ occ.length := by
        by_contra hc
        exact hinv occ.length (by omega) (runFree_length occ len)
      have hmin : ∀ s2, s2 < occ.length → ¬ runFree occ s2 len := by
        intro s2 hs2
        rcases Nat.lt_or_ge s2 start with hlt | hge
        · exact hinv s2 hlt
        · intro hfree
          have hbit := hall (s2 - start) (by simp; omega)
          rw [getD_drop] at hbit
          have hfr := hfree 0 (by omega)
          rw [Nat.add_zero] at hfr
          have he : start + (s2 - start) = s2 := by omega
          rw [he] at hbit
          rw [hfr] at hbit
          exact Bool.noConfusion hbit
      have hff : firstFit occ len = occ.length :=
        firstFit_eq (runFree_length occ len) hmin
      rw [hff]
      by_cases hmax : MAX_SECTORS ≤ occ.length + len
      · rw [if_pos hmax, if_pos hmax]
      · rw [if_neg hmax, if_neg hmax]
        refine ⟨occ ++ List.replicate len true, rfl, ?_, ?_⟩
        · simp only [List.length_append, List.length_replicate]
          omega
        · intro i
          rw [getD_append, getD_replicate]
          rcases Nat.lt_or_ge i occ.length with hi | hi
          · rw [if_pos hi, if_neg (by omega)]
          · rw [if_neg (by omega)]
            rcases Nat.lt_or_ge i (occ.length + len) with hi2 | hi2
            · rw [if_pos (by omega), if_pos (by omega)]
            · rw [if_neg (by omega), if_neg (by omega),
                getD_eq_of_length_le (by omega)]
    | some zero_offset =>
      obtain ⟨hzlt, hzbit, hzpre⟩ := firstZero_some hz
      rw [List.length_drop] at hzlt
      rw [getD_drop] at hzbit
      have hstart1_lt : start + zero_offset < occ.length := by omega
      have hinv1 : ∀ s2, s2 < start + zero_offset → ¬ runFree occ s2 len := by
        intro s2 hs2
        rcases Nat.lt_or_ge s2 start with hlt | hge
        · exact hinv s2 hlt
        · intro hfree
          have hbit := hzpre (s2 - start) (by omega)
          rw [getD_drop] at hbit
          have he : start + (s2 - start) = s2 := by omega
          rw [he] at hbit
          have hfr := hfree 0 (by omega)
          rw [Nat.add_zero] at hfr
          rw [hfr] at hbit
          exact Bool.noConfusion hbit
      cases ho : firstOne ((occ.drop (start + zero_offset)).take
          (min (start + zero_offset + len) occ.length - (start + zero_offset))) with
      | some one_offset =>
        simp only [ho]
        obtain ⟨holt, hobit, _⟩ := firstOne_some ho
        rw [List.length_take, List.length_drop] at holt
        rw [getD_take] at hobit
        rw [if_pos (by omega)] at hobit
        rw [getD_drop] at hobit
        have hone_pos : 1 ≤ one_offset := by
          rcases Nat.eq_zero_or_pos one_offset with h0 | h1
          · exfalso
            rw [h0, Nat.add_zero] at hobit
            rw [hzbit] at hobit
            exact Bool.noConfusion hobit
          · exact h1
        have hinv2 : ∀ s2, s2 < start + zero_offset + one_offset →
            ¬ runFree occ s2 len := by
          intro s2 hs2
          rcases Nat.lt_or_ge s2 (start + zero_offset) with hlt | hge
          · exact hinv1 s2 hlt
          · intro hfree
            have hp : start + zero_offset + one_offset <
                min (start + zero_offset + len) occ.length := by omega
            have hfr := hfree (start + zero_offset + one_offset - s2) (by omega)
            have he : s2 + (start + zero_offset + one_offset - s2) =
                start + zero_offset + one_offset := by omega
            rw [he] at hfr
            rw [hfr] at hobit
            exact Bool.noConfusion hobit
        have := ih (start + zero_offset + one_offset) (by omega) hinv2
        exact this
      | none =>
        simp only [ho]
        have hfree1 : runFree occ (start + zero_offset) len := by
          intro j hj
          rcases Nat.lt_or_ge (start + zero_offset + j) occ.length with hi | hi
          · have hbit := firstOne_none ho j (by simp; omega)
            rw [getD_take, if_pos (by omega), getD_drop] at hbit
            exact hbit
          · exact getD_eq_of_length_le (by omega)
        have hff : firstFit occ len = start + zero_offset :=
          firstFit_eq hfree1 hinv1
        rw [hff]
        by_cases hmax : MAX_SECTORS ≤ start + zero_offset + len
        · rw [if_pos hmax, if_pos hmax]
        · rw [if_neg hmax, if_neg hmax]
          by_cases hgrow : occ.length < start + zero_offset + len
          · rw [if_pos hgrow]
            refine ⟨_, rfl, ?_, ?_⟩
            · simp only [List.length_append, List.length_replicate, length_fillRange]
              omega
            · intro i
              rw [getD_append, length_fillRange, getD_fillRange, getD_replicate]
              rcases Nat.lt_or_ge i occ.length with hi | hi
              · rw [if_pos hi]
                rcases Nat.lt_or_ge i (start + zero_offset) with hi2 | hi2
                · rw [if_neg (by omega), if_neg (by omega)]
                · rw [if_pos (by omega), if_pos (by omega)]
              · rw [if_neg (by omega)]
                rcases Nat.lt_or_ge i (start + zero_offset + len) with hi2 | hi2
                · rw [if_pos (by omega), if_pos (by omega)]
                · rw [if_neg (by omega), if_neg (by omega),
                    getD_eq_of_length_le (by omega)]
          · rw [if_neg hgrow]
            refine ⟨_, rfl, ?_, ?_⟩
            · rw [length_fillRange]
              omega
            · intro i
              rw [getD_fillRange]
              rcases Nat.lt_or_ge i occ.length with hi | hi
              · by_cases hc : start + zero_offset ≤ i ∧ i < start + zero_offset + len
                · rw [if_pos ⟨hc.1, hc.2, hi⟩, if_pos hc]
                · rw [if_neg (fun h2 => hc ⟨h2.1, h2.2.1⟩), if_neg hc]
              · rw [if_neg (by omega), if_neg (by omega)]

/-- First-fit characterization of `allocate_run`: the adequacy of the
`occ.length + 1` fuel is part of the statement (the invariant starts
empty at `start = 0`). -/
theorem allocate_run_spec (occ : List Bool) (len : Nat) (hlen : 1 ≤ len) :
    if MAX_SECTORS ≤ firstFit occ len + len
    then allocate_run occ len = (none, occ)
    else ∃ occ2,
      allocate_run occ len =
        (some ⟨firstFit occ len + HEADER_SECTORS, len⟩, occ2) ∧
      occ2.length = max occ.length (firstFit occ len + len) ∧
      ∀ i, occ2.getD i false =
        if firstFit occ len ≤ i ∧ i < firstFit occ len + len then true
        else occ.getD i false :=
  allocLoop_go len hlen occ (occ.length + 1) 0 (by omega) (by omega)

/-! ### Claim C6: allocate_run -/

/-- C6 (confirmed): whenever `allocate_run n` (with `n ≥ 1`) returns an
address, its offset is `≥ 2` (being `firstFit + 2`), its length is exactly
`n`, the contiguous sector run `[offset − 2, offset − 2 + n)` is disjoint
from every sector occupied at call time (`runFree`), and no smaller start
index has a sufficient zero-run; the call returns `none` exactly when the
chosen (first-fit) start satisfies `start + n ≥ MAX_SECTORS`, and
`MAX_SECTORS = 2^24 − 3`. -/
theorem C6_allocate_run :
    ∀ (occ : List Bool) (n : Nat), 1 ≤ n →
      ((allocate_run occ n).1 = none ↔ MAX_SECTORS ≤ firstFit occ n + n) ∧
      (∀ addr occ2, allocate_run occ n = (some addr, occ2) →
        addr.offset = firstFit occ n + 2 ∧
        2 ≤ addr.offset ∧
        addr.len = n ∧
        runFree occ (addr.offset - 2) n ∧
        (∀ s, s < addr.offset - 2 → ¬ runFree occ s n) ∧
        addr.offset - 2 + n < MAX_SECTORS) ∧
      MAX_SECTORS = 2 ^ 24 - 3 := by
  intro occ n hn
  have hspec := allocate_run_spec occ n hn
  by_cases hmax : MAX_SECTORS ≤ firstFit occ n + n
  · rw [if_pos hmax] at hspec
    refine ⟨⟨fun _ => hmax, fun _ => by rw [hspec]⟩, ?_, rfl⟩
    intro addr occ2 heq
    rw [hspec] at heq
    exact absurd (congrArg Prod.fst heq) (by simp)
  · rw [if_neg hmax] at hspec
    obtain ⟨occ2, heq, hlen2, hbits⟩ := hspec
    refine ⟨⟨fun h1 => ?_, fun h1 => absurd h1 hmax⟩, ?_, rfl⟩
    · rw [heq] at h1
      exact absurd h1 (by simp)
    · intro addr occ3 heq2
      rw [heq] at heq2
      have hp : some (⟨firstFit occ n + HEADER_SECTORS, n⟩ : ChunkAddress) = some addr ∧
          occ2 = occ3 := by
        rw [← Prod.mk.injEq]
        exact heq2
      have haddr := Option.some.inj hp.1
      rw [← haddr]
      have hoff : firstFit occ n + HEADER_SECTORS - 2 = firstFit occ n := by
        show firstFit occ n + 2 - 2 = firstFit occ n
        omega
      refine ⟨rfl, by show 2 ≤ firstFit occ n + 2; omega, rfl, ?_, ?_, ?_⟩
      · rw [hoff]
        exact firstFit_free occ n
      · rw [hoff]
        exact firstFit_min occ n
      · rw [hoff]
        omega

/-! ### Claim C7: oversized or unallocatable writes leave the slot empty -/

theorem free_chunk_slot_empty (r : RegionFile) (x z : Nat) :
    ((r.free_chunk x z).headers.getD (coords_to_idx x z) ⟨none, 0⟩).address =
      none := by
  unfold RegionFile.free_chunk
  cases haddr : (r.headers.getD (coords_to_idx x z) ⟨none, 0⟩).address with
  | some addr =>
    simp only [haddr]
    rw [getD_set]
    by_cases hlen : coords_to_idx x z < r.headers.length
    · rw [if_pos ⟨rfl, hlen⟩]
    · exfalso
      rw [getD_eq_of_length_le (by omega)] at haddr
      exact Option.noConfusion haddr
  | none =>
    simp only [haddr]
    rw [getD_set]
    by_cases hlen : coords_to_idx x z < r.headers.length
    · rw [if_pos ⟨rfl, hlen⟩]
    · rw [if_neg (fun hc => hlen hc.2)]
      exact haddr

theorem free_chunk_headers_length (r : RegionFile) (x z : Nat) :
    (r.free_chunk x z).headers.length = r.headers.length := by
  unfold RegionFile.free_chunk
  cases haddr : (r.headers.getD (coords_to_idx x z) ⟨none, 0⟩).address with
  | some addr =>
    simp only [haddr]
    simp
  | none =>
    simp only [haddr]
    simp

/-- C7 (confirmed): a `write_chunk` whose data is at least `MAX_CHUNK_LEN =
254 × 4096` bytes, or whose sector allocation fails, leaves the slot empty:
the slot's header address is `None` and `lookup_chunk` returns `None`,
whether or not a chunk previously occupied the slot (the slot is freed
unconditionally before the size check). -/
theorem C7_dropped_write_leaves_slot_empty :
    ∀ (r : RegionFile) (x z : Nat) (data : List Nat) (ct : CompressionType)
      (mtime : Nat),
      (MAX_CHUNK_LEN ≤ data.length ∨
        (allocate_run (r.free_chunk x z).occupied_sectors
          (divCeil (data.length + ChunkInternalMeta.LEN) SECTOR_LEN)).1 = none) →
      MAX_CHUNK_LEN = 254 * 4096 ∧
      ((r.write_chunk x z data ct mtime).headers.getD (coords_to_idx x z)
        ⟨none, 0⟩).address = none ∧
      (r.write_chunk x z data ct mtime).lookup_chunk x z = none := by
  intro r x z data ct mtime h
  have hslot : ((r.write_chunk x z data ct mtime).headers.getD
      (coords_to_idx x z) ⟨none, 0⟩).address = none := by
    unfold RegionFile.write_chunk
    by_cases hbig : MAX_CHUNK_LEN ≤ data.length
    · rw [if_pos hbig]
      exact free_chunk_slot_empty r x z
    · rw [if_neg hbig]
      rcases h with h | h
      · exact absurd h hbig
      · cases hres : allocate_run (r.free_chunk x z).occupied_sectors
            (divCeil (data.length + ChunkInternalMeta.LEN) SECTOR_LEN) with
        | mk res occ2 =>
          cases res with
          | none =>
            simp only [hres]
            exact free_chunk_slot_empty r x z
          | some addr =>
            rw [hres] at h
            exact absurd h (by simp)
  refine ⟨rfl, hslot, ?_⟩
  unfold RegionFile.lookup_chunk
  simp only [hslot]

def emptyHeadersRegion : RegionFile :=
  ⟨List.replicate 1024 ⟨none, 0⟩, [], [], []⟩

theorem C7_dropped_write_witness :
    (MAX_CHUNK_LEN ≤ (List.replicate MAX_CHUNK_LEN (0 : Nat)).length ∨
      (allocate_run (emptyHeadersRegion.free_chunk 0 0).occupied_sectors
        (divCeil ((List.replicate MAX_CHUNK_LEN (0 : Nat)).length +
          ChunkInternalMeta.LEN) SECTOR_LEN)).1 = none) ∧
    (MAX_CHUNK_LEN = 254 * 4096 ∧
    ((emptyHeadersRegion.write_chunk 0 0 (List.replicate MAX_CHUNK_LEN 0)
      .Zlib 0).headers.getD (coords_to_idx 0 0) ⟨none, 0⟩).address = none ∧
    (emptyHeadersRegion.write_chunk 0 0 (List.replicate MAX_CHUNK_LEN 0)
      .Zlib 0).lookup_chunk 0 0 = none) :=
  ⟨Or.inl (by simp),
    C7_dropped_write_leaves_slot_empty emptyHeadersRegion 0 0
      (List.replicate MAX_CHUNK_LEN 0) .Zlib 0 (Or.inl (by simp))⟩

theorem C6_allocate_run_witness :
    (1 : Nat) ≤ 1 ∧
    (((allocate_run [true, false] 1).1 = none ↔
      MAX_SECTORS ≤ firstFit [true, false] 1 + 1) ∧
    (∀ addr occ2, allocate_run [true, false] 1 = (some addr, occ2) →
      addr.offset = firstFit [true, false] 1 + 2 ∧
      2 ≤ addr.offset ∧
      addr.len = 1 ∧
      runFree [true, false] (addr.offset - 2) 1 ∧
      (∀ s, s < addr.offset - 2 → ¬ runFree [true, false] s 1) ∧
      addr.offset - 2 + 1 < MAX_SECTORS) ∧
    MAX_SECTORS = 2 ^ 24 - 3) :=
  ⟨Nat.le_refl 1, C6_allocate_run [true, false] 1 (Nat.le_refl 1)⟩

/-! ## Region invariants (claims C5 and C1) -/

theorem coords_to_idx_eq (x z : Nat) :
    coords_to_idx x z = 32 * (z % 32) + x % 32 := by
  unfold coords_to_idx
  have h31 : (31 : Nat) = 2 ^ 5 - 1 := by norm_num
  rw [h31, land_two_pow_sub_one, land_two_pow_sub_one, Nat.shiftLeft_eq,
    Nat.lor_comm]
  have hp : (2 : Nat) ^ 5 = 32 := by norm_num
  rw [hp]
  rw [lor_eq_add 5 (by rw [hp]; omega) (by rw [hp]; omega)]
  ring

theorem coords_to_idx_lt (x z : Nat) : coords_to_idx x z < 1024 := by
  rw [coords_to_idx_eq]
  omega

/-- Disjointness of two optional sector runs, in offset space. -/
def addrDisjoint : Option ChunkAddress → Option ChunkAddress → Prop
  | some a1, some a2 =>
    a1.offset + a1.len ≤ a2.offset ∨ a2.offset + a2.len ≤ a1.offset
  | _, _ => True

instance : ∀ o1 o2 : Option ChunkAddress, Decidable (addrDisjoint o1 o2)
  | some _, some _ => inferInstanceAs (Decidable (_ ∨ _))
  | some _, none => isTrue trivial
  | none, _ => isTrue trivial

/-- Validity bounds of an optional run against a bitmap of `occLen`
sectors. -/
def addrOK (occLen : Nat) : Option ChunkAddress → Prop
  | some a => 2 ≤ a.offset ∧ 1 ≤ a.len ∧
      a.offset + a.len - HEADER_SECTORS ≤ occLen
  | none => True

instance (occLen : Nat) : ∀ o : Option ChunkAddress, Decidable (addrOK occLen o)
  | some _ => inferInstanceAs (Decidable (_ ∧ _))
  | none => isTrue trivial

/-- Slot `j` of the header list covers payload sector `i`. -/
def covers (hs : List ChunkHeader) (j i : Nat) : Prop :=
  match (hs.getD j ⟨none, 0⟩).address with
  | some a => a.offset - HEADER_SECTORS ≤ i ∧
      i < a.offset + a.len - HEADER_SECTORS
  | none => False

instance (hs : List ChunkHeader) (j i : Nat) : Decidable (covers hs j i) :=
  match hm : (hs.getD j ⟨none, 0⟩).address with
  | some a =>
    decidable_of_iff
      (a.offset - HEADER_SECTORS ≤ i ∧ i < a.offset + a.len - HEADER_SECTORS)
      (by unfold covers; rw [hm])
  | none => decidable_of_iff False (by unfold covers; rw [hm])

theorem covers_some {hs : List ChunkHeader} {j i : Nat} {a : ChunkAddress}
    (hm : (hs.getD j ⟨none, 0⟩).address = some a) :
    covers hs j i ↔
      (a.offset - HEADER_SECTORS ≤ i ∧ i < a.offset + a.len - HEADER_SECTORS) := by
  unfold covers
  rw [hm]

theorem covers_none {hs : List ChunkHeader} {j i : Nat}
    (hm : (hs.getD j ⟨none, 0⟩).address = none) : ¬ covers hs j i := by
  unfold covers
  rw [hm]
  exact id

/-- The geometric region invariant: 1024 headers, every valid run inside
the bitmap, runs pairwise disjoint, and the occupied bitmap is exactly the
union of the valid runs. -/
def GeomInv (r : RegionFile) : Prop :=
  r.headers.length = 1024 ∧
  (∀ j, j < 1024 →
    addrOK r.occupied_sectors.length (r.headers.getD j ⟨none, 0⟩).address) ∧
  (∀ j1, j1 < 1024 → ∀ j2, j2 < 1024 → j1 ≠ j2 →
    addrDisjoint (r.headers.getD j1 ⟨none, 0⟩).address
      (r.headers.getD j2 ⟨none, 0⟩).address) ∧
  (∀ i, i < r.occupied_sectors.length →
    (r.occupied_sectors.getD i false = true ↔
      ∃ j, j < 1024 ∧ covers r.headers j i))

theorem addr_slot_lt {r : RegionFile} (hlen : r.headers.length = 1024)
    {j : Nat} {a : ChunkAddress}
    (h : (r.headers.getD j ⟨none, 0⟩).address = some a) : j < 1024 := by
  by_contra hc
  rw [getD_eq_of_length_le (by omega)] at h
  exact Option.noConfusion h

/-- Headers after `free_chunk`: the addressed slot is cleared, all others
unchanged. -/
theorem free_chunk_headers_getD (r : RegionFile) (x z j : Nat) :
    (r.free_chunk x z).headers.getD j ⟨none, 0⟩ =
      if j = coords_to_idx x z ∧ j < r.headers.length
      then { r.headers.getD j ⟨none, 0⟩ with address := none }
      else r.headers.getD j ⟨none, 0⟩ := by
  unfold RegionFile.free_chunk
  cases haddr : (r.headers.getD (coords_to_idx x z) ⟨none, 0⟩).address with
  | some addr =>
    simp only [haddr]
    rw [getD_set]
    by_cases hc : coords_to_idx x z = j ∧ coords_to_idx x z < r.headers.length
    · rw [if_pos hc, if_pos ⟨hc.1.symm, by omega⟩]
      rw [← hc.1]
    · rw [if_neg hc, if_neg (fun h2 => hc ⟨h2.1.symm, by omega⟩)]
  | none =>
    simp only [haddr]
    rw [getD_set]
    by_cases hc : coords_to_idx x z = j ∧ coords_to_idx x z < r.headers.length
    · rw [if_pos hc, if_pos ⟨hc.1.symm, by omega⟩]
      rw [← hc.1]
    · rw [if_neg hc, if_neg (fun h2 => hc ⟨h2.1.symm, by omega⟩)]

theorem free_chunk_chunk_data (r : RegionFile) (x z : Nat) :
    (r.free_chunk x z).chunk_data = r.chunk_data := by
  unfold RegionFile.free_chunk
  cases haddr : (r.headers.getD (coords_to_idx x z) ⟨none, 0⟩).address with
  | some addr => simp only [haddr]
  | none => simp only [haddr]

theorem free_chunk_occ_length (r : RegionFile) (x z : Nat) :
    (r.free_chunk x z).occupied_sectors.length = r.occupied_sectors.length := by
  unfold RegionFile.free_chunk
  cases haddr : (r.headers.getD (coords_to_idx x z) ⟨none, 0⟩).address with
  | some addr =>
    simp only [haddr]
    by_cases hse : addr.offset - HEADER_SECTORS <
        min (addr.offset + addr.len - HEADER_SECTORS) r.occupied_sectors.length
    · rw [if_pos hse]
      exact length_fillRange _ _ _ _
    · rw [if_neg hse]
  | none => simp only [haddr]

/-- Occupied bits after `free_chunk`: the freed run (clamped to the bitmap)
is cleared, all other bits unchanged. -/
theorem free_chunk_occ_getD (r : RegionFile) (x z i : Nat) :
    (r.free_chunk x z).occupied_sectors.getD i false =
      match (r.headers.getD (coords_to_idx x z) ⟨none, 0⟩).address with
      | some a =>
        if a.offset - HEADER_SECTORS ≤ i ∧
            i < min (a.offset + a.len - HEADER_SECTORS) r.occupied_sectors.length
        then false
        else r.occupied_sectors.getD i false
      | none => r.occupied_sectors.getD i false := by
  unfold RegionFile.free_chunk
  cases haddr : (r.headers.getD (coords_to_idx x z) ⟨none, 0⟩).address with
  | some addr =>
    simp only [haddr]
    by_cases hse : addr.offset - HEADER_SECTORS <
        min (addr.offset + addr.len - HEADER_SECTORS) r.occupied_sectors.length
    · rw [if_pos hse]
      show (fillRange r.occupied_sectors _ _ false).getD i false = _
      rw [getD_fillRange]
      by_cases hc : addr.offset - HEADER_SECTORS ≤ i ∧
          i < min (addr.offset + addr.len - HEADER_SECTORS) r.occupied_sectors.length
      · rw [if_pos ⟨hc.1, hc.2, by omega⟩, if_pos hc]
      · rw [if_neg (fun h2 => hc ⟨h2.1, h2.2.1⟩), if_neg hc]
    · rw [if_neg hse]
      show r.occupied_sectors.getD i false = _
      rw [if_neg (by omega)]
  | none => simp only [haddr]

theorem covers_free (r : RegionFile) (x z j i : Nat) :
    covers (r.free_chunk x z).headers j i ↔
      (j ≠ coords_to_idx x z ∧ covers r.headers j i) := by
  have hgd := free_chunk_headers_getD r x z j
  by_cases hj : j = coords_to_idx x z ∧ j < r.headers.length
  · rw [if_pos hj] at hgd
    have haddr : ((r.free_chunk x z).headers.getD j ⟨none, 0⟩).address = none := by
      rw [hgd]
    constructor
    · intro hcov
      exact absurd hcov (covers_none haddr)
    · intro ⟨hne, _⟩
      exact absurd hj.1 hne
  · rw [if_neg hj] at hgd
    have hsame : covers (r.free_chunk x z).headers j i ↔ covers r.headers j i := by
      unfold covers
      rw [hgd]
    rw [hsame]
    constructor
    · intro hcov
      refine ⟨?_, hcov⟩
      intro heq
      have hge : r.headers.length ≤ j := by
        by_contra hc
        exact hj ⟨heq, by omega⟩
      have hnone : (r.headers.getD j ⟨none, 0⟩).address = none := by
        rw [getD_eq_of_length_le hge]
      exact covers_none hnone hcov
    · exact And.right

/-- Under the invariant, each sector is covered by at most one slot. -/
theorem covers_unique {r : RegionFile} (h : GeomInv r) {j1 j2 i : Nat}
    (hj1 : j1 < 1024) (hj2 : j2 < 1024)
    (hc1 : covers r.headers j1 i) (hc2 : covers r.headers j2 i) : j1 = j2 := by
  by_contra hne
  have hd := h.2.2.1 j1 hj1 j2 hj2 hne
  cases ha1 : (r.headers.getD j1 ⟨none, 0⟩).address with
  | none => exact covers_none ha1 hc1
  | some a1 =>
    cases ha2 : (r.headers.getD j2 ⟨none, 0⟩).address with
    | none => exact covers_none ha2 hc2
    | some a2 =>
      rw [covers_some ha1] at hc1
      rw [covers_some ha2] at hc2
      have hok1 := h.2.1 j1 hj1
      have hok2 := h.2.1 j2 hj2
      rw [ha1] at hok1
      rw [ha2] at hok2
      unfold addrOK at hok1 hok2
      unfold addrDisjoint at hd
      rw [ha1, ha2] at hd
      unfold HEADER_SECTORS at hc1 hc2
      rcases hd with hd | hd <;> omega

theorem GeomInv_free (r : RegionFile) (x z : Nat) (h : GeomInv r) :
    GeomInv (r.free_chunk x z) := by
  obtain ⟨hlen, hok, hdisj, hocc⟩ := h
  have hidx : coords_to_idx x z < 1024 := coords_to_idx_lt x z
  refine ⟨?_, ?_, ?_, ?_⟩
  · rw [free_chunk_headers_length]
    exact hlen
  · intro j hj
    rw [free_chunk_headers_getD, free_chunk_occ_length]
    by_cases hc : j = coords_to_idx x z ∧ j < r.headers.length
    · rw [if_pos hc]
      exact trivial
    · rw [if_neg hc]
      exact hok j hj
  · intro j1 hj1 j2 hj2 hne
    rw [free_chunk_headers_getD, free_chunk_headers_getD]
    by_cases hc1 : j1 = coords_to_idx x z ∧ j1 < r.headers.length
    · rw [if_pos hc1, if_neg (fun h2 => hne (hc1.1.trans h2.1.symm))]
      exact trivial
    · rw [if_neg hc1]
      by_cases hc2 : j2 = coords_to_idx x z ∧ j2 < r.headers.length
      · rw [if_pos hc2]
        cases (r.headers.getD j1 ⟨none, 0⟩).address <;> exact trivial
      · rw [if_neg hc2]
        exact hdisj j1 hj1 j2 hj2 hne
  · intro i hi
    rw [free_chunk_occ_length] at hi
    rw [free_chunk_occ_getD]
    cases haddr : (r.headers.getD (coords_to_idx x z) ⟨none, 0⟩).address with
    | none =>
      show r.occupied_sectors.getD i false = true ↔ _
      rw [hocc i hi]
      constructor
      · intro ⟨j, hj, hcov⟩
        refine ⟨j, hj, ?_⟩
        rw [covers_free]
        refine ⟨?_, hcov⟩
        intro heq
        rw [heq] at hcov
        exact covers_none haddr hcov
      · intro ⟨j, hj, hcov⟩
        rw [covers_free] at hcov
        exact ⟨j, hj, hcov.2⟩
    | some a =>
      have hokx := hok (coords_to_idx x z) hidx
      rw [haddr] at hokx
      unfold addrOK at hokx
      have hmin : min (a.offset + a.len - HEADER_SECTORS)
          r.occupied_sectors.length = a.offset + a.len - HEADER_SECTORS := by
        omega
      show (if a.offset - HEADER_SECTORS ≤ i ∧
          i < min (a.offset + a.len - HEADER_SECTORS) r.occupied_sectors.length
        then false else r.occupied_sectors.getD i false) = true ↔ _
      rw [hmin]
      by_cases hrun : a.offset - HEADER_SECTORS ≤ i ∧
          i < a.offset + a.len - HEADER_SECTORS
      · rw [if_pos hrun]
        constructor
        · intro hfalse
          exact Bool.noConfusion hfalse
        · intro ⟨j, hj, hcov⟩
          rw [covers_free] at hcov
          have hcovx : covers r.headers (coords_to_idx x z) i := by
            rw [covers_some haddr]
            exact hrun
          exact absurd (covers_unique ⟨hlen, hok, hdisj, hocc⟩ hj hidx
            hcov.2 hcovx) hcov.1
      · rw [if_neg hrun]
        rw [hocc i hi]
        constructor
        · intro ⟨j, hj, hcov⟩
          refine ⟨j, hj, ?_⟩
          rw [covers_free]
          refine ⟨?_, hcov⟩
          intro heq
          rw [heq] at hcov
          rw [covers_some haddr] at hcov
          exact hrun hcov
        · intro ⟨j, hj, hcov⟩
          rw [covers_free] at hcov
          exact ⟨j, hj, hcov.2⟩

/-- `GeomInv` only depends on the header addresses and the bitmap. -/
theorem GeomInv_congr {r r2 : RegionFile}
    (hh : ∀ j, (r2.headers.getD j ⟨none, 0⟩).address =
      (r.headers.getD j ⟨none, 0⟩).address)
    (hlen2 : r2.headers.length = r.headers.length)
    (hocc : r2.occupied_sectors = r.occupied_sectors)
    (h : GeomInv r) : GeomInv r2 := by
  obtain ⟨hlen, hok, hdisj, hoccif⟩ := h
  have hcov : ∀ j i, covers r2.headers j i ↔ covers r.headers j i := by
    intro j i
    unfold covers
    rw [hh j]
  refine ⟨by omega, ?_, ?_, ?_⟩
  · intro j hj
    rw [hh j, hocc]
    exact hok j hj
  · intro j1 hj1 j2 hj2 hne
    rw [hh j1, hh j2]
    exact hdisj j1 hj1 j2 hj2 hne
  · intro i hi
    rw [hocc] at hi ⊢
    rw [hoccif i hi]
    constructor
    · intro ⟨j, hj, hc⟩
      exact ⟨j, hj, (hcov j i).mpr hc⟩
    · intro ⟨j, hj, hc⟩
      exact ⟨j, hj, (hcov j i).mp hc⟩

theorem GeomInv_delete (r : RegionFile) (x z now : Nat) (h : GeomInv r) :
    GeomInv (r.delete_chunk x z now) := by
  unfold RegionFile.delete_chunk
  apply GeomInv_free
  refine GeomInv_congr ?_ ?_ ?_ h
  · intro j
    show ((r.headers.set (coords_to_idx x z)
      ((r.headers.getD (coords_to_idx x z) ⟨none, 0⟩).set_mtime now)).getD j
        ⟨none, 0⟩).address = _
    rw [getD_set]
    by_cases hc : coords_to_idx x z = j ∧ coords_to_idx x z < r.headers.length
    · rw [if_pos hc, hc.1]
      rfl
    · rw [if_neg hc]
  · show (r.headers.set (coords_to_idx x z)
      ((r.headers.getD (coords_to_idx x z) ⟨none, 0⟩).set_mtime now)).length =
        r.headers.length
    simp
  · rfl

/-! ### `write_chunk`: case analysis and invariant preservation -/

theorem write_chunk_oversize (r : RegionFile) (x z : Nat) (data : List Nat)
    (ct : CompressionType) (mtime : Nat) (h : MAX_CHUNK_LEN ≤ data.length) :
    r.write_chunk x z data ct mtime = r.free_chunk x z := by
  unfold RegionFile.write_chunk
  rw [if_pos h]

theorem container_sectors_pos (data : List Nat) :
    1 ≤ divCeil (data.length + ChunkInternalMeta.LEN) SECTOR_LEN := by
  unfold divCeil ChunkInternalMeta.LEN SECTOR_LEN
  omega

theorem write_chunk_allocfail (r : RegionFile) (x z : Nat) (data : List Nat)
    (ct : CompressionType) (mtime : Nat)
    (hsmall : ¬ MAX_CHUNK_LEN ≤ data.length)
    (hfail : (allocate_run (r.free_chunk x z).occupied_sectors
      (divCeil (data.length + ChunkInternalMeta.LEN) SECTOR_LEN)).1 = none) :
    r.write_chunk x z data ct mtime = r.free_chunk x z := by
  have hspec := allocate_run_spec (r.free_chunk x z).occupied_sectors
    (divCeil (data.length + ChunkInternalMeta.LEN) SECTOR_LEN)
    (container_sectors_pos data)
  by_cases hmax : MAX_SECTORS ≤
      firstFit (r.free_chunk x z).occupied_sectors
        (divCeil (data.length + ChunkInternalMeta.LEN) SECTOR_LEN) +
      divCeil (data.length + ChunkInternalMeta.LEN) SECTOR_LEN
  · rw [if_pos hmax] at hspec
    unfold RegionFile.write_chunk
    rw [if_neg hsmall]
    simp only [hspec]
  · rw [if_neg hmax] at hspec
    obtain ⟨occ2, heq, _, _⟩ := hspec
    rw [heq] at hfail
    exact absurd hfail (by simp)

theorem write_chunk_success_headers_getD (r : RegionFile) (x z : Nat)
    (data : List Nat) (ct : CompressionType) (mtime : Nat)
    {addr : ChunkAddress} {occ2 : List Bool}
    (hsmall : ¬ MAX_CHUNK_LEN ≤ data.length)
    (hres : allocate_run (r.free_chunk x z).occupied_sectors
      (divCeil (data.length + ChunkInternalMeta.LEN) SECTOR_LEN) =
        (some addr, occ2)) (j : Nat) :
    (r.write_chunk x z data ct mtime).headers.getD j ⟨none, 0⟩ =
      if j = coords_to_idx x z ∧ j < r.headers.length
      then ⟨some addr, mtime % 2 ^ 32⟩
      else (r.free_chunk x z).headers.getD j ⟨none, 0⟩ := by
  unfold RegionFile.write_chunk
  rw [if_neg hsmall]
  simp only [hres]
  show ((r.free_chunk x z).headers.set (coords_to_idx x z)
      { ((r.free_chunk x z).headers.getD (coords_to_idx x z)
          ⟨none, 0⟩).set_mtime mtime with address := some addr }).getD j
        ⟨none, 0⟩ = _
  rw [getD_set, free_chunk_headers_length]
  by_cases hc : coords_to_idx x z = j ∧ coords_to_idx x z < r.headers.length
  · rw [if_pos hc, if_pos ⟨hc.1.symm, by omega⟩]
    rfl
  · rw [if_neg hc, if_neg (fun h2 => hc ⟨h2.1.symm, by omega⟩)]

theorem write_chunk_success_occ (r : RegionFile) (x z : Nat)
    (data : List Nat) (ct : CompressionType) (mtime : Nat)
    {addr : ChunkAddress} {occ2 : List Bool}
    (hsmall : ¬ MAX_CHUNK_LEN ≤ data.length)
    (hres : allocate_run (r.free_chunk x z).occupied_sectors
      (divCeil (data.length + ChunkInternalMeta.LEN) SECTOR_LEN) =
        (some addr, occ2)) :
    (r.write_chunk x z data ct mtime).occupied_sectors = occ2 := by
  unfold RegionFile.write_chunk
  rw [if_neg hsmall]
  simp only [hres]

theorem write_chunk_headers_length (r : RegionFile) (x z : Nat)
    (data : List Nat) (ct : CompressionType) (mtime : Nat) :
    (r.write_chunk x z data ct mtime).headers.length = r.headers.length := by
  unfold RegionFile.write_chunk
  by_cases hsmall : MAX_CHUNK_LEN ≤ data.length
  · rw [if_pos hsmall]
    exact free_chunk_headers_length r x z
  · rw [if_neg hsmall]
    cases hres : allocate_run (r.free_chunk x z).occupied_sectors
        (divCeil (data.length + ChunkInternalMeta.LEN) SECTOR_LEN) with
    | mk res occ2 =>
      cases res with
      | none =>
        simp only [hres]
        exact free_chunk_headers_length r x z
      | some addr =>
        simp only [hres]
        show ((r.free_chunk x z).headers.set _ _).length = _
        rw [List.length_set]
        exact free_chunk_headers_length r x z

theorem addrOK_mono {L1 L2 : Nat} {o : Option ChunkAddress} (h : addrOK L1 o)
    (hle : L1 ≤ L2) : addrOK L2 o := by
  cases o with
  | none => exact trivial
  | some a =>
    unfold addrOK at h ⊢
    omega

theorem covers_write (r : RegionFile) (x z : Nat) (data : List Nat)
    (ct : CompressionType) (mtime : Nat) {addr : ChunkAddress}
    {occ2 : List Bool}
    (hsmall : ¬ MAX_CHUNK_LEN ≤ data.length)
    (hres : allocate_run (r.free_chunk x z).occupied_sectors
      (divCeil (data.length + ChunkInternalMeta.LEN) SECTOR_LEN) =
        (some addr, occ2))
    (hlen : r.headers.length = 1024) (j i : Nat) :
    covers (r.write_chunk x z data ct mtime).headers j i ↔
      (if j = coords_to_idx x z
       then addr.offset - HEADER_SECTORS ≤ i ∧
         i < addr.offset + addr.len - HEADER_SECTORS
       else covers (r.free_chunk x z).headers j i) := by
  unfold covers
  rw [write_chunk_success_headers_getD r x z data ct mtime hsmall hres j]
  by_cases hj : j = coords_to_idx x z
  · rw [if_pos ⟨hj, by rw [hlen]; exact hj ▸ coords_to_idx_lt x z⟩, if_pos hj]
  · rw [if_neg (fun h2 => hj h2.1), if_neg hj]

theorem GeomInv_write (r : RegionFile) (x z : Nat) (data : List Nat)
    (ct : CompressionType) (mtime : Nat) (h : GeomInv r) :
    GeomInv (r.write_chunk x z data ct mtime) := by
  by_cases hsmall : MAX_CHUNK_LEN ≤ data.length
  · rw [write_chunk_oversize r x z data ct mtime hsmall]
    exact GeomInv_free r x z h
  · have hfree := GeomInv_free r x z h
    have hspec := allocate_run_spec (r.free_chunk x z).occupied_sectors
      (divCeil (data.length + ChunkInternalMeta.LEN) SECTOR_LEN)
      (container_sectors_pos data)
    by_cases hmax : MAX_SECTORS ≤
        firstFit (r.free_chunk x z).occupied_sectors
          (divCeil (data.length + ChunkInternalMeta.LEN) SECTOR_LEN) +
        divCeil (data.length + ChunkInternalMeta.LEN) SECTOR_LEN
    · rw [if_pos hmax] at hspec
      rw [write_chunk_allocfail r x z data ct mtime hsmall (by rw [hspec])]
      exact hfree
    · rw [if_neg hmax] at hspec
      obtain ⟨occ2, heq, hlen2, hbits⟩ := hspec
      generalize haddr : (⟨firstFit (r.free_chunk x z).occupied_sectors
          (divCeil (data.length + ChunkInternalMeta.LEN) SECTOR_LEN) +
          HEADER_SECTORS,
        divCeil (data.length + ChunkInternalMeta.LEN) SECTOR_LEN⟩ :
          ChunkAddress) = addr at heq
      obtain ⟨hflen, hfok, hfdisj, hfocc⟩ := hfree
      have hHS : HEADER_SECTORS = 2 := rfl
      have hidx : coords_to_idx x z < 1024 := coords_to_idx_lt x z
      have hrlen : r.headers.length = 1024 := by
        rw [← free_chunk_headers_length r x z]
        exact hflen
      have hpos := container_sectors_pos data
      have hff := firstFit_free (r.free_chunk x z).occupied_sectors
        (divCeil (data.length + ChunkInternalMeta.LEN) SECTOR_LEN)
      have hffle := firstFit_le_length (r.free_chunk x z).occupied_sectors
        (divCeil (data.length + ChunkInternalMeta.LEN) SECTOR_LEN)
      have hocc2 := write_chunk_success_occ r x z data ct mtime hsmall heq
      have hcovw := covers_write r x z data ct mtime hsmall heq hrlen
      have hgd := write_chunk_success_headers_getD r x z data ct mtime hsmall heq
      have hidx_slot_none :
          ((r.free_chunk x z).headers.getD (coords_to_idx x z)
            ⟨none, 0⟩).address = none := free_chunk_slot_empty r x z
      have hidx_cov : ∀ i, ¬ covers (r.free_chunk x z).headers
          (coords_to_idx x z) i := fun i => covers_none hidx_slot_none
      set ff := firstFit (r.free_chunk x z).occupied_sectors
        (divCeil (data.length + ChunkInternalMeta.LEN) SECTOR_LEN) with hffdef
      set n := divCeil (data.length + ChunkInternalMeta.LEN) SECTOR_LEN
        with hndef
      have haoff : addr.offset = ff + HEADER_SECTORS := by rw [← haddr]
      have halen : addr.len = n := by rw [← haddr]
      -- a valid run of the freed region sits on occupied sectors, which are
      -- disjoint from the freshly allocated first-fit run
      have hsep : ∀ jo, jo < 1024 → ∀ b,
          ((r.free_chunk x z).headers.getD jo ⟨none, 0⟩).address = some b →
          addr.offset + addr.len ≤ b.offset ∨
            b.offset + b.len ≤ addr.offset := by
        intro jo hjo b hb
        by_contra hcon
        push_neg at hcon
        obtain ⟨hb1, hb2, hb3⟩ : 2 ≤ b.offset ∧ 1 ≤ b.len ∧
            b.offset + b.len - HEADER_SECTORS ≤
              (r.free_chunk x z).occupied_sectors.length := by
          have h0 := hfok jo hjo
          rw [hb] at h0
          exact h0
        rw [haoff, halen] at hcon
        have hcovb : covers (r.free_chunk x z).headers jo
            (max ff (b.offset - HEADER_SECTORS)) := by
          rw [covers_some hb]
          omega
        have htlt : max ff (b.offset - HEADER_SECTORS) <
            (r.free_chunk x z).occupied_sectors.length := by
          omega
        have hocct := (hfocc _ htlt).mpr ⟨jo, hjo, hcovb⟩
        have hfreet := hff (max ff (b.offset - HEADER_SECTORS) - ff) (by omega)
        rw [(by omega : ff + (max ff (b.offset - HEADER_SECTORS) - ff) =
          max ff (b.offset - HEADER_SECTORS))] at hfreet
        rw [hocct] at hfreet
        exact Bool.noConfusion hfreet
      refine ⟨?_, ?_, ?_, ?_⟩
      · rw [write_chunk_headers_length]
        exact hrlen
      · intro j hj
        rw [hgd j, hocc2]
        by_cases hc : j = coords_to_idx x z ∧ j < r.headers.length
        · rw [if_pos hc]
          show addrOK occ2.length (some addr)
          show 2 ≤ addr.offset ∧ 1 ≤ addr.len ∧
            addr.offset + addr.len - HEADER_SECTORS ≤ occ2.length
          rw [haoff, halen, hlen2]
          omega
        · rw [if_neg hc]
          refine addrOK_mono (hfok j hj) ?_
          rw [hlen2]
          omega
      · intro j1 hj1 j2 hj2 hne
        rw [hgd j1, hgd j2]
        by_cases hc1 : j1 = coords_to_idx x z ∧ j1 < r.headers.length
        · rw [if_pos hc1, if_neg (fun h2 => hne (hc1.1.trans h2.1.symm))]
          show addrDisjoint (some addr)
            ((r.free_chunk x z).headers.getD j2 ⟨none, 0⟩).address
          cases hb : ((r.free_chunk x z).headers.getD j2 ⟨none, 0⟩).address with
          | none => exact trivial
          | some b =>
            show addr.offset + addr.len ≤ b.offset ∨
              b.offset + b.len ≤ addr.offset
            exact hsep j2 hj2 b hb
        · rw [if_neg hc1]
          by_cases hc2 : j2 = coords_to_idx x z ∧ j2 < r.headers.length
          · rw [if_pos hc2]
            show addrDisjoint
              ((r.free_chunk x z).headers.getD j1 ⟨none, 0⟩).address (some addr)
            cases hb : ((r.free_chunk x z).headers.getD j1 ⟨none, 0⟩).address with
            | none => exact trivial
            | some b =>
              show b.offset + b.len ≤ addr.offset ∨
                addr.offset + addr.len ≤ b.offset
              rcases hsep j1 hj1 b hb with h2 | h2
              · exact Or.inr h2
              · exact Or.inl h2
          · rw [if_neg hc2]
            exact hfdisj j1 hj1 j2 hj2 hne
      · intro i hi
        rw [hocc2] at hi ⊢
        rw [hbits i]
        by_cases hrun : ff ≤ i ∧ i < ff + n
        · rw [if_pos hrun]
          constructor
          · intro _
            refine ⟨coords_to_idx x z, hidx, ?_⟩
            rw [hcovw]
            rw [if_pos rfl]
            rw [haoff, halen]
            omega
          · intro _
            rfl
        · rw [if_neg hrun]
          have hilt : i < (r.free_chunk x z).occupied_sectors.length := by
            rw [hlen2] at hi
            rcases Nat.lt_or_ge i (r.free_chunk x z).occupied_sectors.length
              with hl | hl
            · exact hl
            · exfalso
              have hin : i < ff + n := by omega
              exact hrun ⟨by omega, hin⟩
          rw [hfocc i hilt]
          constructor
          · intro ⟨j, hj, hcov⟩
            refine ⟨j, hj, ?_⟩
            rw [hcovw]
            have hjne : j ≠ coords_to_idx x z := by
              intro heqj
              rw [heqj] at hcov
              exact hidx_cov i hcov
            rw [if_neg hjne]
            exact hcov
          · intro ⟨j, hj, hcov⟩
            rw [hcovw] at hcov
            by_cases hjx : j = coords_to_idx x z
            · rw [if_pos hjx] at hcov
              rw [haoff, halen] at hcov
              exfalso
              exact hrun ⟨by omega, by omega⟩
            · rw [if_neg hjx] at hcov
              exact ⟨j, hj, hcov⟩

theorem GeomInv_op (r : RegionFile) (op : RegionOp) (h : GeomInv r) :
    GeomInv (applyRegionOp r op) := by
  cases op with
  | write x z data ct mtime => exact GeomInv_write r x z data ct mtime h
  | delete x z now => exact GeomInv_delete r x z now h

theorem GeomInv_ops (ops : List RegionOp) :
    ∀ r : RegionFile, GeomInv r → GeomInv (applyRegionOps r ops) := by
  induction ops with
  | nil => intro r h; exact h
  | cons op rest ih =>
    intro r h
    exact ih (applyRegionOp r op) (GeomInv_op r op h)

/-! ## C5: sector bookkeeping from a freshly parsed region

`RegionFile::new` validates each slot's run individually (offset, length,
bound, internal metadata) and fills the occupied bitmap with the union of
the runs, but never compares two slots' runs, so a crafted file can parse
into a region in which two valid headers claim the same sector.  The
lemmas here characterize the parsed headers and bitmap; `GeomInv_new`
establishes the geometric invariant under the (unchecked) pairwise
disjointness of the parsed runs. -/

theorem ChunkHeader_new_addrOK (o l m sc : Nat) {a : ChunkAddress}
    (h : (ChunkHeader.new o l m sc).address = some a) :
    2 ≤ a.offset ∧ 1 ≤ a.len ∧ a.offset + a.len - HEADER_SECTORS ≤ sc := by
  unfold ChunkHeader.new at h
  simp only at h
  split_ifs at h with hc
  · injection h with h2
    subst h2
    refine ⟨hc.1, ?_, ?_⟩
    · show 1 ≤ l
      omega
    · show o + l - HEADER_SECTORS ≤ sc
      have hHS : HEADER_SECTORS = 2 := rfl
      omega

theorem parseSlot_address_cases (hd cd : List Nat) (sc idx : Nat) :
    (parseSlot hd cd sc idx).address = none ∨
    (parseSlot hd cd sc idx).address =
      (ChunkHeader.new ((readBE hd (4 * idx) >>> 8) &&& 0xffffff)
        (readBE hd (4 * idx) &&& 0xff) (readBE hd (4 * idx + 0x1000))
        sc).address := by
  simp only [parseSlot]
  cases h : (ChunkHeader.new ((readBE hd (4 * idx) >>> 8) &&& 0xffffff)
      (readBE hd (4 * idx) &&& 0xff) (readBE hd (4 * idx + 0x1000))
      sc).address with
  | none =>
    right
    simp only [h]
  | some a =>
    simp only [h]
    split
    · left
      rfl
    · right
      exact h

/-- The slot parser keeps a provisionally valid header exactly when the
internal metadata passes the length sanity check (src/anvil.rs:93-112). -/
theorem parseSlot_address_some {hd cd : List Nat} {sc idx : Nat}
    {a : ChunkAddress}
    (hnew : (ChunkHeader.new ((readBE hd (4 * idx) >>> 8) &&& 0xffffff)
      (readBE hd (4 * idx) &&& 0xff) (readBE hd (4 * idx + 0x1000))
      sc).address = some a)
    (hcond : ¬ ((ChunkInternalMeta.read
        ((cd.drop ((a.offset - 2) * SECTOR_LEN)).take
          (a.len * SECTOR_LEN))).length ≤ 1 ∨
      ((cd.drop ((a.offset - 2) * SECTOR_LEN)).take
        (a.len * SECTOR_LEN)).length <
        (ChunkInternalMeta.read ((cd.drop ((a.offset - 2) * SECTOR_LEN)).take
          (a.len * SECTOR_LEN))).length + 4)) :
    (parseSlot hd cd sc idx).address = some a := by
  simp only [parseSlot]
  simp only [hnew]
  rw [if_neg hcond]
  exact hnew

theorem parseSlot_addrOK {hd cd : List Nat} {sc idx : Nat} {a : ChunkAddress}
    (h : (parseSlot hd cd sc idx).address = some a) :
    2 ≤ a.offset ∧ 1 ≤ a.len ∧ a.offset + a.len - HEADER_SECTORS ≤ sc := by
  rcases parseSlot_address_cases hd cd sc idx with h0 | h0
  · rw [h0] at h
    exact Option.noConfusion h
  · rw [h0] at h
    exact ChunkHeader_new_addrOK _ _ _ _ h

/-- A single header covering payload sector `i` (the header-value form of
`covers`). -/
def coversH (h : ChunkHeader) (i : Nat) : Prop :=
  match h.address with
  | some a => a.offset - HEADER_SECTORS ≤ i ∧
      i < a.offset + a.len - HEADER_SECTORS
  | none => False

theorem covers_eq_coversH (hs : List ChunkHeader) (j i : Nat) :
    covers hs j i = coversH (hs.getD j ⟨none, 0⟩) i := rfl

theorem markRun_length (occ : List Bool) (h : ChunkHeader) :
    (markRun occ h).length = occ.length := by
  unfold markRun
  cases ha : h.address with
  | none => rfl
  | some addr => exact length_fillRange _ _ _ _

theorem foldl_markRun_length (hs : List ChunkHeader) (occ : List Bool) :
    (hs.foldl markRun occ).length = occ.length := by
  induction hs generalizing occ with
  | nil => rfl
  | cons h t ih => rw [List.foldl_cons, ih, markRun_length]

theorem markRun_getD (occ : List Bool) (h : ChunkHeader) (i : Nat) :
    (markRun occ h).getD i false = true ↔
      occ.getD i false = true ∨ (coversH h i ∧ i < occ.length) := by
  unfold markRun coversH
  cases ha : h.address with
  | none =>
    show occ.getD i false = true ↔
      occ.getD i false = true ∨ (False ∧ i < occ.length)
    constructor
    · exact Or.inl
    · rintro (hh | ⟨hf, _⟩)
      · exact hh
      · exact hf.elim
  | some a =>
    show (fillRange occ (a.offset - HEADER_SECTORS)
        (a.offset + a.len - HEADER_SECTORS) true).getD i false = true ↔
      occ.getD i false = true ∨
        ((a.offset - HEADER_SECTORS ≤ i ∧
          i < a.offset + a.len - HEADER_SECTORS) ∧ i < occ.length)
    rw [getD_fillRange]
    by_cases hc : a.offset - HEADER_SECTORS ≤ i ∧
        i < a.offset + a.len - HEADER_SECTORS ∧ i < occ.length
    · rw [if_pos hc]
      constructor
      · intro _
        exact Or.inr ⟨⟨hc.1, hc.2.1⟩, hc.2.2⟩
      · intro _
        rfl
    · rw [if_neg hc]
      constructor
      · exact Or.inl
      · rintro (hh | ⟨⟨h1, h2⟩, h3⟩)
        · exact hh
        · exact absurd ⟨h1, h2, h3⟩ hc

theorem foldl_markRun_getD (hs : List ChunkHeader) (occ : List Bool) (i : Nat) :
    (hs.foldl markRun occ).getD i false = true ↔
      occ.getD i false = true ∨
        ∃ h, h ∈ hs ∧ coversH h i ∧ i < occ.length := by
  induction hs generalizing occ with
  | nil =>
    simp only [List.foldl_nil]
    constructor
    · exact Or.inl
    · rintro (hh | ⟨h2, hm, _, _⟩)
      · exact hh
      · exact absurd hm (List.not_mem_nil h2)
  | cons hh t ih =>
    rw [List.foldl_cons, ih, markRun_getD, markRun_length]
    constructor
    · rintro ((h0 | ⟨hc, hl⟩) | ⟨h2, hm, hc, hl⟩)
      · exact Or.inl h0
      · exact Or.inr ⟨hh, List.mem_cons_self hh t, hc, hl⟩
      · exact Or.inr ⟨h2, List.mem_cons_of_mem hh hm, hc, hl⟩
    · rintro (h0 | ⟨h2, hm, hc, hl⟩)
      · exact Or.inl (Or.inl h0)
      · rcases List.mem_cons.mp hm with heq | hm2
        · subst heq
          exact Or.inl (Or.inr ⟨hc, hl⟩)
        · exact Or.inr ⟨h2, hm2, hc, hl⟩

theorem getD_mem {l : List ChunkHeader} {j : Nat} (hj : j < l.length) :
    l.getD j ⟨none, 0⟩ ∈ l := by
  rw [List.getD_eq_getElem?_getD, List.getElem?_eq_getElem hj]
  exact List.getElem_mem hj

theorem mem_getD {l : List ChunkHeader} {h : ChunkHeader} (hm : h ∈ l) :
    ∃ j, j < l.length ∧ l.getD j ⟨none, 0⟩ = h := by
  rcases List.mem_iff_getElem.mp hm with ⟨j, hj, hg⟩
  refine ⟨j, hj, ?_⟩
  rw [List.getD_eq_getElem?_getD, List.getElem?_eq_getElem hj]
  exact hg

theorem new_headers (data : List Nat) :
    (RegionFile.new data).headers = regionHeaders data := rfl

theorem new_occ (data : List Nat) :
    (RegionFile.new data).occupied_sectors =
      (regionHeaders data).foldl markRun
        (List.replicate (regionSectorCount data) false) := rfl

theorem regionHeaders_length (data : List Nat) :
    (regionHeaders data).length = 1024 := by
  unfold regionHeaders
  rw [List.length_map, List.length_range]

theorem regionHeaders_getD (data : List Nat) {j : Nat} (hj : j < 1024) :
    (regionHeaders data).getD j ⟨none, 0⟩ =
      parseSlot (regionHeaderData data) (regionChunkData data)
        (regionSectorCount data) j := by
  unfold regionHeaders
  rw [getD_map_range, if_pos (by omega : j < 32 * 32)]

theorem regionHeaderData_getD (data : List Nat) (i : Nat) :
    (regionHeaderData data).getD i 0 =
      if i < HEADER_LEN then data.getD i 0 else 0 := by
  unfold regionHeaderData
  rw [getD_take]

theorem regionChunkData_getD (data : List Nat) (i : Nat) :
    (regionChunkData data).getD i 0 =
      if i < data.length - HEADER_LEN then data.getD (HEADER_LEN + i) 0
      else 0 := by
  unfold regionChunkData
  rw [getD_append, List.length_drop]
  by_cases h : i < data.length - HEADER_LEN
  · rw [if_pos h, if_pos h, getD_drop]
  · rw [if_neg h, if_neg h, getD_replicate, ite_self]

theorem le_divCeil_mul (a s : Nat) (hs : 0 < s) : a ≤ divCeil a s * s := by
  unfold divCeil
  rw [Nat.mul_comm]
  have h2 := Nat.mod_lt (a + s - 1) hs
  have h3 := Nat.div_add_mod (a + s - 1) s
  omega

theorem regionChunkData_length (data : List Nat) :
    (regionChunkData data).length = regionSectorCount data * SECTOR_LEN := by
  unfold regionChunkData regionSectorCount
  rw [List.length_append, List.length_replicate, List.length_drop]
  have h := le_divCeil_mul (data.length - HEADER_LEN) SECTOR_LEN (by decide)
  omega

/-- The geometric invariant holds for a freshly parsed region as soon as
the parsed runs are pairwise disjoint — the one fact `RegionFile::new`
does NOT itself check. -/
theorem GeomInv_new (data : List Nat)
    (hdisj : ∀ j1, j1 < 1024 → ∀ j2, j2 < 1024 → j1 ≠ j2 →
      addrDisjoint ((RegionFile.new data).headers.getD j1 ⟨none, 0⟩).address
        ((RegionFile.new data).headers.getD j2 ⟨none, 0⟩).address) :
    GeomInv (RegionFile.new data) := by
  unfold GeomInv
  refine ⟨?_, ?_, hdisj, ?_⟩
  · rw [new_headers]
    exact regionHeaders_length data
  · intro j hj
    rw [new_headers, new_occ, foldl_markRun_length, List.length_replicate,
      regionHeaders_getD data hj]
    cases ha : (parseSlot (regionHeaderData data) (regionChunkData data)
        (regionSectorCount data) j).address with
    | none => exact trivial
    | some a =>
      show 2 ≤ a.offset ∧ 1 ≤ a.len ∧
        a.offset + a.len - HEADER_SECTORS ≤ regionSectorCount data
      exact parseSlot_addrOK ha
  · intro i hi
    rw [new_occ] at hi
    rw [foldl_markRun_length, List.length_replicate] at hi
    rw [new_headers, new_occ]
    rw [foldl_markRun_getD, getD_replicate, ite_self]
    constructor
    · rintro (hfalse | ⟨h, hmem, hcov, _⟩)
      · exact Bool.noConfusion hfalse
      · rcases mem_getD hmem with ⟨j, hjlen, hgd⟩
        rw [regionHeaders_length] at hjlen
        refine ⟨j, hjlen, ?_⟩
        rw [covers_eq_coversH, hgd]
        exact hcov
    · rintro ⟨j, hj, hcov⟩
      right
      rw [covers_eq_coversH] at hcov
      refine ⟨(regionHeaders data).getD j ⟨none, 0⟩, getD_mem ?_, hcov, ?_⟩
      · rw [regionHeaders_length]
        omega
      · rw [List.length_replicate]
        exact hi

/-- **C5** (amended).  From a freshly parsed region whose (individually
validated) header runs are pairwise disjoint — a cross-slot property the
parser does not verify, see `C5_counterexample` — after any sequence of
`write_chunk`/`delete_chunk` calls, `occupied_sectors[i] = true` iff
exactly one valid header's address covers payload sector `i`. -/
theorem C5_sector_bookkeeping (data : List Nat) (ops : List RegionOp)
    (hdisj : ∀ j1, j1 < 1024 → ∀ j2, j2 < 1024 → j1 ≠ j2 →
      addrDisjoint ((RegionFile.new data).headers.getD j1 ⟨none, 0⟩).address
        ((RegionFile.new data).headers.getD j2 ⟨none, 0⟩).address)
    (i : Nat)
    (hi : i < (applyRegionOps (RegionFile.new data)
      ops).occupied_sectors.length) :
    ((applyRegionOps (RegionFile.new data) ops).occupied_sectors.getD i false
        = true ↔
      ∃ j, j < 1024 ∧
        covers (applyRegionOps (RegionFile.new data) ops).headers j i ∧
        ∀ j2, j2 < 1024 →
          covers (applyRegionOps (RegionFile.new data) ops).headers j2 i →
          j2 = j) := by
  have hg := GeomInv_ops ops (RegionFile.new data) (GeomInv_new data hdisj)
  rw [hg.2.2.2 i hi]
  constructor
  · rintro ⟨j, hj, hcov⟩
    exact ⟨j, hj, hcov, fun j2 hj2 hcov2 => covers_unique hg hj2 hj hcov2 hcov⟩
  · rintro ⟨j, hj, hcov, h⟩
    exact ⟨j, hj, hcov⟩

theorem readBE_replicate_zero (n i : Nat) :
    readBE (List.replicate n 0) i = 0 := by
  unfold readBE
  rw [getD_replicate, getD_replicate, getD_replicate, getD_replicate]
  rw [ite_self, ite_self, ite_self, ite_self]
  rfl

theorem ChunkHeader_new_zero_offset (l m sc : Nat) :
    (ChunkHeader.new 0 l m sc).address = none := by
  have hc : ¬(2 ≤ 0 ∧ 0 < l ∧ 0 + l - 2 ≤ sc) := by
    intro hc
    omega
  unfold ChunkHeader.new
  rw [if_neg hc]

theorem parseSlot_replicate_zero (n : Nat) (cd : List Nat) (sc idx : Nat) :
    (parseSlot (List.replicate n 0) cd sc idx).address = none := by
  rcases parseSlot_address_cases (List.replicate n 0) cd sc idx with h | h
  · exact h
  · rw [h]
    simp only [readBE_replicate_zero]
    have h1 : ((0 : Nat) >>> 8) &&& 0xffffff = 0 := rfl
    rw [h1]
    exact ChunkHeader_new_zero_offset _ _ _

theorem zeros_headers_none (n j : Nat) :
    ((RegionFile.new (List.replicate n 0)).headers.getD j
      ⟨none, 0⟩).address = none := by
  rw [new_headers]
  unfold regionHeaders
  rw [getD_map_range]
  by_cases hj : j < 32 * 32
  · rw [if_pos hj]
    unfold regionHeaderData
    rw [List.take_replicate]
    exact parseSlot_replicate_zero _ _ _ _
  · rw [if_neg hj]

theorem zeros_occupied_length :
    (RegionFile.new (List.replicate 12288 0)).occupied_sectors.length = 1 := by
  rw [new_occ, foldl_markRun_length, List.length_replicate]
  unfold regionSectorCount
  rw [List.length_drop, List.length_replicate]
  decide

/-- **C5 witness**: the empty (all-zero) 12288-byte region file instantiates
the amended statement at sector 0 with the empty operation sequence. -/
theorem C5_sector_bookkeeping_witness :
    0 < (applyRegionOps (RegionFile.new (List.replicate 12288 0))
      []).occupied_sectors.length ∧
    ((applyRegionOps (RegionFile.new (List.replicate 12288 0))
        []).occupied_sectors.getD 0 false = true ↔
      ∃ j, j < 1024 ∧
        covers (applyRegionOps (RegionFile.new (List.replicate 12288 0))
          []).headers j 0 ∧
        ∀ j2, j2 < 1024 →
          covers (applyRegionOps (RegionFile.new (List.replicate 12288 0))
            []).headers j2 0 →
          j2 = j) := by
  have hlen : 0 < (applyRegionOps (RegionFile.new (List.replicate 12288 0))
      []).occupied_sectors.length := by
    show 0 < (RegionFile.new (List.replicate 12288 0)).occupied_sectors.length
    rw [zeros_occupied_length]
    omega
  refine ⟨hlen, ?_⟩
  exact C5_sector_bookkeeping (List.replicate 12288 0) []
    (by
      intro j1 hj1 j2 hj2 hne
      rw [zeros_headers_none]
      exact trivial)
    0 hlen

/-- A 12288-byte region file whose location table points slots `(0,0)` and
`(1,0)` at the same single-sector run (offset 2, length 1), that run
holding a well-formed chunk (payload length 2, GZip, one payload byte). -/
def C5bytes : List Nat :=
  [0, 0, 2, 1, 0, 0, 2, 1] ++ List.replicate 4088 0 ++
    List.replicate 4096 0 ++ [0, 0, 0, 2, 1, 170] ++ List.replicate 4090 0

theorem C5bytes_length : C5bytes.length = 12288 := by
  unfold C5bytes
  rw [List.length_append, List.length_append, List.length_append,
    List.length_append, List.length_replicate, List.length_replicate,
    List.length_replicate,
    (by decide : ([0, 0, 2, 1, 0, 0, 2, 1] : List Nat).length = 8),
    (by decide : ([0, 0, 0, 2, 1, 170] : List Nat).length = 6)]

theorem C5bytes_sector_count : regionSectorCount C5bytes = 1 := by
  unfold regionSectorCount
  rw [List.length_drop, C5bytes_length]
  decide

theorem C5_cs_len : ((regionChunkData C5bytes).take 4096).length = 4096 := by
  rw [List.length_take, regionChunkData_length, C5bytes_sector_count]
  decide

theorem C5bytes_getD_hi (k : Nat) (hk : k < 6) :
    C5bytes.getD (8192 + k) 0 = [0, 0, 0, 2, 1, 170].getD k 0 := by
  have hX : (([0, 0, 2, 1, 0, 0, 2, 1] ++ List.replicate 4088 0 ++
      List.replicate 4096 0 ++ [0, 0, 0, 2, 1, 170]) : List Nat).length
      = 8198 := by
    rw [List.length_append, List.length_append, List.length_append,
      List.length_replicate, List.length_replicate,
      (by decide : ([0, 0, 2, 1, 0, 0, 2, 1] : List Nat).length = 8),
      (by decide : ([0, 0, 0, 2, 1, 170] : List Nat).length = 6)]
  have hY : (([0, 0, 2, 1, 0, 0, 2, 1] ++ List.replicate 4088 0 ++
      List.replicate 4096 0) : List Nat).length = 8192 := by
    rw [List.length_append, List.length_append,
      List.length_replicate, List.length_replicate,
      (by decide : ([0, 0, 2, 1, 0, 0, 2, 1] : List Nat).length = 8)]
  unfold C5bytes
  rw [getD_append, hX, if_pos (by omega)]
  rw [getD_append, hY, if_neg (by omega)]
  have he : 8192 + k - 8192 = k := by omega
  rw [he]

theorem C5_cs_meta :
    (ChunkInternalMeta.read ((regionChunkData C5bytes).take 4096)).length
      = 2 := by
  show readBE ((regionChunkData C5bytes).take 4096) 0 = 2
  unfold readBE
  rw [getD_take, getD_take, getD_take, getD_take]
  rw [if_pos (by omega : 0 + 0 < 4096), if_pos (by omega : 1 + 0 < 4096),
    if_pos (by omega : 2 + 0 < 4096), if_pos (by omega : 3 + 0 < 4096)]
  rw [regionChunkData_getD, regionChunkData_getD, regionChunkData_getD,
    regionChunkData_getD, C5bytes_length]
  rw [if_pos (by decide : 0 + 0 < 12288 - HEADER_LEN),
    if_pos (by decide : 1 + 0 < 12288 - HEADER_LEN),
    if_pos (by decide : 2 + 0 < 12288 - HEADER_LEN),
    if_pos (by decide : 3 + 0 < 12288 - HEADER_LEN)]
  rw [(by decide : HEADER_LEN + (0 + 0) = 8192 + 0),
    (by decide : HEADER_LEN + (1 + 0) = 8192 + 1),
    (by decide : HEADER_LEN + (2 + 0) = 8192 + 2),
    (by decide : HEADER_LEN + (3 + 0) = 8192 + 3)]
  rw [C5bytes_getD_hi 0 (by omega), C5bytes_getD_hi 1 (by omega),
    C5bytes_getD_hi 2 (by omega), C5bytes_getD_hi 3 (by omega)]
  decide

theorem C5_parse_slot0 :
    (parseSlot (regionHeaderData C5bytes) (regionChunkData C5bytes)
      (regionSectorCount C5bytes) 0).address = some ⟨2, 1⟩ := by
  refine parseSlot_address_some ?_ ?_
  · rw [C5bytes_sector_count,
      (by decide : readBE (regionHeaderData C5bytes) (4 * 0) = 513),
      (by decide : ((513 : Nat) >>> 8) &&& 0xffffff = 2),
      (by decide : (513 : Nat) &&& 0xff = 1)]
    unfold ChunkHeader.new
    rw [if_pos (⟨by omega, by omega, by omega⟩ :
      2 ≤ 2 ∧ 0 < 1 ∧ 2 + 1 - 2 ≤ 1)]
  · show ¬ ((ChunkInternalMeta.read
        ((regionChunkData C5bytes).take 4096)).length ≤ 1 ∨
      ((regionChunkData C5bytes).take 4096).length <
        (ChunkInternalMeta.read ((regionChunkData C5bytes).take 4096)).length
          + 4)
    rw [C5_cs_len, C5_cs_meta]
    omega

theorem C5_parse_slot1 :
    (parseSlot (regionHeaderData C5bytes) (regionChunkData C5bytes)
      (regionSectorCount C5bytes) 1).address = some ⟨2, 1⟩ := by
  refine parseSlot_address_some ?_ ?_
  · rw [C5bytes_sector_count,
      (by decide : readBE (regionHeaderData C5bytes) (4 * 1) = 513),
      (by decide : ((513 : Nat) >>> 8) &&& 0xffffff = 2),
      (by decide : (513 : Nat) &&& 0xff = 1)]
    unfold ChunkHeader.new
    rw [if_pos (⟨by omega, by omega, by omega⟩ :
      2 ≤ 2 ∧ 0 < 1 ∧ 2 + 1 - 2 ≤ 1)]
  · show ¬ ((ChunkInternalMeta.read
        ((regionChunkData C5bytes).take 4096)).length ≤ 1 ∨
      ((regionChunkData C5bytes).take 4096).length <
        (ChunkInternalMeta.read ((regionChunkData C5bytes).take 4096)).length
          + 4)
    rw [C5_cs_len, C5_cs_meta]
    omega

/-- **C5 counterexample**: parsing `C5bytes` yields two distinct valid
headers claiming the same payload sector 0, which is occupied — an
occupied bit claimed by two headers, not exactly one, straight out of the
parser; so the claimed invariant does not hold of every freshly parsed
region. -/
theorem C5_counterexample :
    C5bytes.length = 12288 ∧
    ((RegionFile.new C5bytes).headers.getD 0 ⟨none, 0⟩).address =
      some ⟨2, 1⟩ ∧
    ((RegionFile.new C5bytes).headers.getD 1 ⟨none, 0⟩).address =
      some ⟨2, 1⟩ ∧
    ¬ addrDisjoint
      ((RegionFile.new C5bytes).headers.getD 0 ⟨none, 0⟩).address
      ((RegionFile.new C5bytes).headers.getD 1 ⟨none, 0⟩).address ∧
    covers (RegionFile.new C5bytes).headers 0 0 ∧
    covers (RegionFile.new C5bytes).headers 1 0 ∧
    (RegionFile.new C5bytes).occupied_sectors.getD 0 false = true := by
  have haddr0 : ((RegionFile.new C5bytes).headers.getD 0 ⟨none, 0⟩).address =
      some ⟨2, 1⟩ := by
    rw [new_headers, regionHeaders_getD C5bytes (by omega : (0 : Nat) < 1024)]
    exact C5_parse_slot0
  have haddr1 : ((RegionFile.new C5bytes).headers.getD 1 ⟨none, 0⟩).address =
      some ⟨2, 1⟩ := by
    rw [new_headers, regionHeaders_getD C5bytes (by omega : (1 : Nat) < 1024)]
    exact C5_parse_slot1
  refine ⟨C5bytes_length, haddr0, haddr1, ?_, ?_, ?_, ?_⟩
  · rw [haddr0, haddr1]
    decide
  · unfold covers
    rw [haddr0]
    exact ⟨by decide, by decide⟩
  · unfold covers
    rw [haddr1]
    exact ⟨by decide, by decide⟩
  · rw [new_occ, foldl_markRun_getD]
    right
    refine ⟨(regionHeaders C5bytes).getD 0 ⟨none, 0⟩, getD_mem ?_, ?_, ?_⟩
    · rw [regionHeaders_length]
      omega
    · unfold coversH
      rw [regionHeaders_getD C5bytes (by omega : (0 : Nat) < 1024),
        C5_parse_slot0]
      exact ⟨by decide, by decide⟩
    · rw [List.length_replicate, C5bytes_sector_count]
      omega

/-! ## C1: round trip through `write_out`

The serialized file is the two header tables followed by the payload
bytes.  The lemmas here recover each slot's location entry, timestamp
entry, the computed sector count, and the payload bytes from the
serialized image. -/

/-- A region in a state the engine itself maintains: geometric invariant,
payload buffer one sector per occupied bit, header fields within their
serialized widths, and each stored chunk's internal metadata sane (the
exact condition `RegionFile::new` re-checks when parsing) with an
internally-stored codec byte — below 128, since a high bit would make the
parser panic on an externally-stored chunk (src/anvil.rs:100-106). -/
def RegionWF (r : RegionFile) : Prop :=
  GeomInv r ∧
  r.chunk_data.length = r.occupied_sectors.length * SECTOR_LEN ∧
  (∀ j, j < 1024 → (r.headers.getD j ⟨none, 0⟩).mtime < 2 ^ 32) ∧
  (∀ j a, (r.headers.getD j ⟨none, 0⟩).address = some a →
    a.offset < 2 ^ 24 ∧ a.len ≤ 255 ∧
    2 ≤ readBE r.chunk_data ((a.offset - HEADER_SECTORS) * SECTOR_LEN) ∧
    readBE r.chunk_data ((a.offset - HEADER_SECTORS) * SECTOR_LEN) + 4 ≤
      a.len * SECTOR_LEN ∧
    r.chunk_data.getD ((a.offset - HEADER_SECTORS) * SECTOR_LEN + 4) 0 < 128)

theorem new_chunk_data (data : List Nat) :
    (RegionFile.new data).chunk_data = regionChunkData data := rfl

theorem mscStep_le (m : Nat) (h : ChunkHeader) : m ≤ mscStep m h := by
  unfold mscStep
  cases ha : h.address with
  | none => exact Nat.le_refl m
  | some a => exact Nat.le_max_left _ _

theorem foldl_mscStep_le_acc (l : List ChunkHeader) (m : Nat) :
    m ≤ l.foldl mscStep m := by
  induction l generalizing m with
  | nil => exact Nat.le_refl m
  | cons h t ih => exact Nat.le_trans (mscStep_le m h) (ih (mscStep m h))

theorem foldl_mscStep_mem (l : List ChunkHeader) {h : ChunkHeader}
    {a : ChunkAddress} (ha : h.address = some a) :
    ∀ m, h ∈ l → a.offset + a.len - HEADER_SECTORS ≤ l.foldl mscStep m := by
  induction l with
  | nil =>
    intro m hm
    exact absurd hm (List.not_mem_nil h)
  | cons h0 t ih =>
    intro m hm
    rcases List.mem_cons.mp hm with heq | hmem
    · subst heq
      rw [List.foldl_cons]
      refine Nat.le_trans ?_ (foldl_mscStep_le_acc t (mscStep m h))
      unfold mscStep
      rw [ha]
      exact Nat.le_max_right m _
    · rw [List.foldl_cons]
      exact ih (mscStep m h0) hmem

theorem foldl_mscStep_le (l : List ChunkHeader) (B : Nat)
    (hB : ∀ h ∈ l, ∀ a, h.address = some a →
      a.offset + a.len - HEADER_SECTORS ≤ B) :
    ∀ m, m ≤ B → l.foldl mscStep m ≤ B := by
  induction l with
  | nil =>
    intro m hm
    exact hm
  | cons h0 t ih =>
    intro m hm
    rw [List.foldl_cons]
    refine ih (fun h hmem a ha => hB h (List.mem_cons_of_mem h0 hmem) a ha)
      (mscStep m h0) ?_
    unfold mscStep
    cases ha : h0.address with
    | none => exact hm
    | some a =>
      have hb := hB h0 (List.mem_cons_self h0 t) a ha
      exact Nat.max_le.mpr ⟨hm, hb⟩

theorem max_sector_count_ge {r : RegionFile} {j : Nat} {a : ChunkAddress}
    (ha : (r.headers.getD j ⟨none, 0⟩).address = some a)
    (hlen : r.headers.length = 1024) :
    a.offset + a.len - HEADER_SECTORS ≤ r.max_sector_count := by
  have hjlt : j < 1024 := addr_slot_lt hlen ha
  unfold RegionFile.max_sector_count
  exact foldl_mscStep_mem _ ha 0 (getD_mem (by omega))

theorem max_sector_count_le {r : RegionFile}
    (hok : ∀ j, j < 1024 →
      addrOK r.occupied_sectors.length (r.headers.getD j ⟨none, 0⟩).address)
    (hlen : r.headers.length = 1024) :
    r.max_sector_count ≤ r.occupied_sectors.length := by
  unfold RegionFile.max_sector_count
  refine foldl_mscStep_le _ _ ?_ 0 (Nat.zero_le _)
  intro h hmem a ha
  rcases mem_getD hmem with ⟨j, hjlen, hgd⟩
  have hja : (r.headers.getD j ⟨none, 0⟩).address = some a := by
    rw [hgd]
    exact ha
  have hj : j < 1024 := by omega
  have hokj := hok j hj
  rw [hja] at hokj
  exact hokj.2.2

theorem locEntry_length (h : ChunkHeader) : (locEntry h).length = 4 := rfl

theorem timeEntry_length (h : ChunkHeader) : (timeEntry h).length = 4 := rfl

theorem locEntry_getD_lt (h : ChunkHeader) (k : Nat) :
    (locEntry h).getD k 0 < 256 := by
  unfold locEntry
  rcases k with _ | _ | _ | _ | k
  · show (_ >>> 16) &&& 255 < 256
    rw [land_255]
    exact Nat.mod_lt _ (by omega)
  · show (_ >>> 8) &&& 255 < 256
    rw [land_255]
    exact Nat.mod_lt _ (by omega)
  · show (_ >>> 0) &&& 255 < 256
    rw [land_255]
    exact Nat.mod_lt _ (by omega)
  · show _ % 256 < 256
    exact Nat.mod_lt _ (by omega)
  · show (0 : Nat) < 256
    omega

theorem timeEntry_getD_lt (h : ChunkHeader) (k : Nat) :
    (timeEntry h).getD k 0 < 256 := by
  unfold timeEntry
  rcases k with _ | _ | _ | _ | k
  · show (_ >>> 24) &&& 255 < 256
    rw [land_255]
    exact Nat.mod_lt _ (by omega)
  · show (_ >>> 16) &&& 255 < 256
    rw [land_255]
    exact Nat.mod_lt _ (by omega)
  · show (_ >>> 8) &&& 255 < 256
    rw [land_255]
    exact Nat.mod_lt _ (by omega)
  · show (_ >>> 0) &&& 255 < 256
    rw [land_255]
    exact Nat.mod_lt _ (by omega)
  · show (0 : Nat) < 256
    omega

theorem wob_getD_loc (r : RegionFile) (hlen : r.headers.length = 1024)
    {j k : Nat} (hj : j < 1024) (hk : k < 4) :
    r.write_out_bytes.getD (4 * j + k) 0 =
      (locEntry (r.headers.getD j ⟨none, 0⟩)).getD k 0 := by
  unfold RegionFile.write_out_bytes
  rw [getD_append, List.length_append,
    length_flatten_map4 locEntry (fun b => rfl),
    length_flatten_map4 timeEntry (fun b => rfl), hlen, if_pos (by omega)]
  rw [getD_append, length_flatten_map4 locEntry (fun b => rfl), hlen,
    if_pos (by omega)]
  exact getD_flatten_map4 locEntry (fun b => rfl) r.headers ⟨none, 0⟩ j k 0
    (by omega) hk

theorem wob_getD_time (r : RegionFile) (hlen : r.headers.length = 1024)
    {j k : Nat} (hj : j < 1024) (hk : k < 4) :
    r.write_out_bytes.getD (4096 + (4 * j + k)) 0 =
      (timeEntry (r.headers.getD j ⟨none, 0⟩)).getD k 0 := by
  unfold RegionFile.write_out_bytes
  rw [getD_append, List.length_append,
    length_flatten_map4 locEntry (fun b => rfl),
    length_flatten_map4 timeEntry (fun b => rfl), hlen, if_pos (by omega)]
  rw [getD_append, length_flatten_map4 locEntry (fun b => rfl), hlen,
    if_neg (by omega)]
  have he : 4096 + (4 * j + k) - 4 * 1024 = 4 * j + k := by omega
  rw [he]
  exact getD_flatten_map4 timeEntry (fun b => rfl) r.headers ⟨none, 0⟩ j k 0
    (by omega) hk

theorem readBE_loc_raw (r : RegionFile) (hlen : r.headers.length = 1024)
    {j : Nat} (hj : j < 1024) :
    readBE (regionHeaderData r.write_out_bytes) (4 * j) =
      ((((locEntry (r.headers.getD j ⟨none, 0⟩)).getD 0 0 * 256 +
        (locEntry (r.headers.getD j ⟨none, 0⟩)).getD 1 0) * 256 +
        (locEntry (r.headers.getD j ⟨none, 0⟩)).getD 2 0) * 256 +
        (locEntry (r.headers.getD j ⟨none, 0⟩)).getD 3 0) := by
  unfold readBE
  rw [regionHeaderData_getD, regionHeaderData_getD, regionHeaderData_getD,
    regionHeaderData_getD]
  have hHL : HEADER_LEN = 8192 := rfl
  rw [if_pos (by omega), if_pos (by omega), if_pos (by omega),
    if_pos (by omega)]
  rw [(by omega : 0 + 4 * j = 4 * j + 0), (by omega : 1 + 4 * j = 4 * j + 1),
    (by omega : 2 + 4 * j = 4 * j + 2), (by omega : 3 + 4 * j = 4 * j + 3)]
  rw [wob_getD_loc r hlen hj (by omega), wob_getD_loc r hlen hj (by omega),
    wob_getD_loc r hlen hj (by omega), wob_getD_loc r hlen hj (by omega)]
  exact readBE_eq_of_bytes (locEntry_getD_lt _ 0) (locEntry_getD_lt _ 1)
    (locEntry_getD_lt _ 2) (locEntry_getD_lt _ 3)

theorem readBE_loc_none (r : RegionFile) (hlen : r.headers.length = 1024)
    {j : Nat} (hj : j < 1024)
    (ha : (r.headers.getD j ⟨none, 0⟩).address = none) :
    readBE (regionHeaderData r.write_out_bytes) (4 * j) = 0 := by
  rw [readBE_loc_raw r hlen hj]
  unfold locEntry
  rw [ha]
  decide

theorem readBE_loc_some (r : RegionFile) (hlen : r.headers.length = 1024)
    {j : Nat} (hj : j < 1024) {a : ChunkAddress}
    (ha : (r.headers.getD j ⟨none, 0⟩).address = some a) :
    readBE (regionHeaderData r.write_out_bytes) (4 * j) =
      (a.offset % 2 ^ 24) * 256 + a.len % 256 := by
  rw [readBE_loc_raw r hlen hj]
  unfold locEntry
  rw [ha]
  simp only [List.getD_cons_zero, List.getD_cons_succ]
  rw [land_255, land_255, land_255, Nat.shiftRight_eq_div_pow,
    Nat.shiftRight_eq_div_pow, Nat.shiftRight_eq_div_pow]
  rw [(by norm_num : (2 : Nat) ^ 16 = 65536),
    (by norm_num : (2 : Nat) ^ 8 = 256), (by norm_num : (2 : Nat) ^ 0 = 1),
    (by norm_num : (2 : Nat) ^ 24 = 16777216)]
  omega

theorem readBE_time (r : RegionFile) (hlen : r.headers.length = 1024)
    {j : Nat} (hj : j < 1024) :
    readBE (regionHeaderData r.write_out_bytes) (4 * j + 0x1000) =
      (r.headers.getD j ⟨none, 0⟩).mtime % 2 ^ 32 := by
  unfold readBE
  rw [regionHeaderData_getD, regionHeaderData_getD, regionHeaderData_getD,
    regionHeaderData_getD]
  have hHL : HEADER_LEN = 8192 := rfl
  rw [if_pos (by omega), if_pos (by omega), if_pos (by omega),
    if_pos (by omega)]
  rw [(by omega : 0 + (4 * j + 0x1000) = 4096 + (4 * j + 0)),
    (by omega : 1 + (4 * j + 0x1000) = 4096 + (4 * j + 1)),
    (by omega : 2 + (4 * j + 0x1000) = 4096 + (4 * j + 2)),
    (by omega : 3 + (4 * j + 0x1000) = 4096 + (4 * j + 3))]
  rw [wob_getD_time r hlen hj (by omega), wob_getD_time r hlen hj (by omega),
    wob_getD_time r hlen hj (by omega), wob_getD_time r hlen hj (by omega)]
  rw [readBE_eq_of_bytes (timeEntry_getD_lt _ 0) (timeEntry_getD_lt _ 1)
    (timeEntry_getD_lt _ 2) (timeEntry_getD_lt _ 3)]
  unfold timeEntry
  simp only [List.getD_cons_zero, List.getD_cons_succ]
  rw [land_255, land_255, land_255, land_255, Nat.shiftRight_eq_div_pow,
    Nat.shiftRight_eq_div_pow, Nat.shiftRight_eq_div_pow,
    Nat.shiftRight_eq_div_pow]
  rw [(by norm_num : (2 : Nat) ^ 24 = 16777216),
    (by norm_num : (2 : Nat) ^ 16 = 65536),
    (by norm_num : (2 : Nat) ^ 8 = 256), (by norm_num : (2 : Nat) ^ 0 = 1),
    (by norm_num : (2 : Nat) ^ 32 = 4294967296)]
  omega

theorem divCeil_mul (m s : Nat) (hs : 0 < s) : divCeil (m * s) s = m := by
  unfold divCeil
  rcases m with _ | m2
  · rw [Nat.zero_mul, Nat.zero_add]
    exact Nat.div_eq_of_lt (by omega)
  · have he : (m2 + 1) * s + s - 1 = (s - 1) + (m2 + 1) * s := by
      have h1 : 1 ≤ s := hs
      omega
    rw [he, Nat.add_mul_div_right _ _ hs, Nat.div_eq_of_lt (by omega),
      Nat.zero_add]

theorem wob_sector_count (r : RegionFile) (hlen : r.headers.length = 1024)
    (hdata : r.chunk_data.length = r.occupied_sectors.length * SECTOR_LEN)
    (hok : ∀ j, j < 1024 → addrOK r.occupied_sectors.length
      (r.headers.getD j ⟨none, 0⟩).address) :
    regionSectorCount r.write_out_bytes = r.max_sector_count := by
  unfold regionSectorCount
  rw [List.length_drop]
  unfold RegionFile.write_out_bytes
  rw [List.length_append, List.length_append,
    length_flatten_map4 locEntry (fun b => rfl),
    length_flatten_map4 timeEntry (fun b => rfl), hlen, List.length_take,
    hdata]
  have hle := max_sector_count_le hok hlen
  rw [Nat.min_eq_left (Nat.mul_le_mul_right _ hle)]
  have hHL : HEADER_LEN = 8192 := rfl
  have he : 4 * 1024 + 4 * 1024 + r.max_sector_count * SECTOR_LEN -
      HEADER_LEN = r.max_sector_count * SECTOR_LEN := by
    omega
  rw [he]
  exact divCeil_mul _ _ (by decide)

theorem wob_length (r : RegionFile) (hlen : r.headers.length = 1024)
    (hdata : r.chunk_data.length = r.occupied_sectors.length * SECTOR_LEN)
    (hok : ∀ j, j < 1024 → addrOK r.occupied_sectors.length
      (r.headers.getD j ⟨none, 0⟩).address) :
    r.write_out_bytes.length = 8192 + r.max_sector_count * SECTOR_LEN := by
  unfold RegionFile.write_out_bytes
  rw [List.length_append, List.length_append,
    length_flatten_map4 locEntry (fun b => rfl),
    length_flatten_map4 timeEntry (fun b => rfl), hlen, List.length_take,
    hdata]
  have hle := max_sector_count_le hok hlen
  rw [Nat.min_eq_left (Nat.mul_le_mul_right _ hle)]

theorem wob_chunk_getD (r : RegionFile) (hlen : r.headers.length = 1024)
    (hdata : r.chunk_data.length = r.occupied_sectors.length * SECTOR_LEN)
    (hok : ∀ j, j < 1024 → addrOK r.occupied_sectors.length
      (r.headers.getD j ⟨none, 0⟩).address)
    {k : Nat} (hk : k < r.max_sector_count * SECTOR_LEN) :
    (regionChunkData r.write_out_bytes).getD k 0 = r.chunk_data.getD k 0 := by
  rw [regionChunkData_getD, wob_length r hlen hdata hok]
  have hHL : HEADER_LEN = 8192 := rfl
  rw [if_pos (by omega)]
  unfold RegionFile.write_out_bytes
  rw [getD_append, List.length_append,
    length_flatten_map4 locEntry (fun b => rfl),
    length_flatten_map4 timeEntry (fun b => rfl), hlen, if_neg (by omega)]
  have he : HEADER_LEN + k - (4 * 1024 + 4 * 1024) = k := by omega
  rw [he, getD_take, if_pos hk]

theorem wob_cs_len (r : RegionFile) (hlen : r.headers.length = 1024)
    (hdata : r.chunk_data.length = r.occupied_sectors.length * SECTOR_LEN)
    (hok : ∀ j, j < 1024 → addrOK r.occupied_sectors.length
      (r.headers.getD j ⟨none, 0⟩).address)
    {o l : Nat} (hb : 2 ≤ o ∧ 1 ≤ l ∧ o + l - 2 ≤ r.max_sector_count) :
    (((regionChunkData r.write_out_bytes).drop ((o - 2) * SECTOR_LEN)).take
      (l * SECTOR_LEN)).length = l * SECTOR_LEN := by
  rw [List.length_take, List.length_drop, regionChunkData_length,
    wob_sector_count r hlen hdata hok]
  have h1 : (o - 2) * SECTOR_LEN + l * SECTOR_LEN =
      (o + l - 2) * SECTOR_LEN := by
    rw [← Nat.add_mul]
    congr 1
    omega
  have h2 : (o + l - 2) * SECTOR_LEN ≤ r.max_sector_count * SECTOR_LEN :=
    Nat.mul_le_mul_right _ hb.2.2
  omega

theorem wob_cs_getD (r : RegionFile) (hlen : r.headers.length = 1024)
    (hdata : r.chunk_data.length = r.occupied_sectors.length * SECTOR_LEN)
    (hok : ∀ j, j < 1024 → addrOK r.occupied_sectors.length
      (r.headers.getD j ⟨none, 0⟩).address)
    {o l : Nat} (hb : 2 ≤ o ∧ 1 ≤ l ∧ o + l - 2 ≤ r.max_sector_count)
    {k : Nat} (hk : k < l * SECTOR_LEN) :
    (((regionChunkData r.write_out_bytes).drop ((o - 2) * SECTOR_LEN)).take
      (l * SECTOR_LEN)).getD k 0 =
      r.chunk_data.getD ((o - 2) * SECTOR_LEN + k) 0 := by
  rw [getD_take, if_pos hk, getD_drop]
  apply wob_chunk_getD r hlen hdata hok
  have h1 : (o - 2) * SECTOR_LEN + l * SECTOR_LEN =
      (o + l - 2) * SECTOR_LEN := by
    rw [← Nat.add_mul]
    congr 1
    omega
  have h2 : (o + l - 2) * SECTOR_LEN ≤ r.max_sector_count * SECTOR_LEN :=
    Nat.mul_le_mul_right _ hb.2.2
  omega

theorem wob_cs_meta (r : RegionFile) (hlen : r.headers.length = 1024)
    (hdata : r.chunk_data.length = r.occupied_sectors.length * SECTOR_LEN)
    (hok : ∀ j, j < 1024 → addrOK r.occupied_sectors.length
      (r.headers.getD j ⟨none, 0⟩).address)
    {o l : Nat} (hb : 2 ≤ o ∧ 1 ≤ l ∧ o + l - 2 ≤ r.max_sector_count) :
    (ChunkInternalMeta.read (((regionChunkData r.write_out_bytes).drop
      ((o - 2) * SECTOR_LEN)).take (l * SECTOR_LEN))).length =
      readBE r.chunk_data ((o - 2) * SECTOR_LEN) := by
  show readBE (((regionChunkData r.write_out_bytes).drop
    ((o - 2) * SECTOR_LEN)).take (l * SECTOR_LEN)) 0 = _
  have hSL : SECTOR_LEN = 4096 := rfl
  have hlSL : SECTOR_LEN ≤ l * SECTOR_LEN := by
    have h := Nat.mul_le_mul_right SECTOR_LEN hb.2.1
    rw [Nat.one_mul] at h
    exact h
  unfold readBE
  rw [wob_cs_getD r hlen hdata hok hb (by omega),
    wob_cs_getD r hlen hdata hok hb (by omega),
    wob_cs_getD r hlen hdata hok hb (by omega),
    wob_cs_getD r hlen hdata hok hb (by omega)]
  rw [(by omega : (o - 2) * SECTOR_LEN + (0 + 0) = 0 + (o - 2) * SECTOR_LEN),
    (by omega : (o - 2) * SECTOR_LEN + (1 + 0) = 1 + (o - 2) * SECTOR_LEN),
    (by omega : (o - 2) * SECTOR_LEN + (2 + 0) = 2 + (o - 2) * SECTOR_LEN),
    (by omega : (o - 2) * SECTOR_LEN + (3 + 0) = 3 + (o - 2) * SECTOR_LEN)]

theorem ChunkHeader_new_zero_eq (l m sc : Nat) :
    ChunkHeader.new 0 l m sc = ⟨none, m⟩ := by
  have hc : ¬(2 ≤ 0 ∧ 0 < l ∧ 0 + l - 2 ≤ sc) := by
    intro hc
    omega
  unfold ChunkHeader.new
  rw [if_neg hc]

theorem parseSlot_none_slot {hd cd : List Nat} {sc idx : Nat}
    (hzero : readBE hd (4 * idx) = 0) :
    parseSlot hd cd sc idx = ⟨none, readBE hd (4 * idx + 0x1000)⟩ := by
  simp only [parseSlot]
  rw [hzero, (by decide : ((0 : Nat) >>> 8) &&& 0xffffff = 0),
    ChunkHeader_new_zero_eq]

theorem parseSlot_some_slot {hd cd : List Nat} {sc idx o l : Nat}
    (hread : readBE hd (4 * idx) = o * 256 + l)
    (ho : o < 2 ^ 24) (hl : l ≤ 255)
    (hvalid : 2 ≤ o ∧ 0 < l ∧ o + l - 2 ≤ sc)
    (hcond : ¬ ((ChunkInternalMeta.read ((cd.drop ((o - 2) * SECTOR_LEN)).take
        (l * SECTOR_LEN))).length ≤ 1 ∨
      ((cd.drop ((o - 2) * SECTOR_LEN)).take (l * SECTOR_LEN)).length <
        (ChunkInternalMeta.read ((cd.drop ((o - 2) * SECTOR_LEN)).take
          (l * SECTOR_LEN))).length + 4)) :
    parseSlot hd cd sc idx = ⟨some ⟨o, l⟩, readBE hd (4 * idx + 0x1000)⟩ := by
  have h224 : (2 : Nat) ^ 24 = 16777216 := by norm_num
  have ho2 : o < 16777216 := by
    rw [← h224]
    exact ho
  have hoff : (readBE hd (4 * idx) >>> 8) &&& 0xffffff = o := by
    rw [hread, land_mask24, Nat.shiftRight_eq_div_pow,
      (by norm_num : (2 : Nat) ^ 8 = 256)]
    omega
  have hlen2 : readBE hd (4 * idx) &&& 0xff = l := by
    rw [hread, land_255]
    omega
  have hnew : ChunkHeader.new ((readBE hd (4 * idx) >>> 8) &&& 0xffffff)
      (readBE hd (4 * idx) &&& 0xff) (readBE hd (4 * idx + 0x1000)) sc =
      ⟨some ⟨o, l⟩, readBE hd (4 * idx + 0x1000)⟩ := by
    rw [hoff, hlen2]
    unfold ChunkHeader.new
    rw [if_pos hvalid]
  simp only [parseSlot]
  simp only [hnew]
  rw [if_neg hcond]

theorem parseSlot_meta_bad {hd cd : List Nat} {sc idx o l : Nat}
    (hread : readBE hd (4 * idx) = o * 256 + l)
    (ho : o < 2 ^ 24) (hl : l ≤ 255)
    (hvalid : 2 ≤ o ∧ 0 < l ∧ o + l - 2 ≤ sc)
    (hbad : (ChunkInternalMeta.read ((cd.drop ((o - 2) * SECTOR_LEN)).take
        (l * SECTOR_LEN))).length ≤ 1 ∨
      ((cd.drop ((o - 2) * SECTOR_LEN)).take (l * SECTOR_LEN)).length <
        (ChunkInternalMeta.read ((cd.drop ((o - 2) * SECTOR_LEN)).take
          (l * SECTOR_LEN))).length + 4) :
    (parseSlot hd cd sc idx).address = none := by
  have h224 : (2 : Nat) ^ 24 = 16777216 := by norm_num
  have ho2 : o < 16777216 := by
    rw [← h224]
    exact ho
  have hoff : (readBE hd (4 * idx) >>> 8) &&& 0xffffff = o := by
    rw [hread, land_mask24, Nat.shiftRight_eq_div_pow,
      (by norm_num : (2 : Nat) ^ 8 = 256)]
    omega
  have hlen2 : readBE hd (4 * idx) &&& 0xff = l := by
    rw [hread, land_255]
    omega
  have hnew : ChunkHeader.new ((readBE hd (4 * idx) >>> 8) &&& 0xffffff)
      (readBE hd (4 * idx) &&& 0xff) (readBE hd (4 * idx + 0x1000)) sc =
      ⟨some ⟨o, l⟩, readBE hd (4 * idx + 0x1000)⟩ := by
    rw [hoff, hlen2]
    unfold ChunkHeader.new
    rw [if_pos hvalid]
  simp only [parseSlot]
  simp only [hnew]
  rw [if_pos hbad]

/-- Each slot of `parse(serialize(r))` equals the corresponding slot of a
well-formed `r`. -/
theorem parse_wob_slot (r : RegionFile) (hwf : RegionWF r) {j : Nat}
    (hj : j < 1024) :
    (RegionFile.new r.write_out_bytes).headers.getD j ⟨none, 0⟩ =
      r.headers.getD j ⟨none, 0⟩ := by
  obtain ⟨⟨hglen, hgok, hgdisj, hgocc⟩, hdata, hmt, haddr⟩ := hwf
  rw [new_headers, regionHeaders_getD _ hj]
  cases ha : (r.headers.getD j ⟨none, 0⟩).address with
  | none =>
    rw [parseSlot_none_slot (readBE_loc_none r hglen hj ha),
      readBE_time r hglen hj, Nat.mod_eq_of_lt (hmt j hj)]
    cases hh : r.headers.getD j ⟨none, 0⟩ with
    | mk addr mt =>
      rw [hh] at ha
      have ha2 : addr = none := ha
      rw [ha2]
  | some a =>
    obtain ⟨ho24, hl255, hml2, hml4, hbyte⟩ := haddr j a ha
    have hHS : HEADER_SECTORS = 2 := rfl
    rw [hHS] at hml2 hml4
    have hok := hgok j hj
    rw [ha] at hok
    have hok2 : 2 ≤ a.offset ∧ 1 ≤ a.len ∧
        a.offset + a.len - HEADER_SECTORS ≤ r.occupied_sectors.length := hok
    have hmsc := max_sector_count_ge ha hglen
    have hb : 2 ≤ a.offset ∧ 1 ≤ a.len ∧
        a.offset + a.len - 2 ≤ r.max_sector_count := by omega
    have hread : readBE (regionHeaderData r.write_out_bytes) (4 * j) =
        a.offset * 256 + a.len := by
      rw [readBE_loc_some r hglen hj ha, Nat.mod_eq_of_lt ho24,
        Nat.mod_eq_of_lt (by omega)]
    have hsc := wob_sector_count r hglen hdata hgok
    have hcond : ¬ ((ChunkInternalMeta.read (((regionChunkData
        r.write_out_bytes).drop ((a.offset - 2) * SECTOR_LEN)).take
        (a.len * SECTOR_LEN))).length ≤ 1 ∨
      (((regionChunkData r.write_out_bytes).drop
        ((a.offset - 2) * SECTOR_LEN)).take (a.len * SECTOR_LEN)).length <
        (ChunkInternalMeta.read (((regionChunkData r.write_out_bytes).drop
          ((a.offset - 2) * SECTOR_LEN)).take (a.len * SECTOR_LEN))).length
          + 4) := by
      rw [wob_cs_meta r hglen hdata hgok hb, wob_cs_len r hglen hdata hgok hb]
      intro hor
      rcases hor with h1 | h1
      · omega
      · omega
    rw [parseSlot_some_slot hread ho24 (by omega)
      ⟨hok2.1, by omega, by rw [hsc]; omega⟩ hcond]
    rw [readBE_time r hglen hj, Nat.mod_eq_of_lt (hmt j hj)]
    cases hh : r.headers.getD j ⟨none, 0⟩ with
    | mk addr mt =>
      rw [hh] at ha
      have ha2 : addr = some a := ha
      rw [ha2]

/-- `decode` only returns `Unknown id` with `id` the input byte itself. -/
theorem decode_unknown_eq (b i : Nat)
    (h : CompressionType.decode b = .Unknown i) : i = b := by
  unfold CompressionType.decode at h
  split at h
  · exact CompressionType.noConfusion h
  · exact CompressionType.noConfusion h
  · exact CompressionType.noConfusion h
  · exact CompressionType.noConfusion h
  · exact CompressionType.noConfusion h
  · injection h with h1
    exact h1.symm

/-- A slot with an all-zero location entry cannot hit the
externally-stored panic. -/
theorem parseSlotPanics_zero {hd cd : List Nat} {sc idx : Nat}
    (hzero : readBE hd (4 * idx) = 0) :
    parseSlotPanics hd cd sc idx = false := by
  simp only [parseSlotPanics]
  rw [hzero, (by decide : ((0 : Nat) >>> 8) &&& 0xffffff = 0),
    (by decide : (0 : Nat) &&& 0xff = 0), ChunkHeader_new_zero_eq]

/-- A valid slot whose stored codec byte is below 128 cannot hit the
externally-stored panic. -/
theorem parseSlotPanics_some {hd cd : List Nat} {sc idx o l : Nat}
    (hread : readBE hd (4 * idx) = o * 256 + l)
    (ho : o < 2 ^ 24) (hl : l ≤ 255)
    (hvalid : 2 ≤ o ∧ 0 < l ∧ o + l - 2 ≤ sc)
    (hbyte : ((cd.drop ((o - 2) * SECTOR_LEN)).take
      (l * SECTOR_LEN)).getD 4 0 < 128) :
    parseSlotPanics hd cd sc idx = false := by
  have h224 : (2 : Nat) ^ 24 = 16777216 := by norm_num
  have ho2 : o < 16777216 := by
    rw [← h224]
    exact ho
  have hoff : (readBE hd (4 * idx) >>> 8) &&& 0xffffff = o := by
    rw [hread, land_mask24, Nat.shiftRight_eq_div_pow,
      (by norm_num : (2 : Nat) ^ 8 = 256)]
    omega
  have hlen2 : readBE hd (4 * idx) &&& 0xff = l := by
    rw [hread, land_255]
    omega
  have hnew : ChunkHeader.new ((readBE hd (4 * idx) >>> 8) &&& 0xffffff)
      (readBE hd (4 * idx) &&& 0xff) 0 sc = ⟨some ⟨o, l⟩, 0⟩ := by
    rw [hoff, hlen2]
    unfold ChunkHeader.new
    rw [if_pos hvalid]
  simp only [parseSlotPanics]
  simp only [hnew]
  cases hdec : CompressionType.decode
      (((cd.drop ((o - 2) * SECTOR_LEN)).take (l * SECTOR_LEN)).getD 4 0) with
  | GZip => rfl
  | Zlib => rfl
  | None => rfl
  | LZ4 => rfl
  | Zstd => rfl
  | Unknown id =>
    have hid := decode_unknown_eq _ _ hdec
    exact decide_eq_false (by omega)

/-- Parsing the serialized image of a well-formed region never hits the
externally-stored panic of `RegionFile::new`, so the program really does
perform the round trip. -/
theorem parse_wob_no_panic (r : RegionFile) (hwf : RegionWF r) :
    RegionFile.parse_panics r.write_out_bytes = false := by
  obtain ⟨⟨hglen, hgok, hgdisj, hgocc⟩, hdata, hmt, haddr⟩ := hwf
  unfold RegionFile.parse_panics
  rw [List.any_eq_false]
  intro idx hidx
  have hj : idx < 1024 := by
    have h32 := List.mem_range.mp hidx
    omega
  intro hp
  cases ha : (r.headers.getD idx ⟨none, 0⟩).address with
  | none =>
    rw [parseSlotPanics_zero (readBE_loc_none r hglen hj ha)] at hp
    exact Bool.noConfusion hp
  | some a =>
    obtain ⟨ho24, hl255, hml2, hml4, hbyte⟩ := haddr idx a ha
    have hHS : HEADER_SECTORS = 2 := rfl
    have hok := hgok idx hj
    rw [ha] at hok
    have hok2 : 2 ≤ a.offset ∧ 1 ≤ a.len ∧
        a.offset + a.len - HEADER_SECTORS ≤ r.occupied_sectors.length := hok
    have hmsc := max_sector_count_ge ha hglen
    have hb : 2 ≤ a.offset ∧ 1 ≤ a.len ∧
        a.offset + a.len - 2 ≤ r.max_sector_count := by omega
    have hread : readBE (regionHeaderData r.write_out_bytes) (4 * idx) =
        a.offset * 256 + a.len := by
      rw [readBE_loc_some r hglen hj ha, Nat.mod_eq_of_lt ho24,
        Nat.mod_eq_of_lt (by omega)]
    have hsc := wob_sector_count r hglen hdata hgok
    have hk4 : (4 : Nat) < a.len * SECTOR_LEN := by
      have hSL : SECTOR_LEN = 4096 := rfl
      have hlSL := Nat.mul_le_mul_right SECTOR_LEN hb.2.1
      rw [Nat.one_mul] at hlSL
      omega
    have hbyte2 : (((regionChunkData r.write_out_bytes).drop
        ((a.offset - 2) * SECTOR_LEN)).take (a.len * SECTOR_LEN)).getD 4 0
        < 128 := by
      rw [wob_cs_getD r hglen hdata hgok hb hk4]
      rw [hHS] at hbyte
      exact hbyte
    rw [parseSlotPanics_some hread ho24 (by omega)
      ⟨hok2.1, by omega, by rw [hsc]; omega⟩ hbyte2] at hp
    exact Bool.noConfusion hp

/-- **C1** (amended).  For every well-formed in-memory region — geometric
invariant, sector-aligned payload buffer, header fields within their
serialized widths, and every stored chunk's internal metadata sane, i.e.
recorded length ≥ 2 (a nonempty payload) fitting its run and an
internally-stored codec byte (< 128) — parsing the bytes of `write_out`
with `full_write = true` does not hit the externally-stored-chunk panic
and yields identical headers (same address and mtime on all 1024 slots)
and byte-identical chunk payloads.  A chunk written with an EMPTY payload
records internal length 1 and is dropped by the parser
(`C1_counterexample`), so the original claim's empty-payload case is
false. -/
theorem C1_roundtrip (r : RegionFile) (hwf : RegionWF r) :
    RegionFile.parse_panics r.write_out_bytes = false ∧
    (∀ j, j < 1024 →
      (RegionFile.new r.write_out_bytes).headers.getD j ⟨none, 0⟩ =
        r.headers.getD j ⟨none, 0⟩) ∧
    (∀ j a, (r.headers.getD j ⟨none, 0⟩).address = some a →
      ∀ k, k < a.len * SECTOR_LEN →
        (RegionFile.new r.write_out_bytes).chunk_data.getD
          ((a.offset - HEADER_SECTORS) * SECTOR_LEN + k) 0 =
          r.chunk_data.getD ((a.offset - HEADER_SECTORS) * SECTOR_LEN + k) 0)
    := by
  obtain ⟨⟨hglen, hgok, hgdisj, hgocc⟩, hdata, hmt, haddr⟩ := hwf
  refine ⟨?_, ?_, ?_⟩
  · exact parse_wob_no_panic r
      ⟨⟨hglen, hgok, hgdisj, hgocc⟩, hdata, hmt, haddr⟩
  · intro j hj
    exact parse_wob_slot r ⟨⟨hglen, hgok, hgdisj, hgocc⟩, hdata, hmt, haddr⟩ hj
  · intro j a ha k hk
    rw [new_chunk_data]
    apply wob_chunk_getD r hglen hdata hgok
    have hmsc := max_sector_count_ge ha hglen
    have hok := hgok j (addr_slot_lt hglen ha)
    rw [ha] at hok
    have hok2 : 2 ≤ a.offset ∧ 1 ≤ a.len ∧
        a.offset + a.len - HEADER_SECTORS ≤ r.occupied_sectors.length := hok
    have hHS : HEADER_SECTORS = 2 := rfl
    have h1 : (a.offset - HEADER_SECTORS) * SECTOR_LEN +
        a.len * SECTOR_LEN = (a.offset + a.len - HEADER_SECTORS) * SECTOR_LEN
        := by
      rw [← Nat.add_mul]
      congr 1
      omega
    have h2 := Nat.mul_le_mul_right SECTOR_LEN hmsc
    omega

/-- **C1 witness**: the all-zero 12288-byte region file is well formed, so
the round trip applies to it. -/
theorem C1_roundtrip_witness :
    RegionWF (RegionFile.new (List.replicate 12288 0)) ∧
    (RegionFile.parse_panics
        (RegionFile.new (List.replicate 12288 0)).write_out_bytes = false ∧
    (∀ j, j < 1024 →
      (RegionFile.new (RegionFile.new
        (List.replicate 12288 0)).write_out_bytes).headers.getD j ⟨none, 0⟩ =
        (RegionFile.new (List.replicate 12288 0)).headers.getD j ⟨none, 0⟩) ∧
    (∀ j a, ((RegionFile.new (List.replicate 12288 0)).headers.getD j
        ⟨none, 0⟩).address = some a →
      ∀ k, k < a.len * SECTOR_LEN →
        (RegionFile.new (RegionFile.new
          (List.replicate 12288 0)).write_out_bytes).chunk_data.getD
          ((a.offset - HEADER_SECTORS) * SECTOR_LEN + k) 0 =
          (RegionFile.new (List.replicate 12288 0)).chunk_data.getD
          ((a.offset - HEADER_SECTORS) * SECTOR_LEN + k) 0)) := by
  have hwf : RegionWF (RegionFile.new (List.replicate 12288 0)) := by
    refine ⟨GeomInv_new _ ?_, ?_, ?_, ?_⟩
    · intro j1 hj1 j2 hj2 hne
      rw [zeros_headers_none]
      exact trivial
    · rw [new_chunk_data, regionChunkData_length, new_occ,
        foldl_markRun_length, List.length_replicate]
    · intro j hj
      rw [new_headers, regionHeaders_getD _ hj]
      have hhd : regionHeaderData (List.replicate 12288 0) =
          List.replicate (min HEADER_LEN 12288) 0 := by
        unfold regionHeaderData
        rw [List.take_replicate]
      rw [hhd, parseSlot_none_slot (readBE_replicate_zero _ _),
        readBE_replicate_zero]
      show (0 : Nat) < 2 ^ 32
      norm_num
    · intro j a ha
      rw [zeros_headers_none] at ha
      exact Option.noConfusion ha
  exact ⟨hwf, C1_roundtrip _ hwf⟩

theorem foldl_markRun_nil (hs : List ChunkHeader) :
    hs.foldl markRun [] = [] := by
  induction hs with
  | nil => rfl
  | cons h t ih =>
    rw [List.foldl_cons]
    have hm : markRun [] h = [] := by
      unfold markRun
      cases ha : h.address with
      | none => rfl
      | some a => rfl
    rw [hm, ih]

theorem free_chunk_occ_none (r : RegionFile) (x z : Nat)
    (h : (r.headers.getD (coords_to_idx x z) ⟨none, 0⟩).address = none) :
    (r.free_chunk x z).occupied_sectors = r.occupied_sectors := by
  unfold RegionFile.free_chunk
  simp only [h]

/-- Parsing the serialized image of a region whose single chunk (slot 0,
offset 2, length 1) records internal length 1 drops that slot. -/
theorem parse_drops_empty_slot (r1 : RegionFile)
    (r1len : r1.headers.length = 1024)
    (r1addr0 : (r1.headers.getD 0 ⟨none, 0⟩).address = some ⟨2, 1⟩)
    (r1addrj : ∀ j, j ≠ 0 → (r1.headers.getD j ⟨none, 0⟩).address = none)
    (r1occlen : r1.occupied_sectors.length = 1)
    (hdata1 : r1.chunk_data.length =
      r1.occupied_sectors.length * SECTOR_LEN)
    (r1meta : readBE r1.chunk_data 0 = 1) :
    ((RegionFile.new r1.write_out_bytes).headers.getD 0 ⟨none, 0⟩).address
      = none := by
  have hok1 : ∀ j, j < 1024 → addrOK r1.occupied_sectors.length
      (r1.headers.getD j ⟨none, 0⟩).address := by
    intro j hj
    by_cases hj0 : j = 0
    · subst hj0
      rw [r1addr0, r1occlen]
      show 2 ≤ 2 ∧ 1 ≤ 1 ∧ 2 + 1 - HEADER_SECTORS ≤ 1
      exact ⟨by omega, by omega, by decide⟩
    · rw [r1addrj j hj0]
      exact trivial
  have hmsc1 : r1.max_sector_count = 1 := by
    have hge2 : 1 ≤ r1.max_sector_count := max_sector_count_ge r1addr0 r1len
    have hle := max_sector_count_le hok1 r1len
    rw [r1occlen] at hle
    omega
  have hread1 : readBE (regionHeaderData r1.write_out_bytes) (4 * 0) =
      2 * 256 + 1 := by
    have h2 : readBE (regionHeaderData r1.write_out_bytes) (4 * 0) =
        2 % 2 ^ 24 * 256 + 1 % 256 :=
      readBE_loc_some r1 r1len (by omega) r1addr0
    rw [h2]
    decide
  have hsc1 : regionSectorCount r1.write_out_bytes = 1 := by
    rw [wob_sector_count r1 r1len hdata1 hok1, hmsc1]
  have hbadmeta : (ChunkInternalMeta.read (((regionChunkData
      r1.write_out_bytes).drop ((2 - 2) * SECTOR_LEN)).take
      (1 * SECTOR_LEN))).length ≤ 1 := by
    rw [wob_cs_meta r1 r1len hdata1 hok1
      ⟨by omega, by omega, by rw [hmsc1]⟩]
    rw [(by decide : ((2 : Nat) - 2) * SECTOR_LEN = 0), r1meta]
  rw [new_headers, regionHeaders_getD _ (by omega : (0 : Nat) < 1024)]
  exact parseSlot_meta_bad hread1 (by norm_num) (by omega)
    ⟨by omega, by omega, by rw [hsc1]⟩ (Or.inl hbadmeta)

theorem writeRange_nil {α : Type} (l : List α) (p : Nat) :
    writeRange l p [] = l := by
  induction l generalizing p with
  | nil => rfl
  | cons x xs ih =>
    cases p with
    | zero => rfl
    | succ q => simp only [writeRange, ih]

/-- Reading back the big-endian length field written by
`ChunkInternalMeta::write` at the start of a buffer. -/
theorem readBE_writeRange_metaBytes (l : List Nat) (m : ChunkInternalMeta)
    (hl : 5 ≤ l.length) (hm : m.length < 2 ^ 32) :
    readBE (writeRange l 0 m.writeBytes) 0 = m.length := by
  unfold readBE
  rw [getD_writeRange, getD_writeRange, getD_writeRange, getD_writeRange]
  have hwb : (m.writeBytes).length = 5 := rfl
  rw [hwb]
  rw [if_pos (by omega : 0 ≤ 0 + 0 ∧ 0 + 0 < 0 + 5 ∧ 0 + 0 < l.length),
    if_pos (by omega : 0 ≤ 1 + 0 ∧ 1 + 0 < 0 + 5 ∧ 1 + 0 < l.length),
    if_pos (by omega : 0 ≤ 2 + 0 ∧ 2 + 0 < 0 + 5 ∧ 2 + 0 < l.length),
    if_pos (by omega : 0 ≤ 3 + 0 ∧ 3 + 0 < 0 + 5 ∧ 3 + 0 < l.length)]
  rw [(by omega : (0 : Nat) + 0 - 0 = 0), (by omega : (1 : Nat) + 0 - 0 = 1),
    (by omega : (2 : Nat) + 0 - 0 = 2), (by omega : (3 : Nat) + 0 - 0 = 3)]
  unfold ChunkInternalMeta.writeBytes
  simp only [List.getD_cons_zero, List.getD_cons_succ]
  rw [readBE_eq_of_bytes (by rw [land_255]; exact Nat.mod_lt _ (by omega))
    (by rw [land_255]; exact Nat.mod_lt _ (by omega))
    (by rw [land_255]; exact Nat.mod_lt _ (by omega))
    (by rw [land_255]; exact Nat.mod_lt _ (by omega))]
  rw [land_255, land_255, land_255, land_255, Nat.shiftRight_eq_div_pow,
    Nat.shiftRight_eq_div_pow, Nat.shiftRight_eq_div_pow,
    Nat.shiftRight_eq_div_pow]
  rw [(by norm_num : (2 : Nat) ^ 24 = 16777216),
    (by norm_num : (2 : Nat) ^ 16 = 65536),
    (by norm_num : (2 : Nat) ^ 8 = 256), (by norm_num : (2 : Nat) ^ 0 = 1)]
  have h32 : m.length < 4294967296 := by
    rw [← (by norm_num : (2 : Nat) ^ 32 = 4294967296)]
    exact hm
  omega

/-- `write_chunk` of an empty payload on an empty region: the payload
buffer becomes a single sector holding internal metadata with recorded
length `0 + 1 = 1`. -/
theorem write_chunk_empty_payload (r : RegionFile) (x z : Nat)
    (ct : CompressionType) (mtime : Nat)
    (hfree_cd : (r.free_chunk x z).chunk_data = [])
    (hfree_occ : (r.free_chunk x z).occupied_sectors = []) :
    (r.write_chunk x z [] ct mtime).chunk_data.length = SECTOR_LEN ∧
    readBE (r.write_chunk x z [] ct mtime).chunk_data 0 = 1 := by
  have hsmall : ¬ MAX_CHUNK_LEN ≤ ([] : List Nat).length := by decide
  have heq : allocate_run (r.free_chunk x z).occupied_sectors
      (divCeil (([] : List Nat).length + ChunkInternalMeta.LEN) SECTOR_LEN) =
      (some ⟨2, 1⟩, [true]) := by
    rw [hfree_occ]
    decide
  constructor
  · unfold RegionFile.write_chunk
    rw [if_neg hsmall]
    simp only [heq]
    rw [hfree_cd]
    rw [length_writeRange, length_writeRange, if_pos (by decide),
      if_pos (by decide), length_fillRange, List.length_append,
      List.length_replicate]
    decide
  · unfold RegionFile.write_chunk
    rw [if_neg hsmall]
    simp only [heq]
    rw [hfree_cd, writeRange_nil, if_pos (by decide), if_pos (by decide),
      (by decide : ((2 : Nat) - HEADER_SECTORS) * SECTOR_LEN = 0)]
    rw [readBE_writeRange_metaBytes]
    · rfl
    · rw [length_fillRange, List.length_append, List.length_replicate]
      decide
    · show ([] : List Nat).length + 1 < 2 ^ 32
      decide

/-- **C1 counterexample**: on an empty region, `write_chunk` with an EMPTY
payload stores a chunk at offset 2 (slot header present), but its internal
metadata records length `0 + 1 = 1`, so parsing the serialized bytes drops
the slot (`meta.length ≤ 1`): the round trip loses the chunk, refuting the
claim's empty-payload case. -/
theorem C1_counterexample :
    (((RegionFile.new (List.replicate 8192 0)).write_chunk 0 0 []
        CompressionType.GZip 0).headers.getD 0 ⟨none, 0⟩).address =
      some ⟨2, 1⟩ ∧
    ((RegionFile.new (((RegionFile.new (List.replicate 8192 0)).write_chunk
        0 0 [] CompressionType.GZip 0).write_out_bytes)).headers.getD 0
        ⟨none, 0⟩).address = none := by
  have hsc0 : regionSectorCount (List.replicate 8192 0) = 0 := by
    unfold regionSectorCount
    rw [List.length_drop, List.length_replicate]
    decide
  have base_occ : (RegionFile.new (List.replicate 8192 0)).occupied_sectors
      = [] := by
    rw [new_occ, hsc0]
    exact foldl_markRun_nil _
  have base_len : (RegionFile.new (List.replicate 8192 0)).headers.length
      = 1024 := by
    rw [new_headers]
    exact regionHeaders_length _
  have base_cd : (RegionFile.new (List.replicate 8192 0)).chunk_data = [] := by
    apply List.length_eq_zero.mp
    rw [new_chunk_data, regionChunkData_length, hsc0, Nat.zero_mul]
  have hnone0 : ((RegionFile.new (List.replicate 8192 0)).headers.getD
      (coords_to_idx 0 0) ⟨none, 0⟩).address = none :=
    zeros_headers_none 8192 _
  have free_occ : ((RegionFile.new (List.replicate 8192 0)).free_chunk
      0 0).occupied_sectors = [] :=
    (free_chunk_occ_none _ 0 0 hnone0).trans base_occ
  have hsmall : ¬ MAX_CHUNK_LEN ≤ ([] : List Nat).length := by decide
  have heq : allocate_run ((RegionFile.new (List.replicate
      8192 0)).free_chunk 0 0).occupied_sectors
      (divCeil (([] : List Nat).length + ChunkInternalMeta.LEN) SECTOR_LEN) =
      (some ⟨2, 1⟩, [true]) := by
    rw [free_occ]
    decide
  have hc00 : coords_to_idx 0 0 = 0 := by decide
  have hslot0 := write_chunk_success_headers_getD (RegionFile.new
    (List.replicate 8192 0)) 0 0 [] CompressionType.GZip 0 hsmall heq 0
  rw [if_pos ⟨hc00.symm, by omega⟩] at hslot0
  constructor
  · rw [hslot0]
  · apply parse_drops_empty_slot
    · rw [write_chunk_headers_length]
      exact base_len
    · rw [hslot0]
    · intro j hne
      rw [write_chunk_success_headers_getD _ 0 0 []
        CompressionType.GZip 0 hsmall heq j,
        if_neg (fun hc => hne (hc.1.trans hc00)),
        free_chunk_headers_getD]
      by_cases hcj : j = coords_to_idx 0 0 ∧
          j < (RegionFile.new (List.replicate 8192 0)).headers.length
      · rw [if_pos hcj]
      · rw [if_neg hcj]
        exact zeros_headers_none 8192 j
    · rw [write_chunk_success_occ _ 0 0 [] CompressionType.GZip 0 hsmall heq]
      rfl
    · rw [write_chunk_success_occ _ 0 0 [] CompressionType.GZip 0 hsmall heq,
        (write_chunk_empty_payload _ 0 0 CompressionType.GZip 0
          ((free_chunk_chunk_data _ 0 0).trans base_cd) free_occ).1]
      decide
    · exact (write_chunk_empty_payload _ 0 0 CompressionType.GZip 0
        ((free_chunk_chunk_data _ 0 0).trans base_cd) free_occ).2

/-! ## The FUSE adapter (src/smithy_fs.rs)

`SmithyFS` holds the region plus the inode/namespace state.  `HashMap`s
become association lists; replies become an `FsReply` (the errno or the
success, payloads elided); the reachable `panic!` of the name parser is
the `Except.error` of `applyOp`.  `now` is the ambient `SystemTime::now()`
in epoch seconds. -/

def O_ACCMODE : Nat := 3

def O_RDONLY : Nat := 0

def O_WRONLY : Nat := 1

def O_RDWR : Nat := 2

def O_TRUNC : Nat := 512

def S_IFMT : Nat := 0o170000

def S_IFREG : Nat := 0o100000

def EPERM : Nat := 1

def ENOENT : Nat := 2

def EBADF : Nat := 9

def EACCES : Nat := 13

def EEXIST : Nat := 17

def ENOTDIR : Nat := 20

def EINVAL : Nat := 22

def EFBIG : Nat := 27

def EROFS : Nat := 30

def ENOSYS : Nat := 38

/-- Association-list lookup (model of `HashMap::get`). -/
def alookup {α β : Type} [DecidableEq α] : List (α × β) → α → Option β
  | [], _ => none
  | (k, v) :: rest, key => if k = key then some v else alookup rest key

/-- Association-list insert-or-replace (model of `HashMap::insert`). -/
def ainsert {α β : Type} [DecidableEq α] (l : List (α × β)) (k : α) (v : β) :
    List (α × β) :=
  (k, v) :: l.filter (fun p => decide (p.1 ≠ k))

/-- Association-list removal (model of `HashMap::remove`). -/
def aremove {α β : Type} [DecidableEq α] (l : List (α × β)) (k : α) :
    List (α × β) :=
  l.filter (fun p => decide (p.1 ≠ k))

/-- `std::str::from_utf8`, one step per leading byte; the fuel is the byte
count (each step consumes at least one byte). -/
def utf8DecodeAux : Nat → List Nat → Option (List Char)
  | _, [] => some []
  | 0, _ :: _ => none
  | fuel + 1, b :: rest =>
    if b < 0x80 then
      (utf8DecodeAux fuel rest).map (fun s => Char.ofNat b :: s)
    else if 0xC2 ≤ b ∧ b ≤ 0xDF then
      match rest with
      | b1 :: rest2 =>
        if 0x80 ≤ b1 ∧ b1 ≤ 0xBF then
          (utf8DecodeAux fuel rest2).map
            (fun s => Char.ofNat ((b - 0xC0) * 64 + (b1 - 0x80)) :: s)
        else none
      | [] => none
    else if 0xE0 ≤ b ∧ b ≤ 0xEF then
      match rest with
      | b1 :: b2 :: rest2 =>
        if (if b = 0xE0 then 0xA0 ≤ b1 ∧ b1 ≤ 0xBF
            else if b = 0xED then 0x80 ≤ b1 ∧ b1 ≤ 0x9F
            else 0x80 ≤ b1 ∧ b1 ≤ 0xBF) ∧ 0x80 ≤ b2 ∧ b2 ≤ 0xBF then
          (utf8DecodeAux fuel rest2).map (fun s =>
            Char.ofNat ((b - 0xE0) * 4096 + (b1 - 0x80) * 64 + (b2 - 0x80))
              :: s)
        else none
      | _ => none
    else if 0xF0 ≤ b ∧ b ≤ 0xF4 then
      match rest with
      | b1 :: b2 :: b3 :: rest2 =>
        if (if b = 0xF0 then 0x90 ≤ b1 ∧ b1 ≤ 0xBF
            else if b = 0xF4 then 0x80 ≤ b1 ∧ b1 ≤ 0x8F
            else 0x80 ≤ b1 ∧ b1 ≤ 0xBF) ∧ 0x80 ≤ b2 ∧ b2 ≤ 0xBF ∧
            0x80 ≤ b3 ∧ b3 ≤ 0xBF then
          (utf8DecodeAux fuel rest2).map (fun s =>
            Char.ofNat ((b - 0xF0) * 262144 + (b1 - 0x80) * 4096 +
              (b2 - 0x80) * 64 + (b3 - 0x80)) :: s)
        else none
      | _ => none
    else none

def utf8Decode (bytes : List Nat) : Option (List Char) :=
  utf8DecodeAux (bytes.length + 1) bytes

/-- UTF-8 encoding of one character (`char::encode_utf8`). -/
def utf8EncodeChar (c : Char) : List Nat :=
  let n := c.toNat
  if n < 0x80 then [n]
  else if n < 0x800 then [0xC0 + n / 64, 0x80 + n % 64]
  else if n < 0x10000 then
    [0xE0 + n / 4096, 0x80 + (n / 64) % 64, 0x80 + n % 64]
  else
    [0xF0 + n / 262144, 0x80 + (n / 4096) % 64, 0x80 + (n / 64) % 64,
      0x80 + n % 64]

/-- `str::as_bytes`. -/
def strBytes (s : List Char) : List Nat := (s.map utf8EncodeChar).flatten

/-- `FileKind::is_chunk` (src/smithy_fs.rs:148-153). -/
def FileKind.is_chunk : FileKind → Bool
  | .Chunk => true
  | .CompressionInfo => false

structure FileHandle where
  perms : Nat
deriving DecidableEq, Repr

/-- `FileHandle::new` (src/smithy_fs.rs:160-163). -/
def FileHandle.new (read write : Bool) : FileHandle :=
  ⟨(if read then 1 else 0) ||| ((if write then 1 else 0) <<< 1)⟩

def FileHandle.can_read (h : FileHandle) : Bool := h.perms &&& 1 != 0

def FileHandle.can_write (h : FileHandle) : Bool := h.perms &&& 2 != 0

inductive InodeData where
  | Chunk (data : List Nat)
  | Info (ct : CompressionType)
deriving DecidableEq, Repr

/-- `InodeData::new` (src/smithy_fs.rs:200-205). -/
def InodeData.new (kind : FileKind) (c : Smithy.Chunk) : InodeData :=
  match kind with
  | .Chunk => .Chunk c.data
  | .CompressionInfo => .Info c.compression_type

/-- `InodeData::blank` (src/smithy_fs.rs:207-212). -/
def InodeData.blank : FileKind → InodeData
  | .Chunk => .Chunk []
  | .CompressionInfo => .Info (.Unknown 42)

/-- `InodeData::len` (src/smithy_fs.rs:214-219): byte length of the
content. -/
def InodeData.len : InodeData → Nat
  | .Chunk data => data.length
  | .Info ct => byteLen ct.make_selector_string

def InodeData.kind : InodeData → FileKind
  | .Chunk _ => .Chunk
  | .Info _ => .CompressionInfo

/-- `read_into` (src/smithy_fs.rs:188-195): the replied byte slice. -/
def read_into (data : List Nat) (offset size : Nat) : List Nat :=
  if data.length ≤ offset then []
  else (data.drop offset).take (min (offset + size) data.length - offset)

/-- `InodeData::read` (src/smithy_fs.rs:221-241): errno or replied
bytes. -/
def InodeData.read (d : InodeData) (offset : Int) (size : Nat) :
    Except Nat (List Nat) :=
  if offset < 0 then .error EINVAL
  else
    match d with
    | .Chunk chunk => .ok (read_into chunk offset.toNat size)
    | .Info info => .ok (read_into (strBytes info.make_selector_string)
        offset.toNat size)

/-- `InodeData::write` (src/smithy_fs.rs:244-295): errno, or the updated
data together with the replied `written` count (a `u32` cast). -/
def InodeData.write (d : InodeData) (offset : Int) (data : List Nat) :
    Except Nat (InodeData × Nat) :=
  if offset < 0 then .error EINVAL
  else
    match d with
    | .Chunk chunk =>
      let e := offset.toNat + data.length
      if MAX_CHUNK_LEN ≤ e then .error EFBIG
      else
        let chunk2 := if chunk.length < e
          then chunk ++ List.replicate (e - chunk.length) 0 else chunk
        .ok (.Chunk (writeRange chunk2 offset.toNat data),
          data.length % 2 ^ 32)
    | .Info _ =>
      if offset ≠ 0 then .error EINVAL
      else
        match utf8Decode data with
        | none => .error EINVAL
        | some s =>
          match CompressionType.parse_selector_string s with
          | none => .error EINVAL
          | some ct2 => .ok (.Info ct2, data.length % 2 ^ 32)

structure Inode where
  ino : Nat
  x : Nat
  z : Nat
  data : InodeData
  mtime : Nat
  open_handles : List (Nat × FileHandle)
  linked : Bool
  nlookup : Nat
deriving DecidableEq, Repr

/-- `Inode::new` (src/smithy_fs.rs:317-328). -/
def Inode.new (c : Chunk) (inos : InoSet) (kind : FileKind) : Inode :=
  { ino := inos.get kind, x := c.x, z := c.z, data := InodeData.new kind c,
    mtime := c.mtime, open_handles := [], linked := true, nlookup := 0 }

/-- `Inode::blank` (src/smithy_fs.rs:330-341). -/
def Inode.blank (x z : Nat) (inos : InoSet) (kind : FileKind) (now : Nat) :
    Inode :=
  { ino := inos.get kind, x := x, z := z, data := InodeData.blank kind,
    mtime := now, open_handles := [], linked := true, nlookup := 0 }

/-- `Inode::can_discard` (src/smithy_fs.rs:363-365). -/
def Inode.can_discard (i : Inode) : Bool :=
  !i.linked && i.nlookup == 0 && i.open_handles.isEmpty

structure DirHandle where
  entries : List (Nat × Bool × List Char)
deriving DecidableEq, Repr

structure SmithyFS where
  region : RegionFile
  uid : Nat
  gid : Nat
  writable : Bool
  links : List ((Nat × Nat) × InoSet)
  inodes : List (Nat × Inode)
  dir_handles : List (Nat × DirHandle)
  ino_alloc : Nat
  fh_alloc : Nat
deriving DecidableEq, Repr

/-- `SmithyFS::new` (src/smithy_fs.rs:456-500): scan all 32×32 slots in
`z`-major order, allocating an ino pair per present chunk. -/
def SmithyFS.new (region : RegionFile) (uid gid : Nat) (writable : Bool) :
    SmithyFS :=
  (List.range 32).foldl (fun fs z =>
    (List.range 32).foldl (fun fs x =>
      match fs.region.lookup_chunk x z with
      | none => fs
      | some c =>
        let p := allocate_inos fs.ino_alloc
        { fs with
          ino_alloc := p.2,
          links := ainsert fs.links (x, z) p.1,
          inodes := ainsert (ainsert fs.inodes p.1.chunk_ino
              (Inode.new c p.1 .Chunk)) p.1.info_ino
            (Inode.new c p.1 .CompressionInfo) }) fs)
    { region := region, uid := uid, gid := gid, writable := writable,
      links := [], inodes := [], dir_handles := [],
      ino_alloc := InoAlloc.start, fh_alloc := 0 }

/-- `SmithyFS::get_ino` (src/smithy_fs.rs:502-506). -/
def SmithyFS.get_ino (fs : SmithyFS) (key : FileKey) : Option Nat :=
  (alookup fs.links (key.x, key.z)).map (fun inos => inos.get key.kind)

/-- `SmithyFS::gc` (src/smithy_fs.rs:561-570): drop the inode when it is
unlinked, has no lookups and no open handles. -/
def SmithyFS.gc (fs : SmithyFS) (ino : Nat) : SmithyFS :=
  match alookup fs.inodes ino with
  | none => fs
  | some inode =>
    if inode.can_discard then { fs with inodes := aremove fs.inodes ino }
    else fs

/-- `SmithyFS::create_dir_handle` (src/smithy_fs.rs:528-559). -/
def SmithyFS.create_dir_handle (fs : SmithyFS) : Nat × SmithyFS :=
  let fh := (fs.fh_alloc + 1) % 2 ^ 64
  let base : List (Nat × Bool × List Char) :=
    [(FUSE_ROOT_ID, true, ['.']), (FUSE_ROOT_ID, true, ['.', '.'])]
  let chunkEntries :=
    ((List.range 32).map (fun z =>
      ((List.range 32).map (fun x =>
        match alookup fs.links (x, z) with
        | some inos =>
          [(inos.get .Chunk, false, FileKind.make_fname .Chunk x z),
            (inos.get .CompressionInfo, false,
              FileKind.make_fname .CompressionInfo x z)]
        | none => [])).flatten)).flatten
  (fh, { fs with
           fh_alloc := fh,
           dir_handles := ainsert fs.dir_handles fh ⟨base ++ chunkEntries⟩ })

/-- The kernel-facing operations the claims quantify over; `name`
arguments are `None` when `OsStr::to_str` fails. -/
inductive FsOp where
  | lookup (parent : Nat) (name : Option (List Char))
  | getattr (ino : Nat)
  | mknod (parent : Nat) (name : Option (List Char)) (mode : Nat)
  | «open» (ino : Nat) (flags : Nat)
  | opendir (ino : Nat)
  | read (ino fh : Nat) (offset : Int) (size : Nat)
  | write (ino fh : Nat) (offset : Int) (data : List Nat)
  | readdir (ino fh : Nat) (offset : Int)
  | releasedir (fh : Nat)
  | release (ino fh : Nat)
  | setattr (ino : Nat) (size : Option Nat) (fh : Option Nat)
  | unlink (parent : Nat) (name : Option (List Char))
deriving DecidableEq, Repr

inductive FsReply where
  | errno (e : Nat)
  | ok
deriving DecidableEq, Repr

/-- `Vec::resize(target, 0)` (used by the truncate path of `setattr`). -/
def resizeList (l : List Nat) (target : Nat) : List Nat :=
  if l.length < target then l ++ List.replicate (target - l.length) 0
  else l.take target

/-- The shared tail of `SmithyFS::open` (src/smithy_fs.rs:689-721). -/
def openImpl (fs : SmithyFS) (ino : Nat) (read write : Bool) :
    FsReply × SmithyFS :=
  if write && !fs.writable then (.errno EROFS, fs)
  else
    match alookup fs.inodes ino with
    | none => (.errno ENOENT, fs)
    | some inode =>
      let fh := (fs.fh_alloc + 1) % 2 ^ 64
      let handle := FileHandle.new read write
      let inode2 := { inode with open_handles := ainsert inode.open_handles fh handle }
      (.ok, { fs with fh_alloc := fh, inodes := ainsert fs.inodes ino inode2 })

/-- The body of the unlink loop over the two inos
(src/smithy_fs.rs:983-994): mark unlinked, record for deletion, GC.  The
`Bool` tracks `!to_delete.is_empty()`. -/
def unlinkStep (st : SmithyFS × Bool) (ino : Nat) : SmithyFS × Bool :=
  match alookup st.1.inodes ino with
  | none => st
  | some inode =>
    let fs2 := { st.1 with inodes := ainsert st.1.inodes ino { inode with linked := false } }
    (SmithyFS.gc fs2 ino, true)

/-- One FUSE operation of `impl Filesystem for SmithyFS`
(src/smithy_fs.rs:593-1011).  The result is the reply (errno or success)
and the state after the call; `Except.error` is the name-parser panic
escaping the handler. -/
def applyOp (fs : SmithyFS) (op : FsOp) (now : Nat) :
    Except Unit (FsReply × SmithyFS) :=
  match op with
  | .lookup parent name =>
    if parent ≠ FUSE_ROOT_ID then .ok (.errno ENOENT, fs)
    else
      match name with
      | none => .ok (.errno ENOENT, fs)
      | some s =>
        match FileKey.parse s with
        | .error _ => .error ()
        | .ok none => .ok (.errno ENOENT, fs)
        | .ok (some key) =>
          match fs.get_ino key with
          | none => .ok (.errno ENOENT, fs)
          | some ino =>
            match alookup fs.inodes ino with
            | none => .ok (.errno ENOENT, fs)
            | some inode =>
              let inode2 := { inode with nlookup := inode.nlookup + 1 }
              .ok (.ok, { fs with inodes := ainsert fs.inodes ino inode2 })
  | .getattr ino =>
    if ino = FUSE_ROOT_ID then .ok (.ok, fs)
    else
      match alookup fs.inodes ino with
      | some _ => .ok (.ok, fs)
      | none => .ok (.errno ENOENT, fs)
  | .mknod parent name mode =>
    if !fs.writable then .ok (.errno EROFS, fs)
    else if parent ≠ FUSE_ROOT_ID then .ok (.errno ENOENT, fs)
    else if mode &&& S_IFMT ≠ S_IFREG then .ok (.errno EPERM, fs)
    else
      match name with
      | none => .ok (.errno EINVAL, fs)
      | some s =>
        match FileKey.parse s with
        | .error _ => .error ()
        | .ok none => .ok (.errno EINVAL, fs)
        | .ok (some key) =>
          if (alookup fs.links (key.x, key.z)).isSome
          then .ok (.errno EEXIST, fs)
          else
            let p := allocate_inos fs.ino_alloc
            let newInodes := ainsert (ainsert fs.inodes p.1.chunk_ino
                (Inode.blank key.x key.z p.1 .Chunk now)) p.1.info_ino
              (Inode.blank key.x key.z p.1 .CompressionInfo now)
            .ok (.ok, { fs with
                          ino_alloc := p.2,
                          links := ainsert fs.links (key.x, key.z) p.1,
                          inodes := newInodes })
  | .«open» ino flags =>
    if flags &&& O_ACCMODE = O_RDONLY then
      (if flags &&& O_TRUNC ≠ 0 then .ok (.errno EACCES, fs)
       else .ok (openImpl fs ino true false))
    else if flags &&& O_ACCMODE = O_WRONLY then .ok (openImpl fs ino false true)
    else if flags &&& O_ACCMODE = O_RDWR then .ok (openImpl fs ino true true)
    else .ok (.errno EINVAL, fs)
  | .opendir ino =>
    if ino ≠ FUSE_ROOT_ID then .ok (.errno ENOTDIR, fs)
    else .ok (.ok, fs.create_dir_handle.2)
  | .read ino fh offset size =>
    match alookup fs.inodes ino with
    | none => .ok (.errno ENOENT, fs)
    | some inode =>
      match alookup inode.open_handles fh with
      | none => .ok (.errno EBADF, fs)
      | some h =>
        if h.can_read then
          match inode.data.read offset size with
          | .error e => .ok (.errno e, fs)
          | .ok _ => .ok (.ok, fs)
        else .ok (.errno EACCES, fs)
  | .write ino fh offset data =>
    if !fs.writable then .ok (.errno EROFS, fs)
    else
      match alookup fs.inodes ino with
      | none => .ok (.errno ENOENT, fs)
      | some inode =>
        match alookup inode.open_handles fh with
        | none => .ok (.errno EBADF, fs)
        | some h =>
          if h.can_write then
            match inode.data.write offset data with
            | .error e => .ok (.errno e, fs)
            | .ok d2 =>
              let inode2 := { inode with data := d2.1 }
              .ok (.ok, { fs with inodes := ainsert fs.inodes ino inode2 })
          else .ok (.errno EACCES, fs)
  | .readdir ino fh _ =>
    if ino ≠ FUSE_ROOT_ID then .ok (.errno ENOENT, fs)
    else if (alookup fs.dir_handles fh).isSome then .ok (.ok, fs)
    else .ok (.errno EBADF, fs)
  | .releasedir fh =>
    match alookup fs.dir_handles fh with
    | some _ => .ok (.ok, { fs with dir_handles := aremove fs.dir_handles fh })
    | none => .ok (.errno EBADF, fs)
  | .release ino fh =>
    match alookup fs.inodes ino with
    | none => .ok (.errno ENOENT, fs)
    | some inode =>
      match alookup inode.open_handles fh with
      | some _ =>
        let inode2 := { inode with open_handles := aremove inode.open_handles fh }
        .ok (.ok, SmithyFS.gc { fs with inodes := ainsert fs.inodes ino inode2 } ino)
      | none => .ok (.errno EBADF, fs)
  | .setattr ino size fh =>
    match alookup fs.inodes ino with
    | none => .ok (.errno ENOENT, fs)
    | some inode =>
      match size with
      | some target =>
        if !fs.writable then .ok (.errno EROFS, fs)
        else
          if (match fh with
              | some fhv =>
                match alookup inode.open_handles fhv with
                | some h => !h.can_write
                | none => false
              | none => false)
          then .ok (.errno EACCES, fs)
          else
            match inode.data with
            | .Chunk chunk =>
              if MAX_CHUNK_LEN ≤ target then .ok (.errno EFBIG, fs)
              else
                let inode2 := { inode with data := InodeData.Chunk (resizeList chunk target) }
                .ok (.ok, { fs with inodes := ainsert fs.inodes ino inode2 })
            | .Info _ => .ok (.ok, fs)
      | none => .ok (.errno ENOSYS, fs)
  | .unlink parent name =>
    if parent ≠ FUSE_ROOT_ID then .ok (.errno ENOENT, fs)
    else
      match name with
      | none => .ok (.errno ENOENT, fs)
      | some s =>
        match FileKey.parse s with
        | .error _ => .error ()
        | .ok none => .ok (.errno ENOENT, fs)
        | .ok (some key) =>
          if !key.kind.is_chunk then .ok (.errno EACCES, fs)
          else
            match alookup fs.links (key.x, key.z) with
            | none => .ok (.errno ENOENT, fs)
            | some inos =>
              let st := [inos.chunk_ino, inos.info_ino].foldl unlinkStep
                ({ fs with links := aremove fs.links (key.x, key.z) }, false)
              if st.2 then .ok (.ok, st.1)
              else .ok (.errno ENOENT, st.1)

/-- Splitting a successful reply equation into its components. -/
theorem except_ok_pair_eq {ε : Type} {r1 r2 : FsReply} {a b : SmithyFS}
    (h : (Except.ok (r1, a) : Except ε (FsReply × SmithyFS)) = Except.ok (r2, b)) :
    r1 = r2 ∧ a = b := by
  injection h with h1
  exact ⟨congrArg Prod.fst h1, congrArg Prod.snd h1⟩

theorem gc_region (fs : SmithyFS) (ino : Nat) :
    (SmithyFS.gc fs ino).region = fs.region := by
  unfold SmithyFS.gc
  split
  · rfl
  · split
    · rfl
    · rfl

theorem unlinkStep_region (st : SmithyFS × Bool) (ino : Nat) :
    (unlinkStep st ino).1.region = st.1.region := by
  unfold unlinkStep
  split
  · rfl
  · rw [gc_region]

theorem foldl_unlinkStep_region (l : List Nat) (st : SmithyFS × Bool) :
    ((l.foldl unlinkStep st).1).region = st.1.region := by
  induction l generalizing st with
  | nil => rfl
  | cons a t ih => rw [List.foldl_cons, ih, unlinkStep_region]

theorem unlinkStep_snd_true (st : SmithyFS × Bool) (ino : Nat)
    (h : st.2 = true) : (unlinkStep st ino).2 = true := by
  unfold unlinkStep
  split
  · exact h
  · rfl

theorem unlinkStep_snd_of_lookup (st : SmithyFS × Bool) (ino : Nat) (i : Inode)
    (h : alookup st.1.inodes ino = some i) : (unlinkStep st ino).2 = true := by
  unfold unlinkStep
  rw [h]

/-- The adapter state invariant: every link entry points at inodes that
exist in the inode table.  It holds of every reachable state: `new` and
`mknod` insert links and both inodes together, `unlink` removes the link
before unlinking the inodes, and `gc` only discards inodes already
unlinked. -/
def AdapterWF (fs : SmithyFS) : Prop :=
  ∀ xz inos, alookup fs.links xz = some inos →
    (alookup fs.inodes inos.chunk_ino).isSome ∧
      (alookup fs.inodes inos.info_ino).isSome

/-- Claim C8: on a well-formed adapter state, every operation that
replies with an errno leaves the adapter state — links, inodes,
dir-handles, counters, and the region — exactly unchanged. -/
theorem C8_errno_preserves_state (fs : SmithyFS) (op : FsOp) (now e : Nat)
    (fs2 : SmithyFS) (hwf : AdapterWF fs)
    (h : applyOp fs op now = .ok (.errno e, fs2)) : fs2 = fs := by
  cases op
  case unlink parent name =>
    simp only [applyOp] at h
    split at h
    · exact (except_ok_pair_eq h).2.symm
    · split at h
      · exact (except_ok_pair_eq h).2.symm
      · rename_i s
        split at h
        · exact Except.noConfusion h
        · exact (except_ok_pair_eq h).2.symm
        · rename_i key hkey
          split at h
          · exact (except_ok_pair_eq h).2.symm
          · split at h
            · exact (except_ok_pair_eq h).2.symm
            · rename_i inos hlinks
              split at h
              · exact FsReply.noConfusion (except_ok_pair_eq h).1
              · rename_i hflag
                exfalso
                apply hflag
                obtain ⟨i, hi⟩ :=
                  Option.isSome_iff_exists.mp (hwf (key.x, key.z) inos hlinks).1
                rw [List.foldl_cons, List.foldl_cons, List.foldl_nil]
                exact unlinkStep_snd_true _ _ (unlinkStep_snd_of_lookup _ _ _ hi)
  all_goals
    simp only [applyOp, openImpl] at h
    repeat' split at h
    all_goals
      first
        | exact (except_ok_pair_eq h).2.symm
        | exact FsReply.noConfusion (except_ok_pair_eq h).1
        | exact Except.noConfusion h

/-- A tiny adapter state over an empty region, used to instantiate the
claims at a concrete input. -/
def fs0 : SmithyFS :=
  { region := ⟨[], [], [], []⟩, uid := 0, gid := 0, writable := true,
    links := [], inodes := [], dir_handles := [], ino_alloc := 2,
    fh_alloc := 0 }

/-- Witness for C8: `getattr` on a missing ino replies ENOENT and
preserves the (well-formed) state. -/
theorem C8_errno_preserves_state_witness :
    AdapterWF fs0 ∧
      applyOp fs0 (.getattr 5) 0 = .ok (.errno ENOENT, fs0) ∧ fs0 = fs0 := by
  have hwf : AdapterWF fs0 := by
    intro xz inos hx
    exact Option.noConfusion hx
  have hh : applyOp fs0 (.getattr 5) 0 = .ok (.errno ENOENT, fs0) := rfl
  exact ⟨hwf, hh, C8_errno_preserves_state fs0 (.getattr 5) 0 ENOENT fs0 hwf hh⟩

/-- Claim C2 (amended): the adapter never routes a mutation into the
region engine — after EVERY adapter operation, errno or success, the
owned `RegionFile` is unchanged, and in particular `lookup_chunk` answers
exactly as before. -/
theorem C2_adapter_region (fs : SmithyFS) (op : FsOp) (now : Nat)
    (r : FsReply) (fs2 : SmithyFS)
    (h : applyOp fs op now = .ok (r, fs2)) :
    fs2.region = fs.region ∧
      ∀ x z, fs2.region.lookup_chunk x z = fs.region.lookup_chunk x z := by
  have hr : fs2.region = fs.region := by
    cases op
    all_goals
      simp only [applyOp, openImpl] at h
      repeat' split at h
      all_goals
        first
          | exact Except.noConfusion h
          | (rw [← (except_ok_pair_eq h).2] <;>
              first
                | rfl
                | rw [gc_region]
                | rw [foldl_unlinkStep_region])
  exact ⟨hr, fun x z => by rw [hr]⟩

/-- Witness for C2: a successful `getattr` on the root leaves the region
untouched. -/
theorem C2_adapter_region_witness :
    applyOp fs0 (.getattr 1) 0 = .ok (.ok, fs0) ∧ fs0.region = fs0.region := by
  have hh : applyOp fs0 (.getattr 1) 0 = .ok (.ok, fs0) := rfl
  exact ⟨hh, (C2_adapter_region fs0 (.getattr 1) 0 .ok fs0 hh).1⟩

/-- A region holding one stored chunk at slot (0, 0): one sector run at
offset 2, payload byte 170, GZip. -/
def regionC : RegionFile :=
  { headers := ⟨some ⟨2, 1⟩, 0⟩ :: List.replicate 1023 ⟨none, 0⟩,
    chunk_data := [0, 0, 0, 2, 1, 170] ++ List.replicate 4090 0,
    occupied_sectors := [true],
    dirty_sectors := [false] }

/-- The chunk `regionC` stores at (0, 0). -/
def chunkC : Chunk :=
  { x := 0, z := 0, mtime := 0, compression_type := .GZip, data := [170] }

/-- An adapter state mounted on `regionC`, with the (0, 0) chunk linked
through inos 2 and 3. -/
def fsC : SmithyFS :=
  { region := regionC, uid := 0, gid := 0, writable := true,
    links := [((0, 0), ⟨2, 3⟩)],
    inodes := [(2, { ino := 2, x := 0, z := 0, data := .Chunk [170],
                     mtime := 0, open_handles := [], linked := true,
                     nlookup := 0 }),
               (3, { ino := 3, x := 0, z := 0, data := .Info .GZip,
                     mtime := 0, open_handles := [], linked := true,
                     nlookup := 0 })],
    dir_handles := [], ino_alloc := 4, fh_alloc := 0 }

/-- Counterexample to C2 as stated: unlinking `x0z0.nbt` for a chunk
present at mount succeeds and removes the link, yet the region engine is
never told — `lookup_chunk 0 0` still returns the chunk, not `None`. -/
theorem C2_counterexample :
    ∃ fs2,
      applyOp fsC (.unlink 1 (some ['x', '0', 'z', '0', '.', 'n', 'b', 't'])) 0
          = .ok (.ok, fs2) ∧
        alookup fs2.links (0, 0) = none ∧
        fs2.region.lookup_chunk 0 0 = some chunkC ∧
        fsC.region.lookup_chunk 0 0 = some chunkC :=
  ⟨_, rfl, rfl, rfl, rfl⟩

end Smithy
